import Mathlib

/-!
# External m-way merge sort (`src/sort/mwaymergesort/mwaymergesort.cc`)

A shallow embedding of the class `MwayMergesort<T>` and a verification of its
split / heap-initialisation / merge protocol.

Modelling conventions.

* A record type `T` is any linearly ordered type (the test instantiates
  `std::uint32_t`).
* A file stream is modelled by the list of records that are still unread
  (the records behind the read cursor); a formatted extraction `fs >> value`
  removes the head of that list.  Every stream of the program has
  `exceptions(failbit | badbit)` set (lines 75, 83, 183-184; the mask travels
  with the stream when it is moved into `chunksfs`), so an extraction at the
  end of a stream raises `std::ios_base::failure` instead of ending the loop.
* `std::priority_queue` is a library type: it is modelled by its contract
  (structure `PriorityQueue`), so every theorem holds for every tie-breaking
  behaviour of the heap.  `ListQueue` is an executable instance.
* `std::sort` on a buffer is modelled by `List.insertionSort`.
* Files and directories can always be opened, created and removed.
* Loops that are not bounded by a counter run on fuel; `Outcome.timeout`
  is the answer of the model when the fuel is used up (it is proved never to
  happen for `sort`).
-/

namespace MwayMergesort

/-- Value is used to store a value and associated chunk in a heap. -/
structure Value (T : Type) where
  value : T
  chunkid : Nat
deriving DecidableEq

/-- GreaterThanValue orders Value by value. -/
def GreaterThanValue {T : Type} [LinearOrder T] (lhs rhs : Value T) : Bool :=
  decide (lhs.value > rhs.value)

/-- The exceptions the program can leave `sort` with.  The four
`insufficient...` constructors are the four `LoadChunkError` messages of the
source, `iosFailure` is `std::ios_base::failure`, raised by a stream whose
exception mask contains `failbit`, and `undefinedBehavior` stands for an
integer division by zero or a vector index out of range. -/
inductive Error where
  | insufficientChunks (expected received : Nat)
  | insufficientHeap (expected received : Nat)
  | insufficientChunk (chunkid expected received : Nat)
  | insufficientSum (expected received : Nat)
  | iosFailure
  | undefinedBehavior
deriving DecidableEq

/-- The result of running a piece of the program: a normal return, an
exception, or the model running out of fuel. -/
inductive Outcome (σ : Type) where
  | ok (s : σ)
  | throw (e : Error)
  | timeout

/-- The contract of `std::priority_queue<Value<T>, std::vector<Value<T>>,
GreaterThanValue<T>>`: `top` is an entry that no other entry is smaller than
(`none` stands for `empty()`), `pop` removes it, `emplace` adds an entry.
`toList` lists the entries held. -/
structure PriorityQueue (T : Type) [LinearOrder T] where
  Q : Type
  nil : Q
  emplace : Q → Value T → Q
  top : Q → Option (Value T)
  pop : Q → Q
  size : Q → Nat
  toList : Q → List (Value T)
  toList_nil : toList nil = []
  toList_emplace : ∀ h v, (toList (emplace h v)).Perm (v :: toList h)
  top_eq_none : ∀ h, top h = none ↔ toList h = []
  top_le : ∀ h v, top h = some v → ∀ w ∈ toList h, GreaterThanValue v w = false
  pop_perm : ∀ h v, top h = some v → (v :: toList (pop h)).Perm (toList h)
  size_eq : ∀ h, size h = (toList h).length

/-- The state of a `MwayMergesort<T>` object together with the contents of
the output file `outfn`.  A chunk stream is the list of its unread records. -/
structure Sorter (T : Type) [LinearOrder T] (pq : PriorityQueue T) where
  m : Nat
  k : Nat
  p : Nat
  q : Nat
  chunksfs : List (List T)
  chunksrd : List Nat
  min_heap : pq.Q
  outfs : List T

/-- What a loop body does: go round again, leave the loop, or raise
(`timeout` hands on a `timeout` of a loop inside the body). -/
inductive Ctl (σ : Type) where
  | next (s : σ)
  | exit (s : σ)
  | throw (e : Error)
  | timeout

/-- Run a loop body until it leaves the loop, on fuel. -/
def loop {σ : Type} (step : σ → Ctl σ) : Nat → σ → Outcome σ
  | 0, _ => .timeout
  | fuel + 1, s =>
    match step s with
    | .next s' => loop step fuel s'
    | .exit s' => .ok s'
    | .throw e => .throw e
    | .timeout => .timeout

/-- The state at the head of iteration `n` of a loop (`none` when the loop
has left or raised before). -/
def iter {σ : Type} (step : σ → Ctl σ) : Nat → σ → Option σ
  | 0, s => some s
  | n + 1, s =>
    match step s with
    | .next s' => iter step n s'
    | .exit _ => none
    | .throw _ => none
    | .timeout => none

section Program

variable {T : Type} [LinearOrder T]

/-- The constructor: `p(m/k)`, `q(k/p)`. -/
def new (pq : PriorityQueue T) (m k : Nat) : Outcome (Sorter T pq) :=
  if k = 0 then .throw .undefinedBehavior
  else if m / k = 0 then .throw .undefinedBehavior
  else .ok
    { m := m, k := k, p := m / k, q := k / (m / k),
      chunksfs := [], chunksrd := [], min_heap := pq.nil, outfs := [] }

/-- The variables of the loop of `splitAndSortChunks`: the unread input, the
in-memory buffer `chunk`, `chunkid` and the chunk streams written so far. -/
structure SplitState (T : Type) where
  infs : List T
  chunk : List T
  chunkid : Nat
  chunksfs : List (List T)

/-- One iteration of `for (T value; infs >> value; )` in
`splitAndSortChunks` (lines 169-196). -/
def splitStep (k p : Nat) (s : SplitState T) : Ctl (SplitState T) :=
  match s.infs with
  | [] => .throw .iosFailure
  | value :: infs =>
    let chunk := s.chunk ++ [value]
    if chunk.length = k then
      let chunkfs := chunk.insertionSort (· ≤ ·)
      let chunkid := s.chunkid + 1
      if chunkid = p then .exit ⟨infs, [], chunkid, s.chunksfs ++ [chunkfs]⟩
      else .next ⟨infs, [], chunkid, s.chunksfs ++ [chunkfs]⟩
    else .next ⟨infs, chunk, s.chunkid, s.chunksfs⟩

/-- The state in which the loop of `splitAndSortChunks` starts. -/
def splitInit {pq : PriorityQueue T} (s : Sorter T pq) (infs : List T) : SplitState T :=
  ⟨infs, [], 0, s.chunksfs⟩

/-- Read, sort, and write input into p chunks of size k (lines 154-205).
Returns the object and the unread rest of the input. -/
def splitAndSortChunks {pq : PriorityQueue T} (s : Sorter T pq) (infs : List T) :
    Outcome (Sorter T pq × List T) :=
  match loop (splitStep s.k s.p) (infs.length + 1) (splitInit s infs) with
  | .timeout => .timeout
  | .throw e => .throw e
  | .ok st =>
    if st.chunkid ≠ s.p then .throw (.insufficientChunks s.p st.chunkid)
    else .ok ({ s with chunksfs := st.chunksfs }, st.infs)

/-- The loop of `loadChunk` (line 229); `n` is `q - count`, the number of
iterations that the test `count < q` still admits.  With `n = 0` the test
fails and the loop ends; otherwise the extraction is attempted. -/
def loadLoop (pq : PriorityQueue T) (chunkid : Nat) :
    Nat → Nat → List T → pq.Q → Outcome (Nat × List T × pq.Q)
  | 0, count, fs, h => .ok (count, fs, h)
  | n + 1, count, fs, h =>
    match fs with
    | [] => .throw .iosFailure
    | value :: fs' => loadLoop pq chunkid n (count + 1) fs' (pq.emplace h ⟨value, chunkid⟩)

/-- Read the next q entries from the chunk into the heap (lines 224-242). -/
def loadChunk {pq : PriorityQueue T} (s : Sorter T pq) (chunkid : Nat) : Outcome (Sorter T pq) :=
  match s.chunksfs[chunkid]? with
  | none => .throw .undefinedBehavior
  | some fs =>
    match loadLoop pq chunkid s.q 0 fs s.min_heap with
    | .timeout => .timeout
    | .throw e => .throw e
    | .ok (count, fs', h) =>
      if count ≠ s.q then .throw (.insufficientChunk chunkid s.q count)
      else .ok { s with chunksfs := s.chunksfs.set chunkid fs', min_heap := h }

/-- The loop of `initHeap` (lines 210-213), `n` chunks still to load. -/
def initLoop {pq : PriorityQueue T} : Nat → Nat → Sorter T pq → Outcome (Sorter T pq)
  | 0, _, s => .ok s
  | n + 1, chunkid, s =>
    match loadChunk s chunkid with
    | .timeout => .timeout
    | .throw e => .throw e
    | .ok s' => initLoop n (chunkid + 1) { s' with chunksrd := s'.chunksrd ++ [0] }

/-- Load the p chunks of q entries each into the heap (lines 207-222). -/
def initHeap {pq : PriorityQueue T} (s : Sorter T pq) : Outcome (Sorter T pq) :=
  match initLoop s.p 0 s with
  | .timeout => .timeout
  | .throw e => .throw e
  | .ok s' =>
    if pq.size s'.min_heap ≠ s'.k then .throw (.insufficientHeap s'.k (pq.size s'.min_heap))
    else .ok s'

/-- The object after lines 93-97 of an iteration of the merge loop: the top
`value` is written to the output, popped, and the counter of its chunk,
which was `rd`, is incremented. -/
def afterPop {pq : PriorityQueue T} (s : Sorter T pq) (value : Value T) (rd : Nat) :
    Sorter T pq :=
  { s with outfs := s.outfs ++ [value.value], min_heap := pq.pop s.min_heap,
           chunksrd := s.chunksrd.set value.chunkid (rd + 1) }

/-- One iteration of the merge loop of `sort` (lines 92-103). -/
def mergeStep {pq : PriorityQueue T} (s : Sorter T pq) : Ctl (Sorter T pq) :=
  match pq.top s.min_heap with
  | none => .exit s
  | some value =>
    match s.chunksrd[value.chunkid]? with
    | none => .throw .undefinedBehavior
    | some rd =>
      if s.q = 0 then .throw .undefinedBehavior
      else if (rd + 1) % s.q = 0 then
        if s.p = 0 then .throw .undefinedBehavior
        else if rd + 1 < s.m / s.p then
          match loadChunk (afterPop s value rd) value.chunkid with
          | .timeout => .timeout
          | .throw e => .throw e
          | .ok s2 => .next s2
        else .next (afterPop s value rd)
      else .next (afterPop s value rd)

/-- The state in which the merge loop starts: the object after the
constructor, `splitAndSortChunks` and `initHeap`. -/
def mergeInit (pq : PriorityQueue T) (m k : Nat) (input : List T) : Outcome (Sorter T pq) :=
  match new pq m k with
  | .timeout => .timeout
  | .throw e => .throw e
  | .ok s0 =>
    match splitAndSortChunks s0 input with
    | .timeout => .timeout
    | .throw e => .throw e
    | .ok (s1, _) => initHeap s1

/-- The method `sort` (lines 67-116) of an object constructed with `m` and
`k`, on an input file holding the records `input`. -/
def sort (pq : PriorityQueue T) (m k : Nat) (input : List T) : Outcome (Sorter T pq) :=
  match mergeInit pq m k input with
  | .timeout => .timeout
  | .throw e => .throw e
  | .ok s2 =>
    match loop mergeStep (s2.p * s2.k + 1) s2 with
    | .timeout => .timeout
    | .throw e => .throw e
    | .ok s3 =>
      if s3.chunksrd.sum ≠ s3.m then .throw (.insufficientSum s3.m s3.chunksrd.sum)
      else .ok s3

/-- `fs::create_directories(tmpdirn, ec)` (line 158), on the flag that tells
whether the directory `tmpdirn` exists: afterwards it exists, whether it did
before or not. -/
def create_directories (_tmpdir : Bool) : Bool := true

/-- `fs::remove_all(tmpdirn, ec)` (line 248): afterwards the directory and
all its contents are gone. -/
def remove_all (_tmpdir : Bool) : Bool := false

/-- Remove the temporary directory and all its contents (lines 244-252). -/
def cleanup (tmpdir : Bool) : Bool := remove_all tmpdir

/-- The destructor `~MwayMergesort` (lines 61-64): it calls `cleanup`. -/
def destroy (tmpdir : Bool) : Bool := cleanup tmpdir

/-- The method `sort` together with the directory `tmpdirn`: the result of
`sort` and whether the directory exists when `sort` returns or raises.  The
first statement of `splitAndSortChunks` creates the directory; no statement
of `sort`, `splitAndSortChunks`, `initHeap` or `loadChunk` removes it. -/
def sortOnDisk (pq : PriorityQueue T) (m k : Nat) (input : List T) (tmpdir : Bool) :
    Outcome (Sorter T pq) × Bool :=
  match new pq m k with
  | .ok _ => (sort pq m k input, create_directories tmpdir)
  | .throw e => (.throw e, tmpdir)
  | .timeout => (.timeout, tmpdir)

/-- A scope that constructs the object, calls `sort` and is left, normally or
by the exception of `sort`: leaving it destroys the object (as in the test,
lines 289-326). -/
def sortInScope (pq : PriorityQueue T) (m k : Nat) (input : List T) (tmpdir : Bool) :
    Outcome (Sorter T pq) × Bool :=
  ((sortOnDisk pq m k input tmpdir).1, destroy (sortOnDisk pq m k input tmpdir).2)

end Program

/-! ### An executable priority queue -/

section ListQueue

variable {T : Type} [LinearOrder T]

/-- The first entry of least value. -/
def listTop : List (Value T) → Option (Value T)
  | [] => none
  | v :: rest =>
    match listTop rest with
    | none => some v
    | some w => if GreaterThanValue v w then some w else some v

/-- Remove the entry that `listTop` returns. -/
def listPop : List (Value T) → List (Value T)
  | [] => []
  | v :: rest =>
    match listTop rest with
    | none => rest
    | some w => if GreaterThanValue v w then v :: listPop rest else rest

/-- A priority queue kept as a plain list; among entries of equal value the
one nearest the front is on top. -/
def ListQueue (T : Type) [LinearOrder T] : PriorityQueue T where
  Q := List (Value T)
  nil := []
  emplace h v := h ++ [v]
  top := listTop
  pop := listPop
  size := List.length
  toList := id
  toList_nil := rfl
  toList_emplace h v := by simp
  top_eq_none l := by
    cases l with
    | nil => simp [listTop]
    | cons v rest =>
      simp only [listTop]
      cases listTop rest with
      | none => simp
      | some w => by_cases h : GreaterThanValue v w = true <;> simp [h]
  top_le l := by
    induction l with
    | nil => intro v h; simp [listTop] at h
    | cons a rest ih =>
      intro v h
      simp only [listTop] at h
      cases hr : listTop rest with
      | none =>
        rw [hr] at h
        simp only [Option.some.injEq] at h
        subst h
        have : rest = [] := by
          cases rest with
          | nil => rfl
          | cons b rest' =>
            simp only [listTop] at hr
            cases hb : listTop rest' with
            | none => rw [hb] at hr; simp at hr
            | some w =>
              rw [hb] at hr
              by_cases hg : GreaterThanValue b w = true <;> simp [hg] at hr
        subst this
        intro w hw
        simp only [id, List.mem_singleton] at hw
        subst hw
        simp [GreaterThanValue]
      | some w =>
        rw [hr] at h
        have ihw := ih w hr
        by_cases hg : GreaterThanValue a w = true
        · simp only [hg, if_true, Option.some.injEq] at h
          subst h
          intro x hx
          rcases List.mem_cons.1 hx with hx | hx
          · subst hx
            simp only [GreaterThanValue, decide_eq_true_eq, gt_iff_lt] at hg
            simp only [GreaterThanValue, decide_eq_false_iff_not, gt_iff_lt, not_lt]
            exact le_of_lt hg
          · exact ihw x hx
        · simp only [hg, Option.some.injEq] at h
          simp at h
          subst h
          intro x hx
          simp only [GreaterThanValue, decide_eq_true_eq, gt_iff_lt, not_lt] at hg
          rcases List.mem_cons.1 hx with hx | hx
          · subst hx
            simp [GreaterThanValue]
          · have := ihw x hx
            simp only [GreaterThanValue, decide_eq_false_iff_not, gt_iff_lt, not_lt] at this ⊢
            exact le_trans hg this
  pop_perm l := by
    induction l with
    | nil => intro v h; simp [listTop] at h
    | cons a rest ih =>
      intro v h
      simp only [listTop] at h
      simp only [listPop, id]
      cases hr : listTop rest with
      | none =>
        rw [hr] at h
        simp only [Option.some.injEq] at h
        subst h
        exact List.Perm.refl _
      | some w =>
        rw [hr] at h
        by_cases hg : GreaterThanValue a w = true
        · simp only [hg, if_true, Option.some.injEq] at h
          subst h
          simp only [hg, if_true]
          exact (List.Perm.swap a w (listPop rest)).trans ((ih w hr).cons a)
        · simp only [hg, Option.some.injEq] at h
          simp at h
          subst h
          simp [hg]
  size_eq _ := rfl

end ListQueue

/-! ### Invariants of the merge loop -/

section Invariants

variable {T : Type} [LinearOrder T]

/-- The number of heap entries that come from chunk `c`. -/
def inHeap (pq : PriorityQueue T) (h : pq.Q) (c : Nat) : Nat :=
  (pq.toList h).countP (fun e => decide (e.chunkid = c))

/-- The records that are neither written out yet: in the heap or unread in a
chunk stream. -/
def remaining {pq : PriorityQueue T} (s : Sorter T pq) : Nat :=
  pq.size s.min_heap + (s.chunksfs.map List.length).sum

/-- The bookkeeping invariant of the merge loop, at the head of an iteration.
For a chunk with counter `rd`, `inHeap` entries in the heap and `fs` unread:
the three add up to `k`; the stream is read in blocks of `q`; the heap holds
at most `q` entries of the chunk; and no entry at all only when the counter
has reached `m/p`. -/
structure CountInv {pq : PriorityQueue T} (s : Sorter T pq) : Prop where
  len_fs : s.chunksfs.length = s.p
  len_rd : s.chunksrd.length = s.p
  q_pos : 1 ≤ s.q
  k_eq : s.k = s.p * s.q
  k_le : s.k ≤ s.m / s.p
  tag_lt : ∀ e ∈ pq.toList s.min_heap, e.chunkid < s.p
  total : ∀ (c : Nat) (fs : List T) (rd : Nat),
    s.chunksfs[c]? = some fs → s.chunksrd[c]? = some rd →
    rd + inHeap pq s.min_heap c + fs.length = s.k
  dvd : ∀ (c : Nat) (fs : List T), s.chunksfs[c]? = some fs → s.q ∣ fs.length
  quota : ∀ c, inHeap pq s.min_heap c ≤ s.q
  done : ∀ c rd, s.chunksrd[c]? = some rd → inHeap pq s.min_heap c = 0 → s.m / s.p ≤ rd

/-- The ordering invariant of the merge loop, at the head of an iteration,
for the records `D` that the split phase wrote into the chunks. -/
structure OrderInv {pq : PriorityQueue T} (D : List T) (s : Sorter T pq) : Prop where
  fs_sorted : ∀ fs ∈ s.chunksfs, fs.Sorted (· ≤ ·)
  heap_le : ∀ e ∈ pq.toList s.min_heap, ∀ fs : List T, s.chunksfs[e.chunkid]? = some fs →
    ∀ y ∈ fs, e.value ≤ y
  out_sorted : s.outfs.Sorted (· ≤ ·)
  out_le : ∀ x ∈ s.outfs, ∀ e ∈ pq.toList s.min_heap, x ≤ e.value
  perm : (s.outfs ++ (pq.toList s.min_heap).map Value.value ++ s.chunksfs.flatten).Perm D

/-- The chunks that the split phase is to write for `p` chunks of `k`
records: chunk `i` is the ascending sort of the input records
`i*k .. (i+1)*k - 1`. -/
def sortedChunks (k p : Nat) (infs : List T) : List (List T) :=
  (List.range p).map (fun i => ((infs.drop (i * k)).take k).insertionSort (· ≤ ·))

end Invariants

end MwayMergesort

/-!
# Anagram search (`src/string/anagrams/anagrams.cc`)

A string is a list of characters.  The `std::unordered_map<char, int>` is
modelled by the list of its entries; `int` counters are integers (they stay
between `-|s|` and `|s|`).
-/

namespace Anagrams

/-- The lookup `wfreq.find(c)`: the count stored for `c`, if there is an entry. -/
def find : List (Char × Int) → Char → Option Int
  | [], _ => none
  | (k, v) :: rest, c => if k = c then some v else find rest c

/-- The assignment `wfreq[c] = v`, or `pfreq->second = v` on the entry found
for `c`: the entry of `c` gets the count `v`; it is created when missing. -/
def assign : List (Char × Int) → Char → Int → List (Char × Int)
  | [], c, v => [(c, v)]
  | (k, w) :: rest, c, v => if k = c then (k, v) :: rest else (k, w) :: assign rest c v

/-- The removal `wfreq.erase(pfreq)` of the entry of `c`. -/
def erase (wfreq : List (Char × Int)) (c : Char) : List (Char × Int) :=
  wfreq.filter (fun e => decide (e.1 ≠ c))

/-- Initialize the map with a character from s (lines 31-37). -/
def countUp (wfreq : List (Char × Int)) (c : Char) : List (Char × Int) :=
  match find wfreq c with
  | some f => assign wfreq c (f + 1)
  | none => assign wfreq c 1

/-- A character enters the window (lines 46-55 and 77-86): decrement means
found in window; a count that gets 0 is erased. -/
def foundInWindow (wfreq : List (Char × Int)) (c : Char) : List (Char × Int) :=
  match find wfreq c with
  | some f => if f - 1 = 0 then erase wfreq c else assign wfreq c (f - 1)
  | none => assign wfreq c (-1)

/-- A character leaves the window on the left (lines 65-74): increment means
not found in window; a count that gets 0 is erased. -/
def leftOfWindow (wfreq : List (Char × Int)) (c : Char) : List (Char × Int) :=
  match find wfreq c with
  | some f => if f + 1 = 0 then erase wfreq c else assign wfreq c (f + 1)
  | none => assign wfreq c 1

/-- The count that the map holds for `c`: 0 when there is no entry. -/
def freq (wfreq : List (Char × Int)) (c : Char) : Int := (find wfreq c).getD 0

/-- The window of `word` that starts at `i` and has the length of `s`. -/
def window (word s : List Char) (i : Nat) : List Char := (word.drop i).take s.length

/-- The character `word[i]` (the null character at `i = word.size()`). -/
def charAt (word : List Char) (i : Nat) : Char := word.getD i (Char.ofNat 0)

/-- One iteration of the loop of lines 62-91, at index `i`, on the map and
the matches found so far. -/
def slide (word s : List Char) (st : List (Char × Int) × List Nat) (i : Nat) :
    List (Char × Int) × List Nat :=
  let wfreq := leftOfWindow st.1 (charAt word (i - 1))
  let wfreq := foundInWindow wfreq (charAt word (i + s.length - 1))
  (wfreq, if wfreq.length = 0 then st.2 ++ [i] else st.2)

/-- The function `anagrams` (lines 11-94): the indices of start of anagrams of
`s` in `word`. -/
def anagrams (word s : List Char) : List Nat :=
  if s.length > word.length then []
  else
    let wfreq := s.foldl countUp []
    let wfreq := (List.range s.length).foldl (fun wfreq i => foundInWindow wfreq (charAt word i))
      wfreq
    let found : List Nat := if wfreq.length = 0 then [0] else []
    ((List.range' 1 (word.length - s.length)).foldl (slide word s) (wfreq, found)).2

end Anagrams

/-!
# Pattern search with a rolling hash (`src/hash/patmatch/patmatch.cc`)

A sequence is a list of natural numbers (the values of its unsigned
elements); an iterator into it is an index.  `HashT` is `std::uint64_t`:
every hash operation is taken modulo `2 ^ 64`.
-/

namespace Patmatch

/-- The function `fastpow` (lines 15-34) at `T = std::uint64_t`, with the
exponent a signed integer.  (`T{1}/yx` with `yx = 0` is a division by zero in
the source; here it is 0.) -/
def fastpow (y : Nat) (x : Int) : Nat :=
  if x = 0 then 1
  else
    let absx := if x < 0 then -x else x
    let floorx := absx / 2
    let yhalfx := fastpow y floorx
    let yx := if absx % 2 = 0 then yhalfx * yhalfx % 2 ^ 64
      else yhalfx * yhalfx % 2 ^ 64 * y % 2 ^ 64
    if x < 0 then 1 / yx else yx
termination_by x.natAbs
decreasing_by
  simp_wf
  omega

/-- The constant `base` of `rolling_hash` (line 56). -/
def base : Nat := 131

/-- The function `rolling_hash` (lines 49-78) on the elements `first .. last - 1`
of `seq`: with a previous hash other than 0 the hash is rolled on from it,
otherwise it is computed by traversing from `first` to `last`. -/
def rolling_hash (seq : List Nat) (first last : Nat) (previous : Nat) : Nat :=
  if previous ≠ 0 then
    let len : Int := (last : Int) - (first : Int)
    let hash := (previous + 2 ^ 64 - seq.getD (first - 1) 0 * fastpow base (len - 1) % 2 ^ 64)
      % 2 ^ 64
    (hash * base + seq.getD (last - 1) 0) % 2 ^ 64
  else
    ((seq.drop first).take (last - first)).foldl (fun hash v => (hash * base + v) % 2 ^ 64) 0

/-- The loop of `patmatch` (lines 105-116) with `n = search_end - first`
iterations to go, the window starting at `first`. -/
def searchLoop (seq pat : List Nat) (pathash : Nat) : Nat → Nat → Nat → Option Nat
  | 0, _, _ => none
  | n + 1, first, seqhash =>
    let seqhash := rolling_hash seq first (first + pat.length) seqhash
    if pathash = seqhash ∧ (seq.drop first).take pat.length = pat then some first
    else searchLoop seq pat pathash n (first + 1) seqhash

/-- The function `patmatch` (lines 80-119): the index of the first occurrence
of the pattern in the sequence, if it is found. -/
def patmatch (seq pat : List Nat) : Option Nat :=
  if pat.length > seq.length ∨ seq.length < 1 then none
  else
    let pathash := rolling_hash pat 0 pat.length 0
    let seqhash := rolling_hash seq 0 pat.length 0
    if pathash = seqhash ∧ seq.take pat.length = pat then some 0
    else searchLoop seq pat pathash (seq.length - pat.length) 1 seqhash


/-- The hash of a list as `rolling_hash` computes it by traversing. -/
def hashOf (l : List Nat) : Nat := l.foldl (fun hash v => (hash * base + v) % 2 ^ 64) 0

/-- The polynomial in `base` that the hash is the residue of. -/
def poly (l : List Nat) : Nat := l.foldl (fun hash v => hash * base + v) 0

/-- The window of the sequence that starts at `i` and has the length of the
pattern. -/
def window (seq pat : List Nat) (i : Nat) : List Nat := (seq.drop i).take pat.length

end Patmatch

/-!
# Binary indexed tree (`src/tree/binaryindexed/binaryindexed.cc`)

The bins hold values of an additive commutative group `G`: the residues
modulo `2 ^ w` for an unsigned `T` of `w` bits (and for the wrapped two's
complement of a signed one), or the integers for the runs of a signed `T`
that stay clear of overflow, which C++ leaves undefined. `std::size_t` has 64
bits: the indices are natural numbers, reduced modulo `2 ^ 64` where the code
can wrap.
-/

namespace BinaryIndexed

/-- The result of a call: a value, a failed `assert`, an index outside the
vector `tree_`, or the model running out of fuel. -/
inductive Run (α : Type) where
  | done (a : α)
  | abort
  | outOfRange
  | timeout

/-- The expression `ind & (-ind)` on `std::size_t`. -/
def lowbit (ind : Nat) : Nat := ind &&& ((2 ^ 64 - ind) % 2 ^ 64)

section Tree

variable {G : Type} [AddCommGroup G]

/-- The constructor: `tree_(n+1)`, value-initialised; `n+1` is computed on
`std::size_t`. -/
def new (n : Nat) : List G := List.replicate ((n + 1) % 2 ^ 64) 0

/-- The loop of `add` (lines 44-47), on fuel. -/
def addLoop (x : G) : Nat → Nat → List G → Run (List G)
  | 0, _, _ => .timeout
  | fuel + 1, ind, tree =>
    match tree[ind]? with
    | some v => addLoop x fuel ((ind + lowbit ind) % 2 ^ 64) (tree.set ind (v + x))
    | none => .done tree

/-- The method `add` (lines 25-48): add increments the bin at t by x. -/
def add (tree : List G) (t : Nat) (x : G) : Run (List G) :=
  if t > 0 then addLoop x tree.length t tree else .abort

/-- The loop of `cumsum` (lines 74-77), on fuel. -/
def prefixLoop (tree : List G) : Nat → Nat → G → Run G
  | 0, _, _ => .timeout
  | fuel + 1, ind, sum =>
    if ind > 0 then
      match tree[ind]? with
      | some v => prefixLoop tree fuel (ind - lowbit ind) (sum + v)
      | none => .outOfRange
    else .done sum

/-- The call `cumsum(1, t1)`: the asserts, then the loop. -/
def cumsumFromOne (tree : List G) (t1 : Nat) : Run G :=
  if t1 ≥ 1 then prefixLoop tree (t1 + 1) t1 0 else .abort

/-- The method `cumsum` (lines 50-80): cumsum returns cumulative sum of bins
from [t0, t1]. -/
def cumsum (tree : List G) (t0 t1 : Nat) : Run G :=
  if t0 > 0 then
    if t1 ≥ t0 then
      if t0 ≠ 1 then
        match cumsumFromOne tree t1 with
        | .done a =>
          match cumsumFromOne tree (t0 - 1) with
          | .done b => .done (a - b)
          | .abort => .abort
          | .outOfRange => .outOfRange
          | .timeout => .timeout
        | .abort => .abort
        | .outOfRange => .outOfRange
        | .timeout => .timeout
      else cumsumFromOne tree t1
    else .abort
  else .abort

/-- A sequence of `add(t, x)` calls, one after the other. -/
def addAll : List G → List (Nat × G) → Run (List G)
  | tree, [] => .done tree
  | tree, (t, x) :: ops =>
    match add tree t x with
    | .done tree' => addAll tree' ops
    | .abort => .abort
    | .outOfRange => .outOfRange
    | .timeout => .timeout

/-- The sum of `x` over the calls `add(t, x)` of `ops` with `lo < t ≤ hi`. -/
def sumIn (ops : List (Nat × G)) (lo hi : Nat) : G :=
  ((ops.filter (fun op => decide (lo < op.1 ∧ op.1 ≤ hi))).map Prod.snd).sum

/-- The invariant of the tree after the calls `ops`: the vector has `n + 1`
entries and bin `i` holds the sum of the samples `i - lowbit(i) < t ≤ i`. -/
def Inv (tree : List G) (ops : List (Nat × G)) (n : Nat) : Prop :=
  tree.length = n + 1 ∧
    ∀ i, 1 ≤ i → i ≤ n → tree[i]? = some (sumIn ops (i - (i &&& ((2 ^ 64 - i) % 2 ^ 64))) i)

end Tree

/-- The lowest set bit of `i` as a number (0 for `i = 0`). -/
def lsb (i : Nat) : Nat :=
  if i = 0 then 0 else if i % 2 = 1 then 1 else 2 * lsb (i / 2)
decreasing_by omega

end BinaryIndexed

/-!
# Step words (`src/graph/stepword/stepword.cc`)

A `std::string` is the list of its characters.  An `std::unordered_map` is
given by its lookup (`none` stands for `find` returning `end()`), the
`std::queue` by the list of its entries, front first.
-/

namespace Stepword

/-- The states `visit_states` can record. -/
inductive VisitState where
  | Undiscovered
  | Discovered
  | Visited
deriving DecidableEq

/-- The assignment `m[k] = v` on a map. -/
def assign {V : Type} (m : List Char → Option V) (k : List Char) (v : V) :
    List Char → Option V :=
  fun x => if x = k then some v else m x

/-- The loop of `is_one_character_different` (lines 40-44) over the characters
still to compare: the final value of `cnt_diff`. -/
def countDiff : List Char → List Char → Nat → Nat
  | c1 :: s1, c2 :: s2, cnt_diff =>
    if c1 ≠ c2 then
      if cnt_diff + 1 > 1 then cnt_diff + 1 else countDiff s1 s2 (cnt_diff + 1)
    else countDiff s1 s2 cnt_diff
  | _, _, cnt_diff => cnt_diff

/-- The lambda `is_one_character_different` (lines 34-46): is true when s1 and
s2 differ by one char. -/
def is_one_character_different (s1 s2 : List Char) : Bool :=
  if s1.length ≠ s2.length then false else countDiff s1 s2 0 == 1

/-- The variables of the breadth first search. -/
structure Search where
  nodes_to_visit : List (List Char)
  parents : List Char → Option (List Char)
  visit_states : List Char → Option VisitState

/-- The body of the loop over `valid_words` (lines 53-73) for one
`next_word`, on `parents` and `nodes_to_visit`. -/
def visitNext (visit_states : List Char → Option VisitState) (word : List Char)
    (st : (List Char → Option (List Char)) × List (List Char)) (next_word : List Char) :
    (List Char → Option (List Char)) × List (List Char) :=
  if visit_states next_word = some VisitState.Visited then st
  else if !(is_one_character_different word next_word) then st
  else (assign st.1 next_word word, st.2 ++ [next_word])

/-- The body of the outer loop (lines 49-73) once `word` is taken from the
front of the queue, `rest` being the other entries. -/
def visit (valid_words : List (List Char)) (s : Search) (word : List Char)
    (rest : List (List Char)) : Search :=
  let visit_states := assign s.visit_states word VisitState.Visited
  let r := valid_words.foldl (visitNext visit_states word) (s.parents, rest)
  { nodes_to_visit := r.2, parents := r.1, visit_states := visit_states }

/-- The loop `while (!nodes_to_visit.empty())` (lines 48-74), on fuel. -/
def search (valid_words : List (List Char)) : Nat → Search → Option Search
  | 0, _ => none
  | fuel + 1, s =>
    match s.nodes_to_visit with
    | [] => some s
    | word :: rest => search valid_words fuel (visit valid_words s word rest)

/-- The loop that steps backwards from `end` (lines 78-85), on fuel: `w` is
the key looked up in `parents`, `path` is `shortest_path`. -/
def walkBack (parents : List Char → Option (List Char)) (start : List Char) :
    Nat → List Char → List (List Char) → Option (List (List Char))
  | 0, _, _ => none
  | fuel + 1, w, path =>
    match parents w with
    | none => some path
    | some par =>
      if w = start then some (path ++ [w]) else walkBack parents start fuel par (path ++ [w])

/-- The state before the search loop (lines 22-31). -/
def init (start : List Char) : Search :=
  { nodes_to_visit := [start]
    parents := assign (fun _ => none) start start
    visit_states := fun _ => none }

/-- The function `stepword_chain` (lines 15-89), on fuel; `none` when the fuel
runs out. -/
def stepword_chain (fuel : Nat) (start endw : List Char) (valid_words : List (List Char)) :
    Option (List (List Char)) :=
  match search valid_words fuel (init start) with
  | none => none
  | some s => (walkBack s.parents start fuel endw []).map List.reverse

/-- The words the visit of `word` puts on the queue: the valid words not yet
visited that are one character away. -/
def fresh (visit_states : List Char → Option VisitState) (word x : List Char) : Bool :=
  decide (¬ visit_states x = some VisitState.Visited) && is_one_character_different word x

/-- The number of positions at which two words differ. -/
def distance : List Char → List Char → Nat
  | c1 :: s1, c2 :: s2 => (if c1 ≠ c2 then 1 else 0) + distance s1 s2
  | _, _ => 0

/-- Two words have equal length and differ in exactly one character
position. -/
def OneCharApart (s1 s2 : List Char) : Prop :=
  s1.length = s2.length ∧ ∃ i : Nat, s1[i]? ≠ s2[i]? ∧ ∀ j : Nat, j ≠ i → s1[j]? = s2[j]?

/-- One link of a chain: the next word is a valid word one character away. -/
def Link (valid_words : List (List Char)) (a b : List Char) : Prop :=
  b ∈ valid_words ∧ OneCharApart a b

/-- A chain of one-character transformations from `start` to `endw` whose
words after `start` are all in `valid_words`. -/
def IsChain (valid_words : List (List Char)) (start endw : List Char)
    (path : List (List Char)) : Prop :=
  path.head? = some start ∧ path.getLast? = some endw ∧ path.Chain' (Link valid_words)

/-- The word is marked `Visited`. -/
def Visited (visit_states : List Char → Option VisitState) (w : List Char) : Prop :=
  visit_states w = some VisitState.Visited

/-- The words from `w` back to `start` along `parents`, all but `w` itself
visited. -/
inductive Back (valid_words : List (List Char)) (start : List Char)
    (parents : List Char → Option (List Char)) (visit_states : List Char → Option VisitState) :
    List Char → List (List Char) → Prop where
  | root : parents start = some start → Back valid_words start parents visit_states start [start]
  | link (w v : List Char) (c : List (List Char)) : w ≠ start → parents w = some v →
      w ∈ valid_words → is_one_character_different v w = true → Visited visit_states v →
      Back valid_words start parents visit_states v c →
      Back valid_words start parents visit_states w (w :: c)

/-- The words of the queue and of `valid_words` not yet visited. -/
def unvisited (valid_words : List (List Char)) (s : Search) : Finset (List Char) :=
  (s.nodes_to_visit ++ valid_words).toFinset.filter
    (fun w => ¬ s.visit_states w = some VisitState.Visited)

/-- The number of queue entries of words already visited. -/
def stale (s : Search) : Nat :=
  s.nodes_to_visit.countP (fun w => decide (s.visit_states w = some VisitState.Visited))

/-- The invariant of the search loop. -/
structure Inv (valid_words : List (List Char)) (start : List Char) (s : Search) : Prop where
  root : s.parents start = some start
  back : ∀ w, s.parents w ≠ none → ∃ c, Back valid_words start s.parents s.visit_states w c
  queued : ∀ w ∈ s.nodes_to_visit, s.parents w ≠ none
  first : Visited s.visit_states start ∨ ∃ rest, s.nodes_to_visit = start :: rest
  known : ∀ w, s.parents w ≠ none → Visited s.visit_states w ∨ w ∈ s.nodes_to_visit
  closed : ∀ v, Visited s.visit_states v → ∀ x ∈ valid_words,
    is_one_character_different v x = true → s.parents x ≠ none
  seen : ∀ w, Visited s.visit_states w → s.parents w ≠ none

end Stepword

/-!
# Staircase (`src/dynamic-programming/staircase/staircase.cc`)

`Height` and `Step` are integers.  A `SetOfSteps` is the list of its elements
without repetition; the order in which an `std::unordered_set` is traversed is
not specified, the model traverses in the order of insertion and the theorems
speak about membership only.
-/

namespace Staircase

/-- The call `ways.emplace(steps)`: a set keeps one copy of an element. -/
def emplace (ways : List (List Int)) (steps : List Int) : List (List Int) :=
  if steps ∈ ways then ways else ways ++ [steps]

/-- The two nested loops over `s1` and `s2` (lines 78-92). -/
def combine (s1 s2 : List (List Int)) (ways : List (List Int)) : List (List Int) :=
  s1.foldl (fun ways s1i =>
    s2.foldl (fun ways s2i => emplace (emplace ways (s1i ++ s2i)) (s2i ++ s1i)) ways) ways

/-- The body of the loop over `allowed_steps` (lines 66-94) for one step `s`;
`call` is the recursive call of `staircase` with the same `allowed_steps`,
`none` a call that ran out of fuel. -/
def addStep (call : Int → Option (List (List Int))) (h : Int)
    (acc : Option (List (List Int))) (s : Int) : Option (List (List Int)) :=
  match acc with
  | none => none
  | some ways =>
    if s > h then some ways
    else if s = h then some (emplace ways [s])
    else
      match call (h - s), call s with
      | some s1, some s2 => some (combine s1 s2 ways)
      | _, _ => none

/-- The function `staircase` (lines 57-97), on fuel for the depth of the
recursion; `none` when the fuel runs out. -/
def staircase : Nat → Int → List Int → Option (List (List Int))
  | 0, _, _ => none
  | fuel + 1, h, allowed_steps =>
    if h = 0 then some []
    else allowed_steps.foldl (addStep (fun h' => staircase fuel h' allowed_steps) h) (some [])

/-- A way to climb `h`: a non-empty sequence of allowed steps whose sum is
`h`. -/
def IsWay (allowed_steps : List Int) (h : Int) (c : List Int) : Prop :=
  c ≠ [] ∧ (∀ x ∈ c, x ∈ allowed_steps) ∧ c.sum = h

end Staircase

/-!
# Index is value (`src/divide-and-conquer/indexisvalue/indexisvalue.cc`)

`IntegerT` is the integers: the indices and values of the calls considered
stay within the length of the vector, far from overflow.  A read `A[i]` with
`i` outside the vector is undefined behaviour in C++; the model takes what
such a read does as a parameter `past`: `none` when the read is an error,
`some v` when it finds the value `v` in the memory next to the vector.
-/

namespace IndexIsValue

/-- The result of a call: a value, a read outside the vector, or the model
running out of fuel. -/
inductive Run (α : Type) where
  | done (a : α)
  | outOfRange
  | timeout
deriving DecidableEq

/-- The read `A[i]`. -/
def read (A : List Int) (past : Option Int) (i : Int) : Option Int :=
  if 0 ≤ i ∧ i < A.length then A[i.toNat]? else past

/-- The loop "scan left until A[start] != start" (lines 38-44), on fuel. -/
def scanLeft (A : List Int) (past : Option Int) (first : Int) : Nat → Int → Run Int
  | 0, _ => .timeout
  | fuel + 1, start =>
    if start ≠ first then
      match read A past (start - 1) with
      | none => .outOfRange
      | some v => if v ≠ start - 1 then .done start else scanLeft A past first fuel (start - 1)
    else .done start

/-- The loop "scan right until A[end] != end" (lines 47-52), on fuel. -/
def scanRight (A : List Int) (past : Option Int) (last : Int) : Nat → Int → Run Int
  | 0, _ => .timeout
  | fuel + 1, endv =>
    if endv ≠ last then
      match read A past (endv + 1) with
      | none => .outOfRange
      | some v => if v ≠ endv + 1 then .done (endv + 1) else scanRight A past last fuel (endv + 1)
    else .done endv

/-- The function `index_matches_value` (lines 13-55), on fuel: returns the
range [start, end) for which A[i] = i. -/
def index_matches_value (A : List Int) (past : Option Int) :
    Nat → Int → Int → Run (Option (Int × Int))
  | 0, _, _ => .timeout
  | fuel + 1, first, last =>
    if first = last then .done none
    else
      let mid := first + (last - first).tdiv 2
      match read A past mid with
      | none => .outOfRange
      | some v =>
        if v < mid then index_matches_value A past fuel (mid + 1) last
        else if v > mid then index_matches_value A past fuel first mid
        else
          match scanLeft A past first (fuel + 1) mid with
          | .done start =>
            match scanRight A past last (fuel + 1) mid with
            | .done endv => .done (some (start, endv))
            | .outOfRange => .outOfRange
            | .timeout => .timeout
          | .outOfRange => .outOfRange
          | .timeout => .timeout

end IndexIsValue

/-!
# Spiral (`src/arrays/spiral2d/spiral2d.cc`)

`std::size_t` has 64 bits: `i`, `j` and the limits are natural numbers,
incremented and decremented modulo `2 ^ 64` as in the code.  The visitor is
modelled by the list of the cells `(i, j)` it is called with.
-/

namespace Spiral2d

/-- The direction of travel along the spiral. -/
inductive direction where
  | right
  | down
  | left
  | up
deriving DecidableEq

/-- The local variables of `spiral2d` that change in the loop. -/
structure Walk where
  i : Nat
  j : Nat
  move : direction
  leftlim : Nat
  rightlim : Nat
  downlim : Nat
  uplim : Nat
deriving DecidableEq

/-- The operation `x + 1` on `std::size_t`. -/
def inc (x : Nat) : Nat := (x + 1) % 2 ^ 64

/-- The operation `x - 1` on `std::size_t`. -/
def dec (x : Nat) : Nat := (x + (2 ^ 64 - 1)) % 2 ^ 64

/-- The part "increment the indices and toggle direction" of the loop body
(lines 50-82). -/
def advance (s : Walk) : Walk :=
  match s.move with
  | .right =>
    if s.j = s.rightlim then { s with move := .down, i := inc s.i, uplim := inc s.i }
    else { s with j := inc s.j }
  | .down =>
    if s.i = s.downlim then { s with move := .left, j := dec s.j, rightlim := dec s.j }
    else { s with i := inc s.i }
  | .left =>
    if s.j = s.leftlim then { s with move := .up, i := dec s.i, downlim := dec s.i }
    else { s with j := dec s.j }
  | .up =>
    if s.i = s.uplim then { s with move := .right, j := inc s.j, leftlim := inc s.j }
    else { s with i := dec s.i }

/-- The loop `while (visited != ncells)` (lines 44-85) with `n` cells still to
visit: the cells passed to the visitor. -/
def visits : Nat → Walk → List (Nat × Nat)
  | 0, _ => []
  | n + 1, s => (s.i, s.j) :: visits n (advance s)

/-- The variables before the loop (lines 32-41). -/
def start (nrow ncol : Nat) : Walk :=
  { i := 0, j := 0, move := .right, leftlim := 0, rightlim := dec ncol, downlim := dec nrow,
    uplim := 0 }

/-- The function `spiral2d` (lines 26-86): the cells passed to the visitor.
`m[0]` does not exist for a matrix without rows: `none`. -/
def spiral2d {T : Type} (m : List (List T)) : Option (List (Nat × Nat)) :=
  match m with
  | [] => none
  | row0 :: _ =>
    let nrow := m.length
    let ncol := if row0.isEmpty then 0 else row0.length
    let ncells := (nrow * ncol) % 2 ^ 64
    some (visits ncells (start nrow ncol))

/-- The visitor `MatrixVisitorVisitOrder` (lines 89-98) at the end of the
traversal: the values `m[i][j]` of the cells visited (`none` for a cell
outside the matrix). -/
def visit_order {T : Type} (m : List (List T)) : Option (List (Option T)) :=
  (spiral2d m).map (fun cells => cells.map (fun c => (m.getD c.1 []).get? c.2))

/-- The cells `(i, j), (i, j+1), ...`, `k` of them. -/
def rowRight (i j k : Nat) : List (Nat × Nat) := (List.range k).map (fun c => (i, j + c))

/-- The cells `(i, j), (i+1, j), ...`, `k` of them. -/
def colDown (i j k : Nat) : List (Nat × Nat) := (List.range k).map (fun r => (i + r, j))

/-- The cells `(i, j), (i, j-1), ...`, `k` of them. -/
def rowLeft (i j k : Nat) : List (Nat × Nat) := (List.range k).map (fun c => (i, j - c))

/-- The cells `(i, j), (i-1, j), ...`, `k` of them. -/
def colUp (i j k : Nat) : List (Nat × Nat) := (List.range k).map (fun r => (i - r, j))

/-- The clockwise spiral order of the block of `h` rows and `w` columns whose
top-left cell is `(t, l)`: the top row left to right, the rest of the right
column downwards, the rest of the bottom row right to left, the rest of the
left column upwards, then the same on the remaining inner block. -/
def spiralOrder : Nat → Nat → Nat → Nat → List (Nat × Nat)
  | _, _, 0, _ => []
  | t, l, 1, w => rowRight t l w
  | _, _, _ + 2, 0 => []
  | t, l, h + 2, 1 => colDown t l (h + 2)
  | t, l, h + 2, w + 2 =>
    rowRight t l (w + 2) ++ colDown (t + 1) (l + w + 1) (h + 1) ++
      rowLeft (t + h + 1) (l + w) (w + 1) ++ colUp (t + h) l h ++
      spiralOrder (t + 1) (l + 1) h w

end Spiral2d

/-!
# Random sample of a stream (`src/random/randstream/randstream.cc`)

The stream is the list of the values still to be read from it; a read from
the empty list is the failed extraction that ends a loop.  The random
generator is a function `draw`: `draw n` is the number the distribution on
`[1, n]` hands out.
-/

namespace Randstream

section Program

variable {T : Type}

/-- The loop that fills the reservoir (lines 27-32): the samples and the rest
of the stream.  A stream that fails leaves nothing to read. -/
def fill (k : Nat) : List T → List T → List T × List T
  | [], samples => (samples, [])
  | x :: is, samples =>
    if (samples ++ [x]).length = k then (samples ++ [x], is) else fill k is (samples ++ [x])

/-- The loop over the samples received after the reservoir is filled (lines
37-44). -/
def replace (k : Nat) (draw : Nat → Nat) : List T → Nat → List T → List T
  | [], _, samples => samples
  | x :: is, n, samples =>
    if draw (n + 1) ≤ k then replace k draw is (n + 1) (samples.set (draw (n + 1) - 1) x)
    else replace k draw is (n + 1) samples

/-- The function `randstream` (lines 18-47): returns random sample of k
elements from an unbounded stream. -/
def randstream (is : List T) (k : Nat) (draw : Nat → Nat) : List T :=
  replace k draw (fill k is []).2 k (fill k is []).1

end Program

end Randstream

/-!
# Top-k similar movies (`src/heaps/topkmovies/topkmovies.cc`)

`MovieID` and `UserID` are types with decidable equality, a `std::set<UserID>`
is a finite set.  The `double` scores are values of a linear order `D`, and
`div a b` is the quotient `1.0 * a / b` of two sizes as the machine computes
it; nothing else is asked of the arithmetic.  The `std::unordered_map` is the
list of its entries in the order of first insertion, and `iter` gives the
order in which it is traversed, which the standard leaves open.
-/

namespace TopKMovies

/-- GreaterThanScore orders Score by the score. -/
def GreaterThanScore {M D : Type} [LinearOrder D] (lhs rhs : M × M × D) : Bool :=
  decide (lhs.2.2 > rhs.2.2)

/-- The contract of `std::priority_queue<Score, std::vector<Score>,
GreaterThanScore>`: `top` is an entry that no other entry is smaller than
(`none` stands for the call on an empty queue), `pop` removes it, `emplace`
adds an entry.  `toList` lists the entries held. -/
structure PriorityQueue (M D : Type) [LinearOrder D] where
  Q : Type
  nil : Q
  emplace : Q → M × M × D → Q
  top : Q → Option (M × M × D)
  pop : Q → Q
  size : Q → Nat
  toList : Q → List (M × M × D)
  toList_nil : toList nil = []
  toList_emplace : ∀ h v, (toList (emplace h v)).Perm (v :: toList h)
  top_eq_none : ∀ h, top h = none ↔ toList h = []
  top_le : ∀ h v, top h = some v → ∀ w ∈ toList h, GreaterThanScore v w = false
  pop_perm : ∀ h v, top h = some v → (v :: toList (pop h)).Perm (toList h)
  size_eq : ∀ h, size h = (toList h).length

section Program

variable {M U D : Type} [DecidableEq M] [DecidableEq U] [LinearOrder D]

/-- The function `similarity` (lines 39-52): the size of the intersection
over the size of the union. -/
def similarity (div : Nat → Nat → D) (u1 u2 : Finset U) : D :=
  div (u1 ∩ u2).card (u1 ∪ u2).card

/-- The body of the loop over the table (lines 61-67): find the entry of the
movie, or add one with no users, and add the user to it. -/
def addUser : List (M × Finset U) → M → U → List (M × Finset U)
  | [], m, u => [(m, {u})]
  | (m', s) :: users, m, u =>
    if m' = m then (m', insert u s) :: users else (m', s) :: addUser users m u

/-- The map `users` after the loop over the table (lines 59-68). -/
def buildUsers (movies : List (M × U)) : List (M × Finset U) :=
  movies.foldl (fun users m => addUser users m.1 m.2) []

variable (pq : PriorityQueue M D)

/-- Lines 83-89: score the pair and keep the score if the heap holds fewer
than `k` or the score beats the smallest one kept.  `none` is `top()` called
on an empty heap. -/
def consider (div : Nat → Nat → D) (k : Nat) (topk : pq.Q) (m1 m2 : M × Finset U) :
    Option pq.Q :=
  let score := similarity div m1.2 m2.2
  if pq.size topk < k then
    some (pq.emplace (if pq.size topk = k then pq.pop topk else topk) (m1.1, m2.1, score))
  else
    match pq.top topk with
    | none => none
    | some t =>
      if t.2.2 < score then
        some (pq.emplace (if pq.size topk = k then pq.pop topk else topk) (m1.1, m2.1, score))
      else some topk

/-- The body of the inner loop (lines 76-90) for one `m2`. -/
def inner (div : Nat → Nat → D) (k : Nat) (m1 : M × Finset U) (scored : List M)
    (topk : Option pq.Q) (m2 : M × Finset U) : Option pq.Q :=
  match topk with
  | none => none
  | some q =>
    if m1.1 = m2.1 then some q
    else if m2.1 ∈ scored then some q
    else consider pq div k q m1 m2

/-- The body of the outer loop (lines 75-92) for one `m1`, on the heap and the
set `scored`. -/
def outer (div : Nat → Nat → D) (k : Nat) (users : List (M × Finset U))
    (st : Option pq.Q × List M) (m1 : M × Finset U) : Option pq.Q × List M :=
  (users.foldl (inner pq div k m1 st.2) st.1, st.2 ++ [m1.1])

/-- The loop that copies the heap (lines 97-100); it runs `size()` times. -/
def drain : Nat → pq.Q → List (M × M × D) → List (M × M × D)
  | 0, _, scores => scores
  | n + 1, topk, scores =>
    match pq.top topk with
    | none => scores
    | some v => drain n (pq.pop topk) (scores ++ [v])

/-- The function `topk_similar_movies` (lines 55-103): returns k-most-similar
movies based on common users. -/
def topk_similar_movies (iter : List (M × Finset U) → List (M × Finset U))
    (div : Nat → Nat → D) (movies : List (M × U)) (k : Nat) : Option (List (M × M × D)) :=
  let users := iter (buildUsers movies)
  match (users.foldl (outer pq div k users) (some pq.nil, [])).1 with
  | none => none
  | some topk => some (drain pq (pq.size topk) topk [])

end Program

section ListQueue

variable {M D : Type} [LinearOrder D]

/-- The first entry of least score. -/
def listTop : List (M × M × D) → Option (M × M × D)
  | [] => none
  | v :: rest =>
    match listTop rest with
    | none => some v
    | some w => if GreaterThanScore v w then some w else some v

/-- Remove the entry that `listTop` returns. -/
def listPop : List (M × M × D) → List (M × M × D)
  | [] => []
  | v :: rest =>
    match listTop rest with
    | none => rest
    | some w => if GreaterThanScore v w then v :: listPop rest else rest

/-- A heap kept as a plain list; among entries of equal score the one nearest
the front is on top. -/
def ListQueue (M D : Type) [LinearOrder D] : PriorityQueue M D where
  Q := List (M × M × D)
  nil := []
  emplace h v := h ++ [v]
  top := listTop
  pop := listPop
  size := List.length
  toList := id
  toList_nil := rfl
  toList_emplace h v := by simp
  top_eq_none l := by
    cases l with
    | nil => simp [listTop]
    | cons v rest =>
      simp only [listTop]
      cases listTop rest with
      | none => simp
      | some w => by_cases h : GreaterThanScore v w = true <;> simp [h]
  top_le l := by
    induction l with
    | nil => intro v h; simp [listTop] at h
    | cons a rest ih =>
      intro v h
      simp only [listTop] at h
      cases hr : listTop rest with
      | none =>
        rw [hr] at h
        simp only [Option.some.injEq] at h
        subst h
        have : rest = [] := by
          cases rest with
          | nil => rfl
          | cons b rest' =>
            simp only [listTop] at hr
            cases hb : listTop rest' with
            | none => rw [hb] at hr; simp at hr
            | some w =>
              rw [hb] at hr
              by_cases hg : GreaterThanScore b w = true <;> simp [hg] at hr
        subst this
        intro w hw
        simp only [id, List.mem_singleton] at hw
        subst hw
        simp [GreaterThanScore]
      | some w =>
        rw [hr] at h
        have ihw := ih w hr
        by_cases hg : GreaterThanScore a w = true
        · simp only [hg, if_true, Option.some.injEq] at h
          subst h
          intro x hx
          rcases List.mem_cons.1 hx with hx | hx
          · subst hx
            simp only [GreaterThanScore, decide_eq_true_eq, gt_iff_lt] at hg
            simp only [GreaterThanScore, decide_eq_false_iff_not, gt_iff_lt, not_lt]
            exact le_of_lt hg
          · exact ihw x hx
        · simp only [hg, Option.some.injEq] at h
          simp at h
          subst h
          intro x hx
          simp only [GreaterThanScore, decide_eq_true_eq, gt_iff_lt, not_lt] at hg
          rcases List.mem_cons.1 hx with hx | hx
          · subst hx
            simp [GreaterThanScore]
          · have := ihw x hx
            simp only [GreaterThanScore, decide_eq_false_iff_not, gt_iff_lt, not_lt] at this ⊢
            exact le_trans hg this
  pop_perm l := by
    induction l with
    | nil => intro v h; simp [listTop] at h
    | cons a rest ih =>
      intro v h
      simp only [listTop] at h
      simp only [listPop, id]
      cases hr : listTop rest with
      | none =>
        rw [hr] at h
        simp only [Option.some.injEq] at h
        subst h
        exact List.Perm.refl _
      | some w =>
        rw [hr] at h
        by_cases hg : GreaterThanScore a w = true
        · simp only [hg, if_true, Option.some.injEq] at h
          subst h
          simp only [hg, if_true]
          exact (List.Perm.swap a w (listPop rest)).trans ((ih w hr).cons a)
        · simp only [hg, Option.some.injEq] at h
          simp at h
          subst h
          simp [hg]
  size_eq _ := rfl

end ListQueue

section Specification

variable {M U D : Type} [DecidableEq M] [DecidableEq U] [LinearOrder D]

/-- The entry of a movie in the map `users`, if it has one. -/
def lookup : List (M × Finset U) → M → Option (Finset U)
  | [], _ => none
  | (m', s) :: users, a => if m' = a then some s else lookup users a

/-- The users who attended movie `a` according to the table. -/
def usersOf (movies : List (M × U)) (a : M) : Finset U :=
  ((movies.filter (fun p => decide (p.1 = a))).map Prod.snd).toFinset

/-- The pairs of entries the two nested loops score, in the order they score
them: each entry with every later one. -/
def cands : List (M × Finset U) → List ((M × Finset U) × (M × Finset U))
  | [] => []
  | x :: rest => rest.map (fun y => (x, y)) ++ cands rest

/-- The score record of a pair of entries. -/
def entry (div : Nat → Nat → D) (c : (M × Finset U) × (M × Finset U)) : M × M × D :=
  (c.1.1, c.2.1, similarity div c.1.2 c.2.2)

/-- The two records are of the same unordered pair of movies. -/
def SamePair (e f : M × M × D) : Prop :=
  (e.1 = f.1 ∧ e.2.1 = f.2.1) ∨ (e.1 = f.2.1 ∧ e.2.1 = f.1)

end Specification

/-- One step of the two nested loops on a pair they score. -/
def scoreStep {M U D : Type} [DecidableEq M] [DecidableEq U] [LinearOrder D]
    (pq : PriorityQueue M D) (div : Nat → Nat → D) (k : Nat) (topk : Option pq.Q)
    (c : (M × Finset U) × (M × Finset U)) : Option pq.Q :=
  match topk with
  | none => none
  | some q => consider pq div k q c.1 c.2

/-- The invariant of the heap after the records `P` were scored: it holds
`min k |P|` of them, and none of the others has a higher score than one it
holds. -/
def Kept {M D : Type} [LinearOrder D] (pq : PriorityQueue M D) (k : Nat) (q : pq.Q)
    (P : List (M × M × D)) : Prop :=
  ∃ dropped : List (M × M × D), (pq.toList q ++ dropped).Perm P ∧
    (pq.toList q).length = min k P.length ∧
    ∀ d ∈ dropped, ∀ e ∈ pq.toList q, d.2.2 ≤ e.2.2

end TopKMovies

namespace MwayMergesort

/-! ### Loops -/

section Loops

variable {σ : Type}

theorem iter_invariant (step : σ → Ctl σ) (P : σ → Prop)
    (hstep : ∀ s s', P s → step s = .next s' → P s') :
    ∀ (n : Nat) (s0 s : σ), P s0 → iter step n s0 = some s → P s := by
  intro n
  induction n with
  | zero =>
    intro s0 s h0 h
    simp only [iter, Option.some.injEq] at h
    exact h ▸ h0
  | succ n ih =>
    intro s0 s h0 h
    simp only [iter] at h
    cases hs : step s0 with
    | next s1 =>
      rw [hs] at h
      exact ih s1 s (hstep s0 s1 h0 hs) h
    | exit s1 => rw [hs] at h; simp at h
    | throw e => rw [hs] at h; simp at h
    | timeout => rw [hs] at h; simp at h

theorem loop_ok_invariant (step : σ → Ctl σ) (P : σ → Prop)
    (hstep : ∀ s s', P s → step s = .next s' → P s') :
    ∀ (fuel : Nat) (s0 s' : σ), P s0 → loop step fuel s0 = .ok s' →
      ∃ s, P s ∧ step s = .exit s' := by
  intro fuel
  induction fuel with
  | zero => intro s0 s' _ h; simp [loop] at h
  | succ fuel ih =>
    intro s0 s' h0 h
    simp only [loop] at h
    cases hs : step s0 with
    | next s1 =>
      rw [hs] at h
      exact ih s1 s' (hstep s0 s1 h0 hs) h
    | exit s1 =>
      rw [hs] at h
      simp only [Outcome.ok.injEq] at h
      exact ⟨s0, h0, h ▸ hs⟩
    | throw e => rw [hs] at h; simp at h
    | timeout => rw [hs] at h; simp at h

theorem loop_throw_invariant (step : σ → Ctl σ) (P : σ → Prop)
    (hstep : ∀ s s', P s → step s = .next s' → P s') :
    ∀ (fuel : Nat) (s0 : σ) (e : Error), P s0 → loop step fuel s0 = .throw e →
      ∃ s, P s ∧ step s = .throw e := by
  intro fuel
  induction fuel with
  | zero => intro s0 e _ h; simp [loop] at h
  | succ fuel ih =>
    intro s0 e h0 h
    simp only [loop] at h
    cases hs : step s0 with
    | next s1 =>
      rw [hs] at h
      exact ih s1 e (hstep s0 s1 h0 hs) h
    | exit s1 => rw [hs] at h; simp at h
    | throw e1 =>
      rw [hs] at h
      simp only [Outcome.throw.injEq] at h
      exact ⟨s0, h0, h ▸ hs⟩
    | timeout => rw [hs] at h; simp at h

/-- A loop whose body lowers a measure and never hands on a timeout ends
within the fuel given by the measure. -/
theorem loop_ne_timeout (step : σ → Ctl σ) (P : σ → Prop) (μ : σ → Nat)
    (hstep : ∀ s s', P s → step s = .next s' → P s' ∧ μ s' < μ s)
    (hto : ∀ s, P s → step s ≠ .timeout) :
    ∀ (fuel : Nat) (s0 : σ), P s0 → μ s0 < fuel → loop step fuel s0 ≠ .timeout := by
  intro fuel
  induction fuel with
  | zero => intro s0 _ h; omega
  | succ fuel ih =>
    intro s0 h0 hμ
    simp only [loop]
    cases hs : step s0 with
    | next s1 =>
      have := hstep s0 s1 h0 hs
      exact ih s1 this.1 (by omega)
    | exit s1 => simp
    | throw e => simp
    | timeout => exact absurd hs (hto s0 h0)

end Loops

/-! ### The split phase -/

section Split

variable {T : Type} [LinearOrder T]

/-- Filling the buffer up to `k` records and writing it out as one chunk. -/
theorem loop_split_fill (k p : Nat) (xs : List T) :
    ∀ (fuel : Nat) (rest chunk : List T) (cid : Nat) (cfs : List (List T)),
      xs ≠ [] → chunk.length + xs.length = k →
      loop (splitStep k p) (fuel + xs.length) ⟨xs ++ rest, chunk, cid, cfs⟩ =
        if cid + 1 = p then
          .ok ⟨rest, [], cid + 1, cfs ++ [(chunk ++ xs).insertionSort (· ≤ ·)]⟩
        else
          loop (splitStep k p) fuel
            ⟨rest, [], cid + 1, cfs ++ [(chunk ++ xs).insertionSort (· ≤ ·)]⟩ := by
  induction xs with
  | nil => intro _ _ _ _ _ h; exact absurd rfl h
  | cons x xs ih =>
    intro fuel rest chunk cid cfs _ hlen
    by_cases hxs : xs = []
    · subst hxs
      simp only [List.length_cons, List.length_nil, Nat.zero_add] at hlen
      simp only [List.length_cons, List.length_nil, Nat.zero_add, loop, splitStep,
        List.cons_append, List.nil_append, List.length_append, hlen, if_true]
      by_cases hp : cid + 1 = p <;> simp [hp]
    · have hpos : 0 < xs.length := List.length_pos.2 hxs
      simp only [List.length_cons] at hlen
      have hne : ¬ (chunk ++ [x]).length = k := by
        simp only [List.length_append, List.length_cons, List.length_nil]; omega
      have hfuel : fuel + (x :: xs).length = (fuel + xs.length) + 1 := by
        simp only [List.length_cons]; omega
      rw [hfuel]
      simp only [loop, splitStep, List.cons_append, hne, if_false]
      have := ih fuel rest (chunk ++ [x]) cid cfs hxs
        (by simp only [List.length_append, List.length_cons, List.length_nil]; omega)
      simpa using this

/-- The split loop on an input that holds at least `n * k` records, with `n`
chunks still to write, leaves after writing exactly these `n` chunks. -/
theorem loop_split_chunks (k p : Nat) (hk : 1 ≤ k) :
    ∀ (n : Nat) (infs : List T) (cid : Nat) (cfs : List (List T)) (fuel : Nat),
      1 ≤ n → cid + n = p → n * k ≤ infs.length → n * k < fuel →
      loop (splitStep k p) fuel ⟨infs, [], cid, cfs⟩ =
        .ok ⟨infs.drop (n * k), [], p,
          cfs ++ (List.range n).map
            (fun i => ((infs.drop (i * k)).take k).insertionSort (· ≤ ·))⟩ := by
  intro n
  induction n with
  | zero => intro _ _ _ _ h; omega
  | succ n ih =>
    intro infs cid cfs fuel _ hcid hlen hfuel
    have hmul : (n + 1) * k = n * k + k := Nat.succ_mul n k
    have hk_le : k ≤ infs.length := by omega
    have htake : (infs.take k).length = k := by simp [List.length_take, hk_le]
    have hne : infs.take k ≠ [] := by
      intro h; rw [h] at htake; simp at htake; omega
    obtain ⟨fuel', hfuel'⟩ : ∃ fuel', fuel = fuel' + (infs.take k).length :=
      ⟨fuel - k, by rw [htake]; omega⟩
    have hfill := loop_split_fill k p (infs.take k) fuel' (infs.drop k) [] cid cfs hne
      (by simp [htake])
    rw [List.take_append_drop, ← hfuel'] at hfill
    rw [hfill]
    simp only [List.nil_append]
    by_cases hn : n = 0
    · subst hn
      have hp : cid + 1 = p := by omega
      simp [hp, List.range_succ]
    · have hp : ¬ cid + 1 = p := by omega
      simp only [hp, if_false]
      rw [ih (infs.drop k) (cid + 1) _ fuel' (by omega) (by omega)
        (by simp only [List.length_drop]; omega) (by rw [htake] at hfuel'; omega)]
      simp only [List.drop_drop, List.range_succ_eq_map, List.map_cons, List.map_map,
        List.append_assoc, List.singleton_append, Nat.zero_mul, List.drop_zero]
      have h1 : k + n * k = (n + 1) * k := by omega
      have h2 : ∀ i : Nat, k + i * k = (i + 1) * k := fun i => by rw [Nat.succ_mul]; omega
      simp only [h1]
      congr 4
      apply List.map_congr_left
      intro i _
      simp only [Function.comp, h2, Nat.succ_eq_add_one]

/-- On an input shorter than what `n` further chunks need, the split loop
is ended by the extraction that meets the end of the input. -/
theorem loop_split_short (k p : Nat) (hk : 1 ≤ k) :
    ∀ (fuel : Nat) (infs chunk : List T) (cid : Nat) (cfs : List (List T)),
      infs.length < fuel → chunk.length < k →
      chunk.length + infs.length < (p - cid) * k →
      loop (splitStep k p) fuel ⟨infs, chunk, cid, cfs⟩ = .throw .iosFailure := by
  intro fuel
  induction fuel with
  | zero => intro _ _ _ _ h; omega
  | succ fuel ih =>
    intro infs chunk cid cfs hfuel hchunk hshort
    cases infs with
    | nil => simp [loop, splitStep]
    | cons x infs =>
      simp only [List.length_cons] at hfuel hshort
      simp only [loop, splitStep, List.length_append, List.length_cons, List.length_nil]
      by_cases hfull : chunk.length + (0 + 1) = k
      · simp only [hfull, if_true]
        have hlt : cid + 1 < p := by
          by_contra hcon
          have hle : p - cid ≤ 1 := by omega
          have : (p - cid) * k ≤ 1 * k := Nat.mul_le_mul_right k hle
          omega
        have hp : ¬ cid + 1 = p := by omega
        simp only [hp, if_false]
        apply ih
        · omega
        · simp only [List.length_nil]; omega
        · simp only [List.length_nil]
          have : (p - cid) * k = (p - (cid + 1)) * k + k := by
            have : p - cid = (p - (cid + 1)) + 1 := by omega
            rw [this, Nat.succ_mul]
          omega
      · simp only [hfull, if_false]
        apply ih
        · omega
        · simp only [List.length_append, List.length_cons, List.length_nil]; omega
        · simp only [List.length_append, List.length_cons, List.length_nil]; omega

end Split

/-! ### Loading a chunk -/

section Load

variable {T : Type} [LinearOrder T]

theorem loadLoop_ok (pq : PriorityQueue T) (c : Nat) :
    ∀ (n count : Nat) (fs : List T) (h : pq.Q), n ≤ fs.length →
      ∃ h', loadLoop pq c n count fs h = .ok (count + n, fs.drop n, h') ∧
        (pq.toList h').Perm ((fs.take n).map (fun v => (⟨v, c⟩ : Value T)) ++ pq.toList h) := by
  intro n
  induction n with
  | zero => intro count fs h _; exact ⟨h, rfl, by simp⟩
  | succ n ih =>
    intro count fs h hlen
    cases fs with
    | nil => simp at hlen
    | cons x fs =>
      simp only [List.length_cons, Nat.add_le_add_iff_right] at hlen
      obtain ⟨h', heq, hperm⟩ := ih (count + 1) fs (pq.emplace h ⟨x, c⟩) hlen
      refine ⟨h', ?_, ?_⟩
      · simp only [loadLoop, heq, List.drop_succ_cons]
        congr 2
        omega
      · refine hperm.trans ?_
        simp only [List.take_succ_cons, List.map_cons, List.cons_append]
        exact ((pq.toList_emplace h ⟨x, c⟩).append_left _).trans List.perm_middle

theorem loadLoop_short (pq : PriorityQueue T) (c : Nat) :
    ∀ (n count : Nat) (fs : List T) (h : pq.Q), fs.length < n →
      loadLoop pq c n count fs h = .throw .iosFailure := by
  intro n
  induction n with
  | zero => intro _ fs _ hlen; omega
  | succ n ih =>
    intro count fs h hlen
    cases fs with
    | nil => rfl
    | cons x fs =>
      simp only [List.length_cons, Nat.add_lt_add_iff_right] at hlen
      simp only [loadLoop]
      exact ih _ _ _ hlen

/-- The three ways `loadChunk` can go. -/
theorem loadChunk_cases {pq : PriorityQueue T} (s : Sorter T pq) (c : Nat) :
    (s.chunksfs[c]? = none ∧ loadChunk s c = .throw .undefinedBehavior) ∨
    (∃ fs, s.chunksfs[c]? = some fs ∧ fs.length < s.q ∧ loadChunk s c = .throw .iosFailure) ∨
    (∃ fs h', s.chunksfs[c]? = some fs ∧ s.q ≤ fs.length ∧
      loadChunk s c =
        .ok { s with chunksfs := s.chunksfs.set c (fs.drop s.q), min_heap := h' } ∧
      (pq.toList h').Perm
        ((fs.take s.q).map (fun v => (⟨v, c⟩ : Value T)) ++ pq.toList s.min_heap)) := by
  cases hfs : s.chunksfs[c]? with
  | none => left; simp [loadChunk, hfs]
  | some fs =>
    right
    by_cases hlen : s.q ≤ fs.length
    · right
      obtain ⟨h', heq, hperm⟩ := loadLoop_ok pq c s.q 0 fs s.min_heap hlen
      refine ⟨fs, h', rfl, hlen, ?_, hperm⟩
      simp [loadChunk, hfs, heq]
    · left
      refine ⟨fs, rfl, by omega, ?_⟩
      simp [loadChunk, hfs, loadLoop_short pq c s.q 0 fs s.min_heap (by omega)]

theorem loadChunk_ne_timeout {pq : PriorityQueue T} (s : Sorter T pq) (c : Nat) :
    loadChunk s c ≠ .timeout := by
  rcases loadChunk_cases s c with ⟨_, h⟩ | ⟨_, _, _, h⟩ | ⟨_, _, _, _, h, _⟩ <;> simp [h]

/-- The loop of `initHeap`, started at chunk `c` with `n` chunks to load,
each of which has `q` records to give. -/
theorem initLoop_ok {pq : PriorityQueue T} :
    ∀ (n c : Nat) (s : Sorter T pq),
      (∀ i, c ≤ i → i < c + n → ∃ fs, s.chunksfs[i]? = some fs ∧ s.q ≤ fs.length) →
      ∃ s', initLoop n c s = .ok s' ∧
        s'.m = s.m ∧ s'.k = s.k ∧ s'.p = s.p ∧ s'.q = s.q ∧ s'.outfs = s.outfs ∧
        s'.chunksrd = s.chunksrd ++ List.replicate n 0 ∧
        s'.chunksfs.length = s.chunksfs.length ∧
        (∀ i, s'.chunksfs[i]? =
          if c ≤ i ∧ i < c + n then (s.chunksfs[i]?).map (List.drop s.q)
          else s.chunksfs[i]?) ∧
        (pq.toList s'.min_heap).Perm
          (pq.toList s.min_heap ++
            ((List.range' c n).map (fun i =>
              ((s.chunksfs[i]?.getD []).take s.q).map (fun v => (⟨v, i⟩ : Value T)))).flatten) := by
  intro n
  induction n with
  | zero =>
    intro c s _
    refine ⟨s, rfl, rfl, rfl, rfl, rfl, rfl, by simp, rfl, ?_, by simp⟩
    intro i
    have : ¬ (c ≤ i ∧ i < c + 0) := by omega
    rw [if_neg this]
  | succ n ih =>
    intro c s hall
    obtain ⟨fs0, hfs0, hq0⟩ := hall c (Nat.le_refl c) (by omega)
    rcases loadChunk_cases s c with ⟨h, _⟩ | ⟨fs, h, hlt, _⟩ | ⟨fs, h', h, _, heq, hperm⟩
    · rw [hfs0] at h; simp at h
    · rw [hfs0] at h
      simp only [Option.some.injEq] at h
      subst h; omega
    · rw [hfs0] at h
      simp only [Option.some.injEq] at h
      subst h
      have hset : ∀ i, i ≠ c → (s.chunksfs.set c (fs0.drop s.q))[i]? = s.chunksfs[i]? :=
        fun i hi => List.getElem?_set_ne (Ne.symm hi)
      have hclt : c < s.chunksfs.length := (List.getElem?_eq_some.1 hfs0).1
      obtain ⟨s', hs', hm, hk, hp, hq, hout, hrd, hlen, hfs, hheap⟩ :=
        ih (c + 1)
          { s with chunksfs := s.chunksfs.set c (fs0.drop s.q), min_heap := h',
                   chunksrd := s.chunksrd ++ [0] }
          (by
            intro i hi1 hi2
            simp only
            rw [hset i (by omega)]
            exact hall i (by omega) (by omega))
      simp only at hm hk hp hq hout hrd hlen hfs hheap
      refine ⟨s', ?_, hm, hk, hp, hq, hout, ?_, ?_, ?_, ?_⟩
      · simp only [initLoop, heq]
        exact hs'
      · rw [hrd, List.replicate_succ, List.append_assoc, List.singleton_append]
      · rw [hlen, List.length_set]
      · intro i
        rw [hfs i]
        by_cases hic : i = c
        · subst hic
          have h1 : ¬ (i + 1 ≤ i ∧ i < i + 1 + n) := by omega
          have h2 : i ≤ i ∧ i < i + (n + 1) := by omega
          simp only [h1, h2, if_false, if_true, and_self]
          rw [List.getElem?_set_self hclt, hfs0]
          rfl
        · rw [hset i hic]
          by_cases hr : c + 1 ≤ i ∧ i < c + 1 + n
          · have h2 : c ≤ i ∧ i < c + (n + 1) := by omega
            simp only [hr, h2, if_true, and_self]
          · have h2 : ¬ (c ≤ i ∧ i < c + (n + 1)) := by omega
            simp only [hr, h2, if_false]
      · refine hheap.trans ?_
        have hcongr : (List.range' (c + 1) n).map (fun i =>
              (((s.chunksfs.set c (fs0.drop s.q))[i]?.getD []).take s.q).map
                (fun v => (⟨v, i⟩ : Value T))) =
            (List.range' (c + 1) n).map (fun i =>
              ((s.chunksfs[i]?.getD []).take s.q).map (fun v => (⟨v, i⟩ : Value T))) := by
          apply List.map_congr_left
          intro i hi
          have := List.mem_range'_1.1 hi
          rw [hset i (by omega)]
        rw [hcongr, List.range'_succ, List.map_cons, List.flatten_cons, hfs0]
        simp only [Option.getD_some]
        refine (hperm.append_right _).trans ?_
        rw [List.append_assoc]
        exact List.perm_append_comm_assoc _ _ _

end Load

/-! ### The merge loop -/

section Merge

variable {T : Type} [LinearOrder T]

omit [LinearOrder T] in
theorem sum_length_set (b : List T) :
    ∀ (l : List (List T)) (c : Nat) (a : List T), l[c]? = some a →
      ((l.set c b).map List.length).sum + a.length = (l.map List.length).sum + b.length := by
  intro l
  induction l with
  | nil => intro c a h; simp at h
  | cons x l ih =>
    intro c a h
    cases c with
    | zero =>
      simp only [List.getElem?_cons_zero, Option.some.injEq] at h
      subst h
      simp only [List.set_cons_zero, List.map_cons, List.sum_cons]
      omega
    | succ c =>
      simp only [List.getElem?_cons_succ] at h
      have := ih c a h
      simp only [List.set_cons_succ, List.map_cons, List.sum_cons]
      omega

omit [LinearOrder T] in
theorem flatten_set_perm (t b : List T) :
    ∀ (l : List (List T)) (c : Nat), l[c]? = some (t ++ b) →
      l.flatten.Perm (t ++ (l.set c b).flatten) := by
  intro l
  induction l with
  | nil => intro c h; simp at h
  | cons x l ih =>
    intro c h
    cases c with
    | zero =>
      simp only [List.getElem?_cons_zero, Option.some.injEq] at h
      subst h
      simp [List.flatten_cons]
    | succ c =>
      simp only [List.getElem?_cons_succ] at h
      have := ih c h
      simp only [List.set_cons_succ, List.flatten_cons]
      exact (this.append_left x).trans (List.perm_append_comm_assoc _ _ _)

omit [LinearOrder T] in
theorem countP_tag_map (c0 c : Nat) (l : List T) :
    (l.map (fun v => (⟨v, c0⟩ : Value T))).countP (fun e => decide (e.chunkid = c)) =
      if c0 = c then l.length else 0 := by
  induction l with
  | nil => simp
  | cons x l ih =>
    simp only [List.map_cons, List.countP_cons, ih, List.length_cons]
    by_cases h : c0 = c <;> simp [h]

theorem inHeap_pop (pq : PriorityQueue T) (h : pq.Q) (v : Value T) (hv : pq.top h = some v)
    (c : Nat) :
    inHeap pq h c = inHeap pq (pq.pop h) c + (if v.chunkid = c then 1 else 0) := by
  unfold inHeap
  rw [← (pq.pop_perm h v hv).countP_eq, List.countP_cons]
  simp

theorem top_mem (pq : PriorityQueue T) (h : pq.Q) (v : Value T) (hv : pq.top h = some v) :
    v ∈ pq.toList h :=
  (pq.pop_perm h v hv).subset (List.mem_cons_self _ _)

theorem pop_subset (pq : PriorityQueue T) (h : pq.Q) (v : Value T) (hv : pq.top h = some v) :
    ∀ e ∈ pq.toList (pq.pop h), e ∈ pq.toList h :=
  fun _ he => (pq.pop_perm h v hv).subset (List.mem_cons_of_mem _ he)

theorem top_value_le (pq : PriorityQueue T) (h : pq.Q) (v : Value T) (hv : pq.top h = some v) :
    ∀ e ∈ pq.toList h, v.value ≤ e.value := by
  intro e he
  have := pq.top_le h v hv e he
  simpa [GreaterThanValue] using this

/-- What an iteration of the merge loop that goes round again has done. -/
theorem mergeStep_next {pq : PriorityQueue T} (s s' : Sorter T pq)
    (h : mergeStep s = .next s') :
    ∃ v rd, pq.top s.min_heap = some v ∧ s.chunksrd[v.chunkid]? = some rd ∧ s.q ≠ 0 ∧
      (((rd + 1) % s.q = 0 ∧ rd + 1 < s.m / s.p ∧
          loadChunk (afterPop s v rd) v.chunkid = .ok s') ∨
       (¬ ((rd + 1) % s.q = 0 ∧ rd + 1 < s.m / s.p) ∧ s' = afterPop s v rd)) := by
  unfold mergeStep at h
  cases hv : pq.top s.min_heap with
  | none => rw [hv] at h; simp at h
  | some v =>
    rw [hv] at h
    simp only at h
    cases hrd : s.chunksrd[v.chunkid]? with
    | none => rw [hrd] at h; simp at h
    | some rd =>
      rw [hrd] at h
      simp only at h
      by_cases hq : s.q = 0
      · simp [hq] at h
      · simp only [hq, if_false] at h
        refine ⟨v, rd, rfl, hrd, hq, ?_⟩
        by_cases h1 : (rd + 1) % s.q = 0
        · simp only [h1, if_true] at h
          by_cases hp : s.p = 0
          · simp [hp] at h
          · simp only [hp, if_false] at h
            by_cases h2 : rd + 1 < s.m / s.p
            · simp only [h2, if_true] at h
              left
              refine ⟨h1, h2, ?_⟩
              cases hl : loadChunk (afterPop s v rd) v.chunkid with
              | ok s2 =>
                rw [hl] at h
                simp only [Ctl.next.injEq] at h
                rw [h]
              | throw e => rw [hl] at h; simp at h
              | timeout => rw [hl] at h; simp at h
            · simp only [h2, if_false, Ctl.next.injEq] at h
              right
              exact ⟨fun hc => h2 hc.2, h.symm⟩
        · simp only [h1, if_false, Ctl.next.injEq] at h
          right
          exact ⟨fun hc => h1 hc.1, h.symm⟩

/-- At a pop: the chunk of the popped entry has a stream, one entry less in
the heap, and its batch in the heap is used up exactly when the incremented
counter is a multiple of `q`. -/
theorem pop_facts {pq : PriorityQueue T} (s : Sorter T pq) (hI : CountInv s)
    (v : Value T) (rd : Nat) (hv : pq.top s.min_heap = some v)
    (hrd : s.chunksrd[v.chunkid]? = some rd) :
    ∃ fs0, s.chunksfs[v.chunkid]? = some fs0 ∧
      inHeap pq (pq.pop s.min_heap) v.chunkid + 1 = inHeap pq s.min_heap v.chunkid ∧
      rd + 1 + inHeap pq (pq.pop s.min_heap) v.chunkid + fs0.length = s.k ∧
      ((rd + 1) % s.q = 0 ↔ inHeap pq (pq.pop s.min_heap) v.chunkid = 0) := by
  have hlt : v.chunkid < s.chunksfs.length := by
    rw [hI.len_fs]; exact hI.tag_lt v (top_mem pq _ v hv)
  obtain ⟨fs0, hfs0⟩ : ∃ fs0, s.chunksfs[v.chunkid]? = some fs0 :=
    ⟨_, List.getElem?_eq_getElem hlt⟩
  have hpop := inHeap_pop pq s.min_heap v hv v.chunkid
  simp only [if_true] at hpop
  have htot := hI.total v.chunkid fs0 rd hfs0 hrd
  have hquota := hI.quota v.chunkid
  have hdvd := hI.dvd v.chunkid fs0 hfs0
  have hk := hI.k_eq
  have hq := hI.q_pos
  refine ⟨fs0, hfs0, by omega, by omega, ?_⟩
  have hsum : s.q ∣ rd + 1 + inHeap pq (pq.pop s.min_heap) v.chunkid := by
    have h1 : s.q ∣ (rd + 1 + inHeap pq (pq.pop s.min_heap) v.chunkid) + fs0.length :=
      ⟨s.p, by rw [Nat.mul_comm]; omega⟩
    exact (Nat.dvd_add_iff_left hdvd).2 h1
  constructor
  · intro hmod
    have h1 : s.q ∣ rd + 1 := Nat.dvd_of_mod_eq_zero hmod
    have h2 : s.q ∣ inHeap pq (pq.pop s.min_heap) v.chunkid :=
      (Nat.dvd_add_iff_right h1).2 hsum
    exact Nat.eq_zero_of_dvd_of_lt h2 (by omega)
  · intro hz
    rw [hz, Nat.add_zero] at hsum
    exact Nat.mod_eq_zero_of_dvd hsum

/-- The bookkeeping invariant is kept by an iteration of the merge loop, which
takes exactly one record out of the heap and the chunk streams. -/
theorem countInv_step {pq : PriorityQueue T} (s s' : Sorter T pq) (hI : CountInv s)
    (h : mergeStep s = .next s') :
    CountInv s' ∧ remaining s' + 1 = remaining s ∧
      s'.m = s.m ∧ s'.k = s.k ∧ s'.p = s.p ∧ s'.q = s.q := by
  obtain ⟨v, rd, hv, hrd, hq0, hcase⟩ := mergeStep_next s s' h
  obtain ⟨fs0, hfs0, hcnt, htot, hmod⟩ := pop_facts s hI v rd hv hrd
  have hpopc : ∀ c, c ≠ v.chunkid →
      inHeap pq (pq.pop s.min_heap) c = inHeap pq s.min_heap c := by
    intro c hc
    have := inHeap_pop pq s.min_heap v hv c
    simp only [Ne.symm hc, if_false, Nat.add_zero] at this
    exact this.symm
  have hlen : (pq.toList s.min_heap).length = (pq.toList (pq.pop s.min_heap)).length + 1 := by
    rw [← (pq.pop_perm s.min_heap v hv).length_eq, List.length_cons]
  have hrdset : ∀ c r, (s.chunksrd.set v.chunkid (rd + 1))[c]? = some r →
      (c = v.chunkid ∧ r = rd + 1) ∨ (c ≠ v.chunkid ∧ s.chunksrd[c]? = some r) := by
    intro c r hc
    rw [List.getElem?_set] at hc
    by_cases hcv : v.chunkid = c
    · left
      simp only [hcv, if_true] at hc
      split at hc
      · simp only [Option.some.injEq] at hc
        exact ⟨hcv.symm, hc.symm⟩
      · simp at hc
    · right
      simp only [hcv, if_false] at hc
      exact ⟨Ne.symm hcv, hc⟩
  rcases hcase with ⟨h1, h2, hload⟩ | ⟨hno, hs'⟩
  · -- the iteration refills
    have hz := hmod.1 h1
    rcases loadChunk_cases (afterPop s v rd) v.chunkid with
      ⟨_, hc⟩ | ⟨_, _, _, hc⟩ | ⟨fs, h', hfs, hqle, hc, hperm⟩
    · rw [hc] at hload; simp at hload
    · rw [hc] at hload; simp at hload
    · rw [hc] at hload
      simp only [Outcome.ok.injEq] at hload
      subst hload
      simp only [afterPop] at hfs hqle hperm ⊢
      rw [hfs0] at hfs
      simp only [Option.some.injEq] at hfs
      subst hfs
      have hin : ∀ c, inHeap pq h' c =
          (if v.chunkid = c then s.q else 0) + inHeap pq (pq.pop s.min_heap) c := by
        intro c
        unfold inHeap
        rw [hperm.countP_eq, List.countP_append, countP_tag_map, List.length_take,
          Nat.min_eq_left hqle]
      have hfsset : ∀ c (f : List T), (s.chunksfs.set v.chunkid (fs0.drop s.q))[c]? = some f →
          (c = v.chunkid ∧ f = fs0.drop s.q) ∨ (c ≠ v.chunkid ∧ s.chunksfs[c]? = some f) := by
        intro c f hc
        rw [List.getElem?_set] at hc
        by_cases hcv : v.chunkid = c
        · left
          simp only [hcv, if_true] at hc
          split at hc
          · simp only [Option.some.injEq] at hc
            exact ⟨hcv.symm, hc.symm⟩
          · simp at hc
        · right
          simp only [hcv, if_false] at hc
          exact ⟨Ne.symm hcv, hc⟩
      refine ⟨⟨?_, ?_, hI.q_pos, hI.k_eq, hI.k_le, ?_, ?_, ?_, ?_, ?_⟩, ?_,
        trivial, trivial, trivial, trivial⟩
      · simp only [List.length_set]; exact hI.len_fs
      · simp only [List.length_set]; exact hI.len_rd
      · intro e he
        simp only at he
        rcases List.mem_append.1 (hperm.subset he) with he | he
        · obtain ⟨x, _, hx⟩ := List.mem_map.1 he
          subst hx
          exact hI.tag_lt v (top_mem pq _ v hv)
        · exact hI.tag_lt e (pop_subset pq _ v hv e he)
      · intro c f r hf hr
        simp only at hf hr ⊢
        rw [hin c]
        rcases hfsset c f hf with ⟨hc, hf'⟩ | ⟨hc, hf'⟩
        · rcases hrdset c r hr with ⟨_, hr'⟩ | ⟨hc', _⟩
          · subst hc; subst hf'; subst hr'
            simp only [if_true, List.length_drop]
            omega
          · exact absurd hc hc'
        · rcases hrdset c r hr with ⟨hc', _⟩ | ⟨_, hr'⟩
          · exact absurd hc' hc
          · simp only [Ne.symm hc, if_false, Nat.zero_add]
            rw [hpopc c hc]
            exact hI.total c f r hf' hr'
      · intro c f hf
        simp only at hf ⊢
        rcases hfsset c f hf with ⟨_, hf'⟩ | ⟨_, hf'⟩
        · subst hf'
          rw [List.length_drop]
          exact (Nat.dvd_sub' (hI.dvd _ _ hfs0) (Nat.dvd_refl _))
        · exact hI.dvd c f hf'
      · intro c
        simp only
        rw [hin c]
        by_cases hc : v.chunkid = c
        · subst hc
          simp only [if_true]
          omega
        · simp only [hc, if_false, Nat.zero_add]
          rw [hpopc c (Ne.symm hc)]
          exact hI.quota c
      · intro c r hr hzero
        simp only at hr hzero ⊢
        rw [hin c] at hzero
        by_cases hc : v.chunkid = c
        · subst hc
          simp only [if_true] at hzero
          have := hI.q_pos
          omega
        · simp only [hc, if_false, Nat.zero_add] at hzero
          rw [hpopc c (Ne.symm hc)] at hzero
          rcases hrdset c r hr with ⟨hc', _⟩ | ⟨_, hr'⟩
          · exact absurd hc'.symm hc
          · exact hI.done c r hr' hzero
      · unfold remaining
        simp only [pq.size_eq]
        have hsum := sum_length_set (fs0.drop s.q) s.chunksfs v.chunkid fs0 hfs0
        rw [List.length_drop] at hsum
        have hl' := hperm.length_eq
        simp only [List.length_append, List.length_map, List.length_take,
          Nat.min_eq_left hqle] at hl'
        omega
  · -- the iteration does not refill
    subst hs'
    simp only [afterPop]
    refine ⟨⟨hI.len_fs, ?_, hI.q_pos, hI.k_eq, hI.k_le, ?_, ?_, hI.dvd, ?_, ?_⟩, ?_,
      trivial, trivial, trivial, trivial⟩
    · simp only [List.length_set]; exact hI.len_rd
    · intro e he
      exact hI.tag_lt e (pop_subset pq _ v hv e he)
    · intro c f r hf hr
      simp only at hf hr ⊢
      rcases hrdset c r hr with ⟨hc, hr'⟩ | ⟨hc, hr'⟩
      · subst hc; subst hr'
        rw [hfs0] at hf
        simp only [Option.some.injEq] at hf
        subst hf
        exact htot
      · rw [hpopc c hc]
        exact hI.total c f r hf hr'
    · intro c
      simp only
      by_cases hc : c = v.chunkid
      · subst hc
        have := hI.quota v.chunkid
        omega
      · rw [hpopc c hc]
        exact hI.quota c
    · intro c r hr hzero
      simp only at hr hzero ⊢
      rcases hrdset c r hr with ⟨hc, hr'⟩ | ⟨hc, hr'⟩
      · subst hc; subst hr'
        have h1 := hmod.2 hzero
        by_contra hcon
        exact hno ⟨h1, by omega⟩
      · rw [hpopc c hc] at hzero
        exact hI.done c r hr' hzero
    · unfold remaining
      simp only [pq.size_eq]
      omega

/-- The ordering invariant is kept by an iteration of the merge loop, which
appends the value on top of the heap to the output. -/
theorem orderInv_step {pq : PriorityQueue T} (D : List T) (s s' : Sorter T pq)
    (hI : CountInv s) (hO : OrderInv D s) (h : mergeStep s = .next s') :
    OrderInv D s' ∧ ∃ v, pq.top s.min_heap = some v ∧ s'.outfs = s.outfs ++ [v.value] := by
  obtain ⟨v, rd, hv, hrd, hq0, hcase⟩ := mergeStep_next s s' h
  obtain ⟨fs0, hfs0, hcnt, htot, hmod⟩ := pop_facts s hI v rd hv hrd
  have hvmem := top_mem pq _ v hv
  have hsub := pop_subset pq _ v hv
  have hvle := top_value_le pq _ v hv
  have hout_sorted : (s.outfs ++ [v.value]).Sorted (· ≤ ·) := by
    unfold List.Sorted
    rw [List.pairwise_append]
    refine ⟨hO.out_sorted, List.pairwise_singleton _ _, ?_⟩
    intro x hx y hy
    simp only [List.mem_singleton] at hy
    subst hy
    exact hO.out_le x hx v hvmem
  have hout_le : ∀ x ∈ s.outfs ++ [v.value], ∀ e ∈ pq.toList s.min_heap, x ≤ e.value := by
    intro x hx e he
    rcases List.mem_append.1 hx with hx | hx
    · exact hO.out_le x hx e he
    · simp only [List.mem_singleton] at hx
      subst hx
      exact hvle e he
  have hperm_pop : (s.outfs ++ [v.value] ++ (pq.toList (pq.pop s.min_heap)).map Value.value).Perm
      (s.outfs ++ (pq.toList s.min_heap).map Value.value) := by
    rw [List.append_assoc]
    apply List.Perm.append_left
    have := (pq.pop_perm s.min_heap v hv).map Value.value
    simpa using this
  rcases hcase with ⟨h1, h2, hload⟩ | ⟨hno, hs'⟩
  · rcases loadChunk_cases (afterPop s v rd) v.chunkid with
      ⟨_, hc⟩ | ⟨_, _, _, hc⟩ | ⟨fs, h', hfs, hqle, hc, hperm⟩
    · rw [hc] at hload; simp at hload
    · rw [hc] at hload; simp at hload
    · rw [hc] at hload
      simp only [Outcome.ok.injEq] at hload
      subst hload
      simp only [afterPop] at hfs hqle hperm ⊢
      rw [hfs0] at hfs
      simp only [Option.some.injEq] at hfs
      subst hfs
      have hsorted0 : fs0.Sorted (· ≤ ·) :=
        hO.fs_sorted fs0 (List.getElem?_mem hfs0)
      have hsplit : (fs0.take s.q ++ fs0.drop s.q).Pairwise (· ≤ ·) := by
        rw [List.take_append_drop]; exact hsorted0
      rw [List.pairwise_append] at hsplit
      have hlt : v.chunkid < s.chunksfs.length := (List.getElem?_eq_some.1 hfs0).1
      refine ⟨⟨?_, ?_, hout_sorted, ?_, ?_⟩, v, hv, rfl⟩
      · intro f hf
        rcases List.mem_or_eq_of_mem_set hf with hf | hf
        · exact hO.fs_sorted f hf
        · subst hf
          exact hsplit.2.1
      · intro e he f hf y hy
        simp only at he hf
        rcases List.mem_append.1 (hperm.subset he) with he | he
        · obtain ⟨x, hx, hxe⟩ := List.mem_map.1 he
          subst hxe
          simp only at hf ⊢
          rw [List.getElem?_set_self hlt] at hf
          simp only [Option.some.injEq] at hf
          subst hf
          exact hsplit.2.2 x hx y hy
        · by_cases hc' : e.chunkid = v.chunkid
          · rw [hc', List.getElem?_set_self hlt] at hf
            simp only [Option.some.injEq] at hf
            subst hf
            exact hO.heap_le e (hsub e he) fs0 (hc' ▸ hfs0) y (List.mem_of_mem_drop hy)
          · rw [List.getElem?_set_ne (Ne.symm hc')] at hf
            exact hO.heap_le e (hsub e he) f hf y hy
      · intro x hx e he
        simp only at he
        rcases List.mem_append.1 (hperm.subset he) with he | he
        · obtain ⟨y, hy, hye⟩ := List.mem_map.1 he
          subst hye
          simp only
          have h1 : x ≤ v.value := hout_le x hx v hvmem
          have h2 : v.value ≤ y := hO.heap_le v hvmem fs0 hfs0 y (List.mem_of_mem_take hy)
          exact le_trans h1 h2
        · exact hout_le x hx e (hsub e he)
      · simp only
        refine List.Perm.trans ?_ hO.perm
        have hA : ((pq.toList h').map Value.value).Perm
            (fs0.take s.q ++ (pq.toList (pq.pop s.min_heap)).map Value.value) := by
          have := hperm.map Value.value
          rw [List.map_append, List.map_map] at this
          have hid : (Value.value ∘ fun x => (⟨x, v.chunkid⟩ : Value T)) = id := rfl
          rwa [hid, List.map_id] at this
        have hB : s.chunksfs.flatten.Perm
            (fs0.take s.q ++ (s.chunksfs.set v.chunkid (fs0.drop s.q)).flatten) :=
          flatten_set_perm (fs0.take s.q) (fs0.drop s.q) s.chunksfs v.chunkid
            (by rw [List.take_append_drop]; exact hfs0)
        refine List.Perm.trans ?_ ((hperm_pop.append_right _).trans
          (List.Perm.append_left _ hB.symm))
        rw [List.append_assoc, List.append_assoc, List.append_assoc, List.append_assoc]
        apply List.Perm.append_left
        apply List.Perm.append_left
        refine (hA.append_right _).trans ?_
        rw [List.append_assoc]
        exact List.perm_append_comm_assoc _ _ _
  · subst hs'
    simp only [afterPop]
    refine ⟨⟨hO.fs_sorted, ?_, hout_sorted, ?_, ?_⟩, v, hv, rfl⟩
    · intro e he f hf y hy
      exact hO.heap_le e (hsub e he) f hf y hy
    · intro x hx e he
      exact hout_le x hx e (hsub e he)
    · exact (hperm_pop.append_right _).trans hO.perm

theorem mergeStep_ne_timeout {pq : PriorityQueue T} (s : Sorter T pq) :
    mergeStep s ≠ .timeout := by
  unfold mergeStep
  cases pq.top s.min_heap with
  | none => simp
  | some v =>
    simp only
    cases s.chunksrd[v.chunkid]? with
    | none => simp
    | some rd =>
      simp only
      split
      · simp
      · split
        · split
          · simp
          · split
            · have := loadChunk_ne_timeout (afterPop s v rd) v.chunkid
              cases hl : loadChunk (afterPop s v rd) v.chunkid with
              | ok s2 => simp
              | throw e => simp
              | timeout => exact absurd hl this
            · simp
        · simp

theorem mergeStep_exit {pq : PriorityQueue T} (s s' : Sorter T pq)
    (h : mergeStep s = .exit s') : s' = s ∧ pq.toList s.min_heap = [] := by
  unfold mergeStep at h
  cases hv : pq.top s.min_heap with
  | none =>
    rw [hv] at h
    simp only [Ctl.exit.injEq] at h
    exact ⟨h.symm, (pq.top_eq_none _).1 hv⟩
  | some v =>
    rw [hv] at h
    simp only at h
    cases hrd : s.chunksrd[v.chunkid]? with
    | none => rw [hrd] at h; simp at h
    | some rd =>
      rw [hrd] at h
      simp only at h
      split at h
      · simp at h
      · split at h
        · split at h
          · simp at h
          · split at h
            · cases hl : loadChunk (afterPop s v rd) v.chunkid with
              | ok s2 => rw [hl] at h; simp at h
              | throw e => rw [hl] at h; simp at h
              | timeout => rw [hl] at h; simp at h
            · simp at h
        · simp at h

/-- When the quota `m/p` of a chunk is its size `k`, an iteration of the
merge loop raises nothing. -/
theorem mergeStep_ne_throw {pq : PriorityQueue T} (s : Sorter T pq) (hI : CountInv s)
    (hL : s.m / s.p = s.k) (e : Error) : mergeStep s ≠ .throw e := by
  intro h
  unfold mergeStep at h
  cases hv : pq.top s.min_heap with
  | none => rw [hv] at h; simp at h
  | some v =>
    rw [hv] at h
    simp only at h
    have hlt : v.chunkid < s.chunksrd.length := by
      rw [hI.len_rd]; exact hI.tag_lt v (top_mem pq _ v hv)
    cases hrd : s.chunksrd[v.chunkid]? with
    | none =>
      rw [List.getElem?_eq_getElem hlt] at hrd
      simp at hrd
    | some rd =>
      rw [hrd] at h
      simp only at h
      obtain ⟨fs0, hfs0, hcnt, htot, hmod⟩ := pop_facts s hI v rd hv hrd
      have hq := hI.q_pos
      have hq0 : ¬ s.q = 0 := by omega
      have hp0 : ¬ s.p = 0 := by
        have := hI.tag_lt v (top_mem pq _ v hv)
        omega
      simp only [hq0, hp0, if_false] at h
      split at h
      · rename_i h1
        split at h
        · rename_i h2
          have hz := hmod.1 h1
          have hdvd := hI.dvd v.chunkid fs0 hfs0
          have hpos : 0 < fs0.length := by omega
          have hqle : s.q ≤ fs0.length := Nat.le_of_dvd hpos hdvd
          rcases loadChunk_cases (afterPop s v rd) v.chunkid with
            ⟨hc, _⟩ | ⟨fs, hfs, hlt', _⟩ | ⟨_, _, _, _, hc, _⟩
          · simp only [afterPop] at hc
            rw [hfs0] at hc; simp at hc
          · simp only [afterPop] at hfs hlt'
            rw [hfs0] at hfs
            simp only [Option.some.injEq] at hfs
            subst hfs
            omega
          · rw [hc] at h; simp at h
        · simp at h
      · simp at h

/-- When the heap is empty, every counter stands at `k` and every chunk
stream is read to its end. -/
theorem countInv_exit {pq : PriorityQueue T} (s : Sorter T pq) (hI : CountInv s)
    (hnil : pq.toList s.min_heap = []) :
    s.chunksrd = List.replicate s.p s.k ∧ (∀ fs ∈ s.chunksfs, fs = []) := by
  have hzero : ∀ c, inHeap pq s.min_heap c = 0 := by
    intro c; simp [inHeap, hnil]
  constructor
  · rw [List.eq_replicate_iff]
    refine ⟨hI.len_rd, ?_⟩
    intro r hr
    obtain ⟨c, hc⟩ := List.mem_iff_getElem?.1 hr
    have hlt : c < s.chunksfs.length := by
      rw [hI.len_fs, ← hI.len_rd]; exact (List.getElem?_eq_some.1 hc).1
    have h1 := hI.total c _ r (List.getElem?_eq_getElem hlt) hc
    have h2 := hI.done c r hc (hzero c)
    have h3 := hI.k_le
    rw [hzero c] at h1
    omega
  · intro fs hfs
    obtain ⟨c, hc⟩ := List.mem_iff_getElem?.1 hfs
    have hlt : c < s.chunksrd.length := by
      rw [hI.len_rd, ← hI.len_fs]; exact (List.getElem?_eq_some.1 hc).1
    have h1 := hI.total c fs _ hc (List.getElem?_eq_getElem hlt)
    have h2 := hI.done c _ (List.getElem?_eq_getElem hlt) (hzero c)
    have h3 := hI.k_le
    rw [hzero c] at h1
    exact List.length_eq_zero.1 (by omega)

end Merge

/-! ### From the constructor to the merge loop -/

section Init

variable {T : Type} [LinearOrder T]

theorem new_ok (pq : PriorityQueue T) (m k : Nat) (hk : 1 ≤ k) (hkm : k ≤ m) :
    new pq m k = .ok
      { m := m, k := k, p := m / k, q := k / (m / k),
        chunksfs := [], chunksrd := [], min_heap := pq.nil, outfs := [] } := by
  have h1 : ¬ k = 0 := by omega
  have h2 : ¬ m / k = 0 := Nat.pos_iff_ne_zero.1 (Nat.div_pos hkm (by omega))
  simp [new, h1, h2]

theorem new_ok_inv (pq : PriorityQueue T) (m k : Nat) (s0 : Sorter T pq)
    (h : new pq m k = .ok s0) :
    1 ≤ k ∧ k ≤ m ∧ 1 ≤ m / k ∧ s0 =
      { m := m, k := k, p := m / k, q := k / (m / k),
        chunksfs := [], chunksrd := [], min_heap := pq.nil, outfs := [] } := by
  unfold new at h
  by_cases h1 : k = 0
  · simp [h1] at h
  · by_cases h2 : m / k = 0
    · simp [h1, h2] at h
    · simp only [h1, h2, if_false, Outcome.ok.injEq] at h
      refine ⟨by omega, ?_, Nat.pos_of_ne_zero h2, h.symm⟩
      by_contra hcon
      exact h2 (Nat.div_eq_of_lt (by omega))

/-- The split phase on an input that holds `p * k` records or more. -/
theorem splitAndSortChunks_ok {pq : PriorityQueue T} (s : Sorter T pq) (infs : List T)
    (hk : 1 ≤ s.k) (hp : 1 ≤ s.p) (hfs : s.chunksfs = [])
    (hlen : s.p * s.k ≤ infs.length) :
    splitAndSortChunks s infs =
      .ok ({ s with chunksfs := sortedChunks s.k s.p infs }, infs.drop (s.p * s.k)) := by
  have := loop_split_chunks s.k s.p hk s.p infs 0 [] (infs.length + 1) hp (by omega) hlen
    (by omega)
  simp only [splitAndSortChunks, splitInit, hfs, this, List.nil_append, ne_eq,
    not_true_eq_false, if_false, sortedChunks]

/-- The split phase on an input that holds fewer than `p * k` records. -/
theorem splitAndSortChunks_short {pq : PriorityQueue T} (s : Sorter T pq) (infs : List T)
    (hk : 1 ≤ s.k) (hlen : infs.length < s.p * s.k) :
    splitAndSortChunks s infs = .throw .iosFailure := by
  have := loop_split_short s.k s.p hk (infs.length + 1) infs [] 0 s.chunksfs (by omega)
    (by simp only [List.length_nil]; omega) (by simpa using hlen)
  simp only [splitAndSortChunks, splitInit, this]

/-- The split loop is left only by the `break` at `chunkid == p` or by the
stream failure at the end of the input, so `splitAndSortChunks` never raises
the insufficient-chunks error of line 199, whatever the object and the input. -/
theorem splitAndSortChunks_ne_insufficientChunks {pq : PriorityQueue T} (s : Sorter T pq)
    (infs : List T) (expected received : Nat) :
    splitAndSortChunks s infs ≠ .throw (.insufficientChunks expected received) := by
  unfold splitAndSortChunks
  cases hloop : loop (splitStep s.k s.p) (infs.length + 1) (splitInit s infs) with
  | timeout => simp
  | throw e =>
    obtain ⟨st, _, hst⟩ := loop_throw_invariant (splitStep s.k s.p) (fun _ => True)
      (fun _ _ _ _ => trivial) _ _ e trivial hloop
    have : e = .iosFailure := by
      unfold splitStep at hst
      cases hinfs : st.infs with
      | nil => rw [hinfs] at hst; simp at hst; exact hst.symm
      | cons x rest =>
        rw [hinfs] at hst
        simp only at hst
        split at hst
        · split at hst <;> simp at hst
        · simp at hst
    subst this
    simp
  | ok st' =>
    obtain ⟨st, _, hst⟩ := loop_ok_invariant (splitStep s.k s.p) (fun _ => True)
      (fun _ _ _ _ => trivial) _ _ st' trivial hloop
    have : st'.chunkid = s.p := by
      unfold splitStep at hst
      cases hinfs : st.infs with
      | nil => rw [hinfs] at hst; simp at hst
      | cons x rest =>
        rw [hinfs] at hst
        simp only at hst
        split at hst
        · split at hst
          · rename_i hp
            simp only [Ctl.exit.injEq] at hst
            rw [← hst]
            exact hp
          · simp at hst
        · simp at hst
    simp [this]

omit [LinearOrder T] in
theorem take_blocks (k : Nat) (infs : List T) :
    ∀ p, ((List.range p).map (fun i => (infs.drop (i * k)).take k)).flatten =
      infs.take (p * k) := by
  intro p
  induction p with
  | zero => simp
  | succ p ih =>
    rw [List.range_succ, List.map_append, List.flatten_append, ih, Nat.succ_mul,
      List.take_add]
    simp

omit [LinearOrder T] in
theorem perm_flatten_map {ι : Type} (f g : ι → List T) :
    ∀ l : List ι, (∀ i ∈ l, (f i).Perm (g i)) → (l.map f).flatten.Perm (l.map g).flatten := by
  intro l
  induction l with
  | nil => intro _; simp
  | cons a l ih =>
    intro h
    simp only [List.map_cons, List.flatten_cons]
    exact (h a (List.mem_cons_self _ _)).append (ih (fun i hi => h i (List.mem_cons_of_mem _ hi)))

omit [LinearOrder T] in
theorem flatten_map_append {ι : Type} (f g : ι → List T) :
    ∀ l : List ι, ((l.map f).flatten ++ (l.map g).flatten).Perm
      (l.map (fun i => f i ++ g i)).flatten := by
  intro l
  induction l with
  | nil => simp
  | cons a l ih =>
    simp only [List.map_cons, List.flatten_cons, List.append_assoc]
    apply List.Perm.append_left
    refine List.Perm.trans ?_ (List.Perm.append_left _ ih)
    exact List.perm_append_comm_assoc _ _ _

theorem sortedChunks_length (k p : Nat) (infs : List T) :
    (sortedChunks k p infs).length = p := by
  simp [sortedChunks]

theorem sortedChunks_get (k p : Nat) (infs : List T) (i : Nat) (hi : i < p) :
    (sortedChunks k p infs)[i]? =
      some (((infs.drop (i * k)).take k).insertionSort (· ≤ ·)) := by
  simp [sortedChunks, List.getElem?_map, List.getElem?_range hi]

theorem sortedChunks_mem (k p : Nat) (infs : List T) (hlen : p * k ≤ infs.length)
    (fs : List T) (h : fs ∈ sortedChunks k p infs) :
    fs.length = k ∧ fs.Sorted (· ≤ ·) := by
  simp only [sortedChunks, List.mem_map, List.mem_range] at h
  obtain ⟨i, hi, rfl⟩ := h
  refine ⟨?_, List.sorted_insertionSort _ _⟩
  rw [List.length_insertionSort, List.length_take, List.length_drop]
  have : (i + 1) * k ≤ p * k := Nat.mul_le_mul_right k hi
  rw [Nat.succ_mul] at this
  omega

theorem sortedChunks_perm (k p : Nat) (infs : List T) :
    (sortedChunks k p infs).flatten.Perm (infs.take (p * k)) := by
  rw [← take_blocks k infs p]
  exact perm_flatten_map _ _ _ (fun i _ => List.perm_insertionSort _ _)

omit [LinearOrder T] in
theorem length_flatten_const {ι : Type} (F : ι → List (Value T)) (q : Nat) :
    ∀ l : List ι, (∀ i ∈ l, (F i).length = q) → (l.map F).flatten.length = l.length * q := by
  intro l
  induction l with
  | nil => intro _; simp
  | cons a l ih =>
    intro h
    simp only [List.map_cons, List.flatten_cons, List.length_append, List.length_cons]
    rw [h a (List.mem_cons_self _ _), ih (fun i hi => h i (List.mem_cons_of_mem _ hi)),
      Nat.succ_mul]
    omega

omit [LinearOrder T] in
theorem countP_flatten_tag (G : Nat → List T) (j : Nat) :
    ∀ l : List Nat, l.Nodup →
      ((l.map (fun i => (G i).map (fun v => (⟨v, i⟩ : Value T)))).flatten).countP
          (fun e => decide (e.chunkid = j)) =
        if j ∈ l then (G j).length else 0 := by
  intro l
  induction l with
  | nil => intro _; simp
  | cons a l ih =>
    intro hnd
    rw [List.nodup_cons] at hnd
    simp only [List.map_cons, List.flatten_cons, List.countP_append, countP_tag_map, ih hnd.2,
      List.mem_cons]
    by_cases haj : a = j
    · subst haj
      simp [hnd.1]
    · have : ¬ j = a := fun h => haj h.symm
      simp [haj, this]

/-- The loop of `initHeap` on `p` chunk streams that each hold `q` records
or more, started with an empty heap and no counters. -/
theorem initLoop_chunks {pq : PriorityQueue T} (s : Sorter T pq)
    (hlen : s.chunksfs.length = s.p) (hq : ∀ fs ∈ s.chunksfs, s.q ≤ fs.length)
    (hheap : pq.toList s.min_heap = []) (hrd : s.chunksrd = []) :
    ∃ s', initLoop s.p 0 s = .ok s' ∧
      s'.m = s.m ∧ s'.k = s.k ∧ s'.p = s.p ∧ s'.q = s.q ∧ s'.outfs = s.outfs ∧
      s'.chunksrd = List.replicate s.p 0 ∧
      s'.chunksfs = s.chunksfs.map (List.drop s.q) ∧
      (pq.toList s'.min_heap).Perm
        ((List.range s.p).map (fun i =>
          ((s.chunksfs[i]?.getD []).take s.q).map (fun v => (⟨v, i⟩ : Value T)))).flatten ∧
      pq.size s'.min_heap = s.p * s.q := by
  have hall : ∀ i, 0 ≤ i → i < 0 + s.p → ∃ fs, s.chunksfs[i]? = some fs ∧ s.q ≤ fs.length := by
    intro i _ hi
    have hlt : i < s.chunksfs.length := by omega
    exact ⟨_, List.getElem?_eq_getElem hlt, hq _ (List.getElem_mem hlt)⟩
  obtain ⟨s', hs', hm, hk, hp, hq', hout, hrd', hlen', hfs, hperm⟩ := initLoop_ok s.p 0 s hall
  rw [hheap, List.nil_append, ← List.range_eq_range'] at hperm
  refine ⟨s', hs', hm, hk, hp, hq', hout, ?_, ?_, hperm, ?_⟩
  · rw [hrd', hrd, List.nil_append]
  · apply List.ext_getElem?
    intro i
    rw [hfs i, List.getElem?_map]
    by_cases hi : i < s.p
    · have : 0 ≤ i ∧ i < 0 + s.p := by omega
      rw [if_pos this]
    · have : ¬ (0 ≤ i ∧ i < 0 + s.p) := by omega
      rw [if_neg this, List.getElem?_eq_none (by omega)]
      rfl
  · rw [pq.size_eq, hperm.length_eq, length_flatten_const _ s.q, List.length_range]
    intro i hi
    have hlt : i < s.chunksfs.length := by rw [hlen]; exact List.mem_range.1 hi
    rw [List.length_map, List.length_take, List.getElem?_eq_getElem hlt, Option.getD_some]
    exact Nat.min_eq_left (hq _ (List.getElem_mem hlt))

omit [LinearOrder T] in
theorem map_range_get {β : Type} (G : List T → β) (cs : List (List T)) :
    (List.range cs.length).map (fun i => G (cs[i]?.getD [])) = cs.map G := by
  apply List.ext_getElem?
  intro i
  rw [List.getElem?_map, List.getElem?_map]
  by_cases hi : i < cs.length
  · rw [List.getElem?_range hi, List.getElem?_eq_getElem hi]
    simp [List.getElem?_eq_getElem hi]
  · rw [List.getElem?_eq_none (by simpa using hi), List.getElem?_eq_none (by omega)]
    rfl

/-- Both invariants hold when the merge loop starts: the heap holds the first
`q` records of each of the `p` sorted chunks `cs` of `k` records, the streams
stand behind them, the counters are 0 and nothing is written. -/
theorem init_inv {pq : PriorityQueue T} (s' : Sorter T pq) (cs : List (List T))
    (hp : cs.length = s'.p) (hcs : ∀ fs ∈ cs, fs.length = s'.k ∧ fs.Sorted (· ≤ ·))
    (hk : 1 ≤ s'.k) (hkq : s'.k = s'.p * s'.q) (hkle : s'.k ≤ s'.m / s'.p)
    (hout : s'.outfs = []) (hrd : s'.chunksrd = List.replicate s'.p 0)
    (hfs : s'.chunksfs = cs.map (List.drop s'.q))
    (hperm : (pq.toList s'.min_heap).Perm
      ((List.range s'.p).map (fun i =>
        ((cs[i]?.getD []).take s'.q).map (fun v => (⟨v, i⟩ : Value T)))).flatten) :
    CountInv s' ∧ OrderInv cs.flatten s' := by
  have hq : 1 ≤ s'.q := by
    rcases Nat.eq_zero_or_pos s'.q with h | h
    · rw [h, Nat.mul_zero] at hkq; omega
    · exact h
  have hp1 : 1 ≤ s'.p := by
    rcases Nat.eq_zero_or_pos s'.p with h | h
    · rw [h, Nat.zero_mul] at hkq; omega
    · exact h
  have hqk : s'.q ≤ s'.k := by
    rw [hkq]; exact Nat.le_mul_of_pos_left _ hp1
  have hget : ∀ i, i < s'.p → ∃ f0, cs[i]? = some f0 ∧ f0.length = s'.k ∧ f0.Sorted (· ≤ ·) := by
    intro i hi
    have hlt : i < cs.length := by omega
    exact ⟨_, List.getElem?_eq_getElem hlt, hcs _ (List.getElem_mem hlt)⟩
  have hin : ∀ c, inHeap pq s'.min_heap c = if c < s'.p then s'.q else 0 := by
    intro c
    unfold inHeap
    rw [hperm.countP_eq,
      countP_flatten_tag (fun i => (cs[i]?.getD []).take s'.q) c _ (List.nodup_range _)]
    by_cases hc : c < s'.p
    · obtain ⟨f0, hf0, hl, _⟩ := hget c hc
      simp only [List.mem_range, hc, if_true, hf0, Option.getD_some, List.length_take]
      omega
    · simp [hc]
  have hmem : ∀ e ∈ pq.toList s'.min_heap, ∃ f0, e.chunkid < s'.p ∧
      cs[e.chunkid]? = some f0 ∧ e.value ∈ f0.take s'.q := by
    intro e he
    have := hperm.subset he
    simp only [List.mem_flatten, List.mem_map, List.mem_range] at this
    obtain ⟨l, ⟨i, hi, rfl⟩, hel⟩ := this
    simp only [List.mem_map] at hel
    obtain ⟨x, hx, rfl⟩ := hel
    obtain ⟨f0, hf0, _, _⟩ := hget i hi
    rw [hf0] at hx
    exact ⟨f0, hi, hf0, hx⟩
  have hstore : ∀ c (fs : List T), s'.chunksfs[c]? = some fs →
      ∃ f0, c < s'.p ∧ cs[c]? = some f0 ∧ fs = f0.drop s'.q := by
    intro c fs hc
    rw [hfs, List.getElem?_map] at hc
    cases hf0 : cs[c]? with
    | none => rw [hf0] at hc; simp at hc
    | some f0 =>
      rw [hf0] at hc
      simp only [Option.map_some', Option.some.injEq] at hc
      exact ⟨f0, by rw [← hp]; exact (List.getElem?_eq_some.1 hf0).1, rfl, hc.symm⟩
  have hrd0 : ∀ c r, s'.chunksrd[c]? = some r → c < s'.p ∧ r = 0 := by
    intro c r hc
    rw [hrd] at hc
    obtain ⟨hlt, hval⟩ := List.getElem?_eq_some.1 hc
    simp only [List.length_replicate] at hlt
    simp only [List.getElem_replicate] at hval
    exact ⟨hlt, hval.symm⟩
  constructor
  · refine ⟨?_, ?_, hq, hkq, hkle, ?_, ?_, ?_, ?_, ?_⟩
    · rw [hfs, List.length_map, hp]
    · rw [hrd, List.length_replicate]
    · intro e he
      obtain ⟨_, h, _⟩ := hmem e he
      exact h
    · intro c fs rd hc hr
      obtain ⟨f0, hcp, hf0, rfl⟩ := hstore c fs hc
      obtain ⟨_, rfl⟩ := hrd0 c rd hr
      obtain ⟨f1, hf1, hl, _⟩ := hget c hcp
      rw [hf0] at hf1
      simp only [Option.some.injEq] at hf1
      subst hf1
      rw [hin c, if_pos hcp, List.length_drop]
      omega
    · intro c fs hc
      obtain ⟨f0, hcp, hf0, rfl⟩ := hstore c fs hc
      obtain ⟨f1, hf1, hl, _⟩ := hget c hcp
      rw [hf0] at hf1
      simp only [Option.some.injEq] at hf1
      subst hf1
      rw [List.length_drop, hl, hkq]
      exact Nat.dvd_sub' (Nat.dvd_mul_left _ _) (Nat.dvd_refl _)
    · intro c
      rw [hin c]
      split <;> omega
    · intro c r hr hz
      obtain ⟨hcp, _⟩ := hrd0 c r hr
      rw [hin c, if_pos hcp] at hz
      omega
  · refine ⟨?_, ?_, ?_, ?_, ?_⟩
    · intro fs hfsm
      rw [hfs] at hfsm
      obtain ⟨f0, hf0, rfl⟩ := List.mem_map.1 hfsm
      exact List.Pairwise.drop (hcs f0 hf0).2
    · intro e he fs hc y hy
      obtain ⟨f0, _, hf0, hx⟩ := hmem e he
      obtain ⟨f1, _, hf1, rfl⟩ := hstore e.chunkid fs hc
      rw [hf0] at hf1
      simp only [Option.some.injEq] at hf1
      subst hf1
      have hs : (f0.take s'.q ++ f0.drop s'.q).Pairwise (· ≤ ·) := by
        rw [List.take_append_drop]
        exact (hcs f0 (List.getElem?_mem hf0)).2
      exact (List.pairwise_append.1 hs).2.2 _ hx y hy
    · rw [hout]; exact List.sorted_nil
    · intro x hx
      rw [hout] at hx
      simp at hx
    · rw [hout, List.nil_append, hfs]
      have h1 : ((pq.toList s'.min_heap).map Value.value).Perm (cs.map (List.take s'.q)).flatten := by
        refine (hperm.map Value.value).trans ?_
        rw [List.map_flatten, List.map_map, ← hp, ← map_range_get (List.take s'.q) cs]
        apply List.Perm.of_eq
        congr 1
        apply List.map_congr_left
        intro i _
        simp only [Function.comp, List.map_map]
        have hid : (Value.value ∘ fun x => (⟨x, i⟩ : Value T)) = id := rfl
        rw [hid, List.map_id]
      refine (h1.append_right _).trans ?_
      refine (flatten_map_append (List.take s'.q) (List.drop s'.q) cs).trans ?_
      simp [List.take_append_drop]

omit [LinearOrder T] in
theorem sum_length_const (n : Nat) :
    ∀ l : List (List T), (∀ fs ∈ l, fs.length = n) → (l.map List.length).sum = l.length * n := by
  intro l
  induction l with
  | nil => intro _; simp
  | cons a l ih =>
    intro h
    simp only [List.map_cons, List.sum_cons, List.length_cons]
    rw [h a (List.mem_cons_self _ _), ih (fun i hi => h i (List.mem_cons_of_mem _ hi)),
      Nat.succ_mul]
    omega

/-- The three ways in which an object constructed with `1 ≤ k ≤ m` gets to
the merge loop or fails before it: the input is too short for `p` chunks;
or `p * q` falls short of `k`; or the merge loop starts, with both invariants. -/
theorem mergeInit_cases (pq : PriorityQueue T) (m k : Nat) (input : List T)
    (hk : 1 ≤ k) (hkm : k ≤ m) :
    (input.length < m / k * k ∧ mergeInit pq m k input = .throw .iosFailure) ∨
    (m / k * k ≤ input.length ∧ m / k * (k / (m / k)) ≠ k ∧
      mergeInit pq m k input = .throw (.insufficientHeap k (m / k * (k / (m / k))))) ∨
    (m / k * k ≤ input.length ∧ m / k * (k / (m / k)) = k ∧
      ∃ s2, mergeInit pq m k input = .ok s2 ∧
        s2.m = m ∧ s2.k = k ∧ s2.p = m / k ∧ s2.q = k / (m / k) ∧ s2.outfs = [] ∧
        s2.chunksrd = List.replicate (m / k) 0 ∧
        s2.chunksfs = (sortedChunks k (m / k) input).map (List.drop (k / (m / k))) ∧
        (pq.toList s2.min_heap).Perm
          ((List.range (m / k)).map (fun i =>
            (((sortedChunks k (m / k) input)[i]?.getD []).take (k / (m / k))).map
              (fun v => (⟨v, i⟩ : Value T)))).flatten ∧
        pq.size s2.min_heap = k ∧
        CountInv s2 ∧ OrderInv (input.take (m / k * k)) s2 ∧ remaining s2 = m / k * k) := by
  have hp : 1 ≤ m / k := Nat.div_pos hkm (by omega)
  have hpk : m / k * k ≤ m := Nat.div_mul_le_self m k
  have hqle : k / (m / k) ≤ k := Nat.div_le_self _ _
  unfold mergeInit
  rw [new_ok pq m k hk hkm]
  simp only
  by_cases hlen : m / k * k ≤ input.length
  · right
    rw [splitAndSortChunks_ok _ input hk hp rfl hlen]
    simp only
    have hcs := sortedChunks_mem k (m / k) input hlen
    obtain ⟨s', hs', hm', hk', hp', hq', hout, hrd, hfs, hperm, hsize⟩ :=
      initLoop_chunks
        ({ m := m, k := k, p := m / k, q := k / (m / k),
           chunksfs := sortedChunks k (m / k) input, chunksrd := [],
           min_heap := pq.nil, outfs := [] } : Sorter T pq)
        (sortedChunks_length _ _ _)
        (fun fs hfs => by rw [(hcs fs hfs).1]; exact hqle)
        pq.toList_nil rfl
    simp only at hs' hm' hk' hp' hq' hout hrd hfs hperm hsize
    unfold initHeap
    simp only [hs']
    by_cases hkq : m / k * (k / (m / k)) = k
    · right
      refine ⟨hlen, hkq, s', ?_, hm', hk', hp', hq', hout, hrd, hfs, hperm, ?_, ?_⟩
      · simp [hsize, hk', hkq]
      · rw [hsize, hkq]
      · have hinv := init_inv s' (sortedChunks k (m / k) input)
          (by rw [hp']; exact sortedChunks_length _ _ _)
          (by rw [hk']; exact hcs) (by rw [hk']; exact hk)
          (by rw [hk', hp', hq']; exact hkq.symm)
          (by rw [hk', hm', hp']; exact (Nat.le_div_iff_mul_le hp).2 (by rw [Nat.mul_comm]; exact hpk))
          hout (by rw [hrd, hp']) (by rw [hfs, hq']) (by rw [hp', hq']; exact hperm)
        refine ⟨hinv.1, ⟨hinv.2.fs_sorted, hinv.2.heap_le, hinv.2.out_sorted, hinv.2.out_le,
          hinv.2.perm.trans (sortedChunks_perm _ _ _)⟩, ?_⟩
        unfold remaining
        rw [hsize, hfs, sum_length_const (k - k / (m / k)), List.length_map,
          sortedChunks_length, ← Nat.mul_add, Nat.add_sub_cancel' hqle]
        intro fs hfsm
        obtain ⟨f0, hf0, rfl⟩ := List.mem_map.1 hfsm
        rw [List.length_drop, (hcs f0 hf0).1]
    · left
      refine ⟨hlen, hkq, ?_⟩
      simp [hsize, hk', hkq]
  · left
    refine ⟨by omega, ?_⟩
    rw [splitAndSortChunks_short _ input hk (by simp only; omega)]

/-- What is known of the state in which the merge loop starts. -/
theorem mergeInit_ok_inv (pq : PriorityQueue T) (m k : Nat) (input : List T)
    (s2 : Sorter T pq) (h : mergeInit pq m k input = .ok s2) :
    1 ≤ k ∧ k ≤ m ∧ m / k * k ≤ input.length ∧ m / k * (k / (m / k)) = k ∧
      s2.m = m ∧ s2.k = k ∧ s2.p = m / k ∧ s2.q = k / (m / k) ∧ s2.outfs = [] ∧
      pq.size s2.min_heap = k ∧
      CountInv s2 ∧ OrderInv (input.take (m / k * k)) s2 ∧ remaining s2 = m / k * k := by
  have hnew : ∃ s0, new pq m k = .ok s0 := by
    unfold mergeInit at h
    cases hn : new pq m k with
    | ok s0 => exact ⟨s0, rfl⟩
    | throw e => rw [hn] at h; simp at h
    | timeout => rw [hn] at h; simp at h
  obtain ⟨s0, hs0⟩ := hnew
  obtain ⟨hk, hkm, _, _⟩ := new_ok_inv pq m k s0 hs0
  rcases mergeInit_cases pq m k input hk hkm with ⟨_, hc⟩ | ⟨_, _, hc⟩ |
    ⟨hlen, hkq, s2', hc, hm', hk', hp', hq', hout, _, _, _, hsize, hI, hO, hrem⟩
  · rw [hc] at h; simp at h
  · rw [hc] at h; simp at h
  · rw [hc] at h
    simp only [Outcome.ok.injEq] at h
    subst h
    exact ⟨hk, hkm, hlen, hkq, hm', hk', hp', hq', hout, hsize, hI, hO, hrem⟩

/-- The invariants and the fields that never change, at the head of every
iteration of the merge loop. -/
theorem merge_reach {pq : PriorityQueue T} (D : List T) (s2 : Sorter T pq)
    (hI : CountInv s2) (hO : OrderInv D s2) (n : Nat) (s : Sorter T pq)
    (h : iter mergeStep n s2 = some s) :
    CountInv s ∧ OrderInv D s ∧ s.m = s2.m ∧ s.k = s2.k ∧ s.p = s2.p ∧ s.q = s2.q ∧
      remaining s ≤ remaining s2 := by
  refine iter_invariant mergeStep
    (fun s => CountInv s ∧ OrderInv D s ∧ s.m = s2.m ∧ s.k = s2.k ∧ s.p = s2.p ∧
      s.q = s2.q ∧ remaining s ≤ remaining s2)
    ?_ n s2 s ⟨hI, hO, rfl, rfl, rfl, rfl, Nat.le_refl _⟩ h
  intro a b ⟨haI, haO, h1, h2, h3, h4, h5⟩ hstep
  obtain ⟨hbI, hrem, g1, g2, g3, g4⟩ := countInv_step a b haI hstep
  exact ⟨hbI, (orderInv_step D a b haI haO hstep).1, g1.trans h1, g2.trans h2, g3.trans h3,
    g4.trans h4, by omega⟩

/-- The merge loop, started in a state with the bookkeeping invariant and
enough fuel, does not run out of fuel. -/
theorem merge_loop_ne_timeout {pq : PriorityQueue T} (s2 : Sorter T pq) (hI : CountInv s2)
    (fuel : Nat) (hfuel : remaining s2 < fuel) : loop mergeStep fuel s2 ≠ .timeout :=
  loop_ne_timeout mergeStep CountInv remaining
    (fun a b ha hstep => by
      obtain ⟨hb, hrem, _⟩ := countInv_step a b ha hstep
      exact ⟨hb, by omega⟩)
    (fun a _ => mergeStep_ne_timeout a) fuel s2 hI hfuel

/-- When the merge loop leaves, the heap is empty, every counter stands at
`k`, and the output is the ascending sort of the records of the chunks. -/
theorem merge_loop_ok {pq : PriorityQueue T} (D : List T) (s2 s3 : Sorter T pq)
    (hI : CountInv s2) (hO : OrderInv D s2) (fuel : Nat)
    (h : loop mergeStep fuel s2 = .ok s3) :
    s3.m = s2.m ∧ s3.k = s2.k ∧ s3.p = s2.p ∧ s3.q = s2.q ∧
      pq.toList s3.min_heap = [] ∧ s3.chunksrd = List.replicate s2.p s2.k ∧
      s3.outfs.Sorted (· ≤ ·) ∧ s3.outfs.Perm D := by
  obtain ⟨s, ⟨hsI, hsO, h1, h2, h3, h4⟩, hexit⟩ := loop_ok_invariant mergeStep
    (fun s => CountInv s ∧ OrderInv D s ∧ s.m = s2.m ∧ s.k = s2.k ∧ s.p = s2.p ∧ s.q = s2.q)
    (by
      intro a b ⟨haI, haO, h1, h2, h3, h4⟩ hstep
      obtain ⟨hbI, _, g1, g2, g3, g4⟩ := countInv_step a b haI hstep
      exact ⟨hbI, (orderInv_step D a b haI haO hstep).1, g1.trans h1, g2.trans h2,
        g3.trans h3, g4.trans h4⟩)
    fuel s2 s3 ⟨hI, hO, rfl, rfl, rfl, rfl⟩ h
  obtain ⟨rfl, hnil⟩ := mergeStep_exit s s3 hexit
  obtain ⟨hrd, hfs⟩ := countInv_exit s3 hsI hnil
  refine ⟨h1, h2, h3, h4, hnil, by rw [hrd, h2, h3], hsO.out_sorted, ?_⟩
  have hflat : s3.chunksfs.flatten = [] := by
    rw [List.flatten_eq_nil_iff]; exact hfs
  have := hsO.perm
  rwa [hnil, hflat, List.map_nil, List.append_nil, List.append_nil] at this

/-- With `m = p * k` the merge loop raises nothing. -/
theorem merge_loop_ne_throw {pq : PriorityQueue T} (s2 : Sorter T pq) (hI : CountInv s2)
    (hL : s2.m / s2.p = s2.k) (fuel : Nat) (e : Error) :
    loop mergeStep fuel s2 ≠ .throw e := by
  intro h
  obtain ⟨s, ⟨hsI, hsL⟩, hthrow⟩ := loop_throw_invariant mergeStep
    (fun s => CountInv s ∧ s.m / s.p = s.k)
    (by
      intro a b ⟨haI, haL⟩ hstep
      obtain ⟨hbI, _, g1, g2, g3, _⟩ := countInv_step a b haI hstep
      exact ⟨hbI, by rw [g1, g2, g3]; exact haL⟩)
    fuel s2 e ⟨hI, hL⟩ h
  exact mergeStep_ne_throw s hsI hsL e hthrow

end Init

/-! ### The whole sort -/

section WholeSort

variable {T : Type} [LinearOrder T]

theorem divisible_facts (m k : Nat) (hm : 1 ≤ m) (hmk : k ∣ m) (hkp : m / k ∣ k) :
    k ≤ m ∧ m / k * k = m ∧ m / k * (k / (m / k)) = k :=
  ⟨Nat.le_of_dvd hm hmk, Nat.div_mul_cancel hmk, Nat.mul_div_cancel' hkp⟩

/-- With `m = p * k`, `k = p * q` and an input of `m` records or more, `sort`
returns normally; its output is the ascending sort of the first `m` records
of the input and every counter stands at `k`. -/
theorem sort_divisible (pq : PriorityQueue T) (m k : Nat) (input : List T)
    (hk : 1 ≤ k) (hkm : k ≤ m) (hmk : m / k * k = m) (hkp : m / k * (k / (m / k)) = k)
    (hlen : m ≤ input.length) :
    ∃ s2 s3, mergeInit pq m k input = .ok s2 ∧
      loop mergeStep (s2.p * s2.k + 1) s2 = .ok s3 ∧ sort pq m k input = .ok s3 ∧
      s3.outfs.Sorted (· ≤ ·) ∧ s3.outfs.Perm (input.take m) ∧
      s3.chunksrd = List.replicate (m / k) k ∧ s3.chunksrd.sum = m := by
  rcases mergeInit_cases pq m k input hk hkm with ⟨hc, _⟩ | ⟨_, hc, _⟩ |
    ⟨_, _, s2, hinit, hm', hk', hp', hq', _, _, _, _, _, hI, hO, hrem⟩
  · omega
  · exact absurd hkp hc
  · have hp : 1 ≤ m / k := Nat.div_pos hkm (by omega)
    have hL : s2.m / s2.p = s2.k := by
      rw [hm', hp', hk']
      exact Nat.div_eq_of_eq_mul_right hp (by rw [hmk])
    cases hloop : loop mergeStep (s2.p * s2.k + 1) s2 with
    | timeout =>
      exact absurd hloop (merge_loop_ne_timeout s2 hI _ (by rw [hrem, hp', hk']; omega))
    | throw e => exact absurd hloop (merge_loop_ne_throw s2 hI hL _ e)
    | ok s3 =>
      obtain ⟨g1, g2, g3, g4, _, hrd, hsorted, hperm⟩ :=
        merge_loop_ok _ s2 s3 hI hO _ hloop
      have hsum : s3.chunksrd.sum = m := by
        rw [hrd, List.sum_replicate, smul_eq_mul, hp', hk', hmk]
      refine ⟨s2, s3, hinit, hloop, ?_, hsorted, by rw [← hmk]; exact hperm,
        by rw [hrd, hp', hk'], hsum⟩
      simp [sort, hinit, hloop, hsum, g1, hm']

/-- When `m` is not `p * k`, `sort` raises, whatever the input. -/
theorem sort_not_divisible (pq : PriorityQueue T) (m k : Nat) (input : List T)
    (hk : 1 ≤ k) (hkm : k ≤ m) (hne : m / k * k ≠ m ∨ m / k * (k / (m / k)) ≠ k) :
    ∃ e, sort pq m k input = .throw e := by
  rcases mergeInit_cases pq m k input hk hkm with ⟨_, hc⟩ | ⟨_, _, hc⟩ |
    ⟨_, hkq, s2, hinit, hm', hk', hp', hq', _, _, _, _, _, hI, hO, hrem⟩
  · exact ⟨.iosFailure, by simp [sort, hc]⟩
  · exact ⟨.insufficientHeap k (m / k * (k / (m / k))), by simp [sort, hc]⟩
  · cases hloop : loop mergeStep (s2.p * s2.k + 1) s2 with
    | timeout =>
      exact absurd hloop (merge_loop_ne_timeout s2 hI _ (by rw [hrem, hp', hk']; omega))
    | throw e => exact ⟨e, by simp [sort, hinit, hloop]⟩
    | ok s3 =>
      obtain ⟨g1, g2, g3, g4, _, hrd, _, _⟩ := merge_loop_ok _ s2 s3 hI hO _ hloop
      have hsum : s3.chunksrd.sum ≠ s3.m := by
        rw [hrd, List.sum_replicate, smul_eq_mul, hp', hk', g1, hm']
        rcases hne with h | h
        · exact h
        · exact absurd hkq h
      exact ⟨.insufficientSum s3.m s3.chunksrd.sum, by simp [sort, hinit, hloop, hsum]⟩

/-- On an input that is too short for `p` chunks of `k` records, `sort` is
ended by the stream failure of the extraction that meets the end of the
input; the test of the number of chunks (line 198) is not reached. -/
theorem sort_short_input (pq : PriorityQueue T) (m k : Nat) (input : List T)
    (hk : 1 ≤ k) (hkm : k ≤ m) (hlen : input.length < m / k * k) :
    sort pq m k input = .throw .iosFailure := by
  rcases mergeInit_cases pq m k input hk hkm with ⟨_, hc⟩ | ⟨h, _⟩ | ⟨h, _⟩
  · simp [sort, hc]
  · omega
  · omega

/-- The fuel that `sort` gives its merge loop is never used up: `sort`
always returns normally or raises. -/
theorem sort_ne_timeout (pq : PriorityQueue T) (m k : Nat) (input : List T) :
    sort pq m k input ≠ .timeout := by
  by_cases hk : 1 ≤ k
  · by_cases hkm : k ≤ m
    · by_cases hdiv : m / k * k = m ∧ m / k * (k / (m / k)) = k
      · by_cases hlen : m ≤ input.length
        · obtain ⟨_, s3, _, _, h, _⟩ := sort_divisible pq m k input hk hkm hdiv.1 hdiv.2 hlen
          rw [h]; simp
        · rw [sort_short_input pq m k input hk hkm (by rw [hdiv.1]; omega)]; simp
      · obtain ⟨e, h⟩ := sort_not_divisible pq m k input hk hkm (by
          by_cases h1 : m / k * k = m
          · right; exact fun h2 => hdiv ⟨h1, h2⟩
          · left; exact h1)
        rw [h]; simp
    · have hp : m / k = 0 := Nat.div_eq_of_lt (by omega)
      have hk0 : ¬ k = 0 := by omega
      simp [sort, mergeInit, new, hk0, hp]
  · have hk0 : k = 0 := by omega
    simp [sort, mergeInit, new, hk0]

end WholeSort

/-! ### Sizes and reachable states -/

section Reach

variable {T : Type} [LinearOrder T]

omit [LinearOrder T] in
/-- A list of entries with tags below `p` and at most `q` entries of each
tag has at most `p * q` entries. -/
theorem length_le_of_tags (q : Nat) :
    ∀ (p : Nat) (l : List (Value T)), (∀ e ∈ l, e.chunkid < p) →
      (∀ c, l.countP (fun e => decide (e.chunkid = c)) ≤ q) → l.length ≤ p * q := by
  intro p
  induction p with
  | zero =>
    intro l htag _
    cases l with
    | nil => simp
    | cons a l => exact absurd (htag a (List.mem_cons_self _ _)) (by omega)
  | succ p ih =>
    intro l htag hcnt
    have hsplit := List.length_eq_countP_add_countP (fun e : Value T => decide (e.chunkid = p)) l
    have hrest : (l.filter (fun e => ¬ decide (e.chunkid = p) = true)).length ≤ p * q := by
      apply ih
      · intro e he
        obtain ⟨hel, hne⟩ := List.mem_filter.1 he
        have := htag e hel
        simp only [decide_eq_true_eq, decide_not] at hne
        have hne' : e.chunkid ≠ p := by simpa using hne
        omega
      · intro c
        exact le_trans (List.Sublist.countP_le _ (List.filter_sublist l)) (hcnt c)
    rw [← List.countP_eq_length_filter] at hrest
    have := hcnt p
    rw [Nat.succ_mul]
    omega

theorem size_le_k {pq : PriorityQueue T} (s : Sorter T pq) (hI : CountInv s) :
    pq.size s.min_heap ≤ s.k := by
  rw [pq.size_eq, hI.k_eq]
  exact length_le_of_tags s.q s.p _ hI.tag_lt hI.quota

/-- When an iteration is about to refill, the heap, after the pop, has room
for `q` entries. -/
theorem size_pop_le {pq : PriorityQueue T} (s : Sorter T pq) (hI : CountInv s)
    (v : Value T) (rd : Nat) (hv : pq.top s.min_heap = some v)
    (hrd : s.chunksrd[v.chunkid]? = some rd) (hmod : (rd + 1) % s.q = 0) :
    pq.size (pq.pop s.min_heap) + s.q ≤ s.k := by
  obtain ⟨_, _, _, _, hiff⟩ := pop_facts s hI v rd hv hrd
  have hz := hiff.1 hmod
  have hlen := length_le_of_tags s.q s.p
    (pq.toList (pq.pop s.min_heap) ++ (List.replicate s.q v.value).map
      (fun x => (⟨x, v.chunkid⟩ : Value T)))
    (by
      intro e he
      rcases List.mem_append.1 he with he | he
      · exact hI.tag_lt e (pop_subset pq _ v hv e he)
      · obtain ⟨x, _, rfl⟩ := List.mem_map.1 he
        exact hI.tag_lt v (top_mem pq _ v hv))
    (by
      intro c
      rw [List.countP_append, countP_tag_map, List.length_replicate]
      by_cases hc : v.chunkid = c
      · subst hc
        unfold inHeap at hz
        rw [hz]; simp
      · simp only [hc, if_false, Nat.add_zero]
        have h1 := inHeap_pop pq s.min_heap v hv c
        have h2 := hI.quota c
        unfold inHeap at h1 h2
        omega)
  rw [List.length_append, List.length_map, List.length_replicate, ← hI.k_eq] at hlen
  rw [pq.size_eq]
  exact hlen

/-- A chunk whose stream still has unread records has an entry in the heap. -/
theorem inHeap_pos {pq : PriorityQueue T} (s : Sorter T pq) (hI : CountInv s)
    (c : Nat) (fs : List T) (hfs : s.chunksfs[c]? = some fs) (hne : fs ≠ []) :
    1 ≤ inHeap pq s.min_heap c := by
  have hlt : c < s.chunksrd.length := by
    rw [hI.len_rd, ← hI.len_fs]; exact (List.getElem?_eq_some.1 hfs).1
  have h1 := hI.total c fs _ hfs (List.getElem?_eq_getElem hlt)
  have h3 := hI.k_le
  have h4 : 0 < fs.length := List.length_pos.2 hne
  by_contra hcon
  have hz : inHeap pq s.min_heap c = 0 := by omega
  have h2 := hI.done c _ (List.getElem?_eq_getElem hlt) hz
  omega

/-- The value on top of the heap is at most every record that is unread in
any chunk stream. -/
theorem top_le_unread {pq : PriorityQueue T} (D : List T) (s : Sorter T pq)
    (hI : CountInv s) (hO : OrderInv D s) (v : Value T) (hv : pq.top s.min_heap = some v) :
    ∀ fs ∈ s.chunksfs, ∀ y ∈ fs, v.value ≤ y := by
  intro fs hfs y hy
  obtain ⟨c, hc⟩ := List.mem_iff_getElem?.1 hfs
  have hpos := inHeap_pos s hI c fs hc (List.ne_nil_of_mem hy)
  unfold inHeap at hpos
  obtain ⟨e, he, hec⟩ := List.countP_pos_iff.1 hpos
  simp only [decide_eq_true_eq] at hec
  subst hec
  exact le_trans (top_value_le pq _ v hv e he) (hO.heap_le e he fs hc y hy)

/-- How an iteration that goes round again changes the heap size: down by
one, or, with a refill of `q` records of one chunk, up by `q - 1`. -/
theorem mergeStep_size {pq : PriorityQueue T} (s s' : Sorter T pq)
    (h : mergeStep s = .next s') :
    (s'.chunksfs = s.chunksfs ∧ pq.size s'.min_heap + 1 = pq.size s.min_heap) ∨
    (∃ c fs, s.chunksfs[c]? = some fs ∧ s.q ≤ fs.length ∧
      s'.chunksfs = s.chunksfs.set c (fs.drop s.q) ∧
      pq.size s'.min_heap + 1 = pq.size s.min_heap + s.q) := by
  obtain ⟨v, rd, hv, hrd, hq0, hcase⟩ := mergeStep_next s s' h
  have hlen : (pq.toList s.min_heap).length = (pq.toList (pq.pop s.min_heap)).length + 1 := by
    rw [← (pq.pop_perm s.min_heap v hv).length_eq, List.length_cons]
  rcases hcase with ⟨_, _, hload⟩ | ⟨_, hs'⟩
  · right
    rcases loadChunk_cases (afterPop s v rd) v.chunkid with
      ⟨_, hc⟩ | ⟨_, _, _, hc⟩ | ⟨fs, h', hfs, hqle, hc, hperm⟩
    · rw [hc] at hload; simp at hload
    · rw [hc] at hload; simp at hload
    · rw [hc] at hload
      simp only [Outcome.ok.injEq] at hload
      subst hload
      simp only [afterPop] at hfs hqle hperm ⊢
      refine ⟨v.chunkid, fs, hfs, hqle, rfl, ?_⟩
      have hl := hperm.length_eq
      simp only [List.length_append, List.length_map, List.length_take,
        Nat.min_eq_left hqle] at hl
      simp only [pq.size_eq]
      omega
  · left
    subst hs'
    simp only [afterPop, pq.size_eq]
    exact ⟨trivial, by omega⟩

theorem iter_add {σ : Type} (step : σ → Ctl σ) :
    ∀ (a b : Nat) (s0 : σ), iter step (a + b) s0 = (iter step a s0).bind (iter step b) := by
  intro a
  induction a with
  | zero => intro b s0; simp [iter]
  | succ a ih =>
    intro b s0
    have : a + 1 + b = (a + b) + 1 := by omega
    rw [this]
    simp only [iter]
    cases step s0 with
    | next s1 => exact ih b s1
    | exit s1 => rfl
    | throw e => rfl
    | timeout => rfl

/-- The output only grows along the merge loop. -/
theorem merge_outfs_grows {pq : PriorityQueue T} (D : List T) :
    ∀ (j : Nat) (s1 s' : Sorter T pq), CountInv s1 → OrderInv D s1 →
      iter mergeStep j s1 = some s' → ∃ later, s'.outfs = s1.outfs ++ later := by
  intro j
  induction j with
  | zero =>
    intro s1 s' _ _ h
    simp only [iter, Option.some.injEq] at h
    exact ⟨[], by rw [h, List.append_nil]⟩
  | succ j ih =>
    intro s1 s' hI hO h
    simp only [iter] at h
    cases hstep : mergeStep s1 with
    | next s1' =>
      rw [hstep] at h
      obtain ⟨hO', v, _, hout⟩ := orderInv_step D s1 s1' hI hO hstep
      obtain ⟨later, hl⟩ := ih s1' s' (countInv_step s1 s1' hI hstep).1 hO' h
      exact ⟨v.value :: later, by rw [hl, hout, List.append_assoc, List.singleton_append]⟩
    | exit s1' => rw [hstep] at h; simp at h
    | throw e => rw [hstep] at h; simp at h
    | timeout => rw [hstep] at h; simp at h

/-- The value popped in an iteration is at most every value that a later
iteration writes. -/
theorem popped_le_later {pq : PriorityQueue T} (D : List T) (s s' : Sorter T pq)
    (hI : CountInv s) (hO : OrderInv D s) (v : Value T) (hv : pq.top s.min_heap = some v)
    (j : Nat) (h : iter mergeStep (j + 1) s = some s') :
    ∃ later, s'.outfs = s.outfs ++ v.value :: later ∧ ∀ y ∈ later, v.value ≤ y := by
  simp only [iter] at h
  cases hstep : mergeStep s with
  | next s1 =>
    rw [hstep] at h
    obtain ⟨hO1, v', hv', hout⟩ := orderInv_step D s s1 hI hO hstep
    rw [hv] at hv'
    simp only [Option.some.injEq] at hv'
    subst hv'
    have hI1 := (countInv_step s s1 hI hstep).1
    obtain ⟨later, hl⟩ := merge_outfs_grows D j s1 s' hI1 hO1 h
    obtain ⟨_, hO', _⟩ := merge_reach D s1 hI1 hO1 j s' h
    refine ⟨later, by rw [hl, hout, List.append_assoc, List.singleton_append], ?_⟩
    have hsorted := hO'.out_sorted
    rw [hl, hout, List.append_assoc, List.singleton_append] at hsorted
    have := (List.pairwise_append.1 hsorted).2.1
    exact (List.pairwise_cons.1 this).1
  | exit s1 => rw [hstep] at h; simp at h
  | throw e => rw [hstep] at h; simp at h
  | timeout => rw [hstep] at h; simp at h

/-- The split buffer holds fewer than `k` records at the head of every
iteration of the split loop. -/
theorem split_buffer_lt {pq : PriorityQueue T} (s0 : Sorter T pq) (input : List T)
    (hk : 1 ≤ s0.k) (n : Nat) (st : SplitState T)
    (h : iter (splitStep s0.k s0.p) n (splitInit s0 input) = some st) :
    st.chunk.length < s0.k := by
  refine iter_invariant (splitStep s0.k s0.p) (fun st => st.chunk.length < s0.k) ?_ n
    (splitInit s0 input) st (by simp only [splitInit, List.length_nil]; omega) h
  intro a b ha hstep
  unfold splitStep at hstep
  cases hinfs : a.infs with
  | nil => rw [hinfs] at hstep; simp at hstep
  | cons x rest =>
    rw [hinfs] at hstep
    simp only [List.length_append, List.length_cons, List.length_nil] at hstep
    by_cases hfull : a.chunk.length + (0 + 1) = s0.k
    · simp only [hfull, if_true] at hstep
      split at hstep
      · simp at hstep
      · simp only [Ctl.next.injEq] at hstep
        rw [← hstep]
        simp only [List.length_nil]
        omega
    · simp only [hfull, if_false, Ctl.next.injEq] at hstep
      rw [← hstep]
      simp only [List.length_append, List.length_cons, List.length_nil]
      omega

end Reach

/-! ### The claims -/

section Claims

variable {T : Type} [LinearOrder T]

/-- C1. For every `m, k ≥ 1` with `m` divisible by `k` and `k` divisible by
`p = m/k`, and every input of exactly `m` records, `sort` returns normally
and the output holds exactly `m` values in non-decreasing order: it is
sorted, so `prev ≤ curr` for every adjacent pair. -/
theorem sort_output_sorted (pq : PriorityQueue T) (m k : Nat) (input : List T)
    (hm : 1 ≤ m) (hk : 1 ≤ k) (hmk : k ∣ m) (hkp : m / k ∣ k) (hlen : input.length = m) :
    ∃ s, sort pq m k input = .ok s ∧ s.outfs.length = m ∧
      s.outfs.Sorted (· ≤ ·) ∧ s.outfs.Chain' (· ≤ ·) := by
  obtain ⟨hkm, h1, h2⟩ := divisible_facts m k hm hmk hkp
  obtain ⟨_, s3, _, _, hsort, hsorted, hperm, _, _⟩ :=
    sort_divisible pq m k input hk hkm h1 h2 (by omega)
  refine ⟨s3, hsort, ?_, hsorted, List.Pairwise.chain' hsorted⟩
  rw [hperm.length_eq, List.length_take]
  omega

theorem sort_output_sorted_witness :
    ∃ s, sort (ListQueue Nat) 12 6 [9, 1, 4, 7, 2, 8, 3, 6, 5, 11, 10, 12] = .ok s ∧
      s.outfs.length = 12 ∧ s.outfs.Sorted (· ≤ ·) ∧ s.outfs.Chain' (· ≤ ·) :=
  sort_output_sorted (ListQueue Nat) 12 6 [9, 1, 4, 7, 2, 8, 3, 6, 5, 11, 10, 12]
    (by decide) (by decide) (by decide) (by decide) (by decide)

/-- C2. For every `m, k ≥ 1` with `m` divisible by `k` and `k` divisible by
`p = m/k`, and every input of exactly `m` records, the output written by
`sort` is a permutation of the input: the same multiset of `m` records. -/
theorem sort_output_perm (pq : PriorityQueue T) (m k : Nat) (input : List T)
    (hm : 1 ≤ m) (hk : 1 ≤ k) (hmk : k ∣ m) (hkp : m / k ∣ k) (hlen : input.length = m) :
    ∃ s, sort pq m k input = .ok s ∧ s.outfs.Perm input ∧
      (s.outfs : Multiset T) = (input : Multiset T) := by
  obtain ⟨hkm, h1, h2⟩ := divisible_facts m k hm hmk hkp
  obtain ⟨_, s3, _, _, hsort, _, hperm, _, _⟩ :=
    sort_divisible pq m k input hk hkm h1 h2 (by omega)
  rw [List.take_of_length_le (by omega)] at hperm
  exact ⟨s3, hsort, hperm, Quotient.sound hperm⟩

theorem sort_output_perm_witness :
    ∃ s, sort (ListQueue Nat) 4 2 [7, 3, 7, 1] = .ok s ∧ s.outfs.Perm [7, 3, 7, 1] ∧
      (s.outfs : Multiset Nat) = ([7, 3, 7, 1] : List Nat) :=
  sort_output_perm (ListQueue Nat) 4 2 [7, 3, 7, 1]
    (by decide) (by decide) (by decide) (by decide) (by decide)

/-- C3 (the code at the failing input). With `m = 4`, `k = 2` and an input
of three records, `sort` does not return normally, but what it raises is the
stream failure of `infs >> value` at the end of the input, and not the
insufficient-chunks error. -/
theorem short_input_raises_stream_failure :
    sort (ListQueue Nat) 4 2 [1, 2, 3] = .throw .iosFailure ∧
      ∀ expected received,
        sort (ListQueue Nat) 4 2 [1, 2, 3] ≠ .throw (.insufficientChunks expected received) := by
  have h : sort (ListQueue Nat) 4 2 [1, 2, 3] = .throw .iosFailure :=
    sort_short_input (ListQueue Nat) 4 2 [1, 2, 3] (by decide) (by decide) (by decide)
  refine ⟨h, ?_⟩
  intro a b hab
  rw [h] at hab
  simp at hab

/-- C8. When `m` or `k` violates the even-division precondition
(`1 ≤ k ≤ m`, and `m % k ≠ 0` or `k % (m/k) ≠ 0`), `sort` never returns
normally, for any input: it raises an error. -/
theorem sort_raises_without_even_division (pq : PriorityQueue T) (m k : Nat)
    (input : List T) (hk : 1 ≤ k) (hkm : k ≤ m) (hne : m % k ≠ 0 ∨ k % (m / k) ≠ 0) :
    (∃ e, sort pq m k input = .throw e) ∧ ∀ s, sort pq m k input ≠ .ok s := by
  have hthrow : ∃ e, sort pq m k input = .throw e := by
    apply sort_not_divisible pq m k input hk hkm
    rcases hne with h | h
    · left
      intro hcon
      apply h
      rw [← hcon]
      exact Nat.mul_mod_left _ _
    · right
      intro hcon
      apply h
      have hmod : m / k * (k / (m / k)) % (m / k) = k % (m / k) := by rw [hcon]
      rw [← hmod]
      exact Nat.mul_mod_right _ _
  refine ⟨hthrow, ?_⟩
  intro s hs
  obtain ⟨e, he⟩ := hthrow
  rw [he] at hs
  simp at hs

theorem sort_raises_without_even_division_witness :
    (∃ e, sort (ListQueue Nat) 5 2 [4, 3, 2, 1, 0] = .throw e) ∧
      ∀ s, sort (ListQueue Nat) 5 2 [4, 3, 2, 1, 0] ≠ .ok s :=
  sort_raises_without_even_division (ListQueue Nat) 5 2 [4, 3, 2, 1, 0]
    (by decide) (by decide) (by decide)

/-- C9. `splitAndSortChunks` on an input holding at least `p * k` records
produces exactly `p` chunk stores and then stops, leaving the rest of the
input unread; chunk `i` (`0 ≤ i < p`) holds exactly `k` records, which are
the ascending sort of the input records `i*k .. (i+1)*k - 1`. -/
theorem splitAndSortChunks_chunks {pq : PriorityQueue T} (s : Sorter T pq) (infs : List T)
    (hk : 1 ≤ s.k) (hp : 1 ≤ s.p) (hfs : s.chunksfs = [])
    (hlen : s.p * s.k ≤ infs.length) :
    ∃ s' rest, splitAndSortChunks s infs = .ok (s', rest) ∧
      s'.chunksfs.length = s.p ∧ rest = infs.drop (s.p * s.k) ∧
      ∀ i, i < s.p → ∃ fs, s'.chunksfs[i]? = some fs ∧ fs.length = s.k ∧
        fs.Sorted (· ≤ ·) ∧ fs.Perm ((infs.drop (i * s.k)).take s.k) ∧
        fs = ((infs.drop (i * s.k)).take s.k).insertionSort (· ≤ ·) := by
  refine ⟨_, _, splitAndSortChunks_ok s infs hk hp hfs hlen, sortedChunks_length _ _ _, rfl, ?_⟩
  intro i hi
  have hget := sortedChunks_get s.k s.p infs i hi
  have hmem := sortedChunks_mem s.k s.p infs hlen _ (List.getElem?_mem hget)
  exact ⟨_, hget, hmem.1, hmem.2, List.perm_insertionSort _ _, rfl⟩

theorem splitAndSortChunks_chunks_witness :
    ∃ s' rest,
      splitAndSortChunks
        ({ m := 4, k := 2, p := 2, q := 1, chunksfs := [], chunksrd := [],
           min_heap := [], outfs := [] } : Sorter Nat (ListQueue Nat)) [4, 3, 2, 1, 9] =
        .ok (s', rest) ∧
      s'.chunksfs.length = 2 ∧ rest = [4, 3, 2, 1, 9].drop (2 * 2) ∧
      ∀ i, i < 2 → ∃ fs, s'.chunksfs[i]? = some fs ∧ fs.length = 2 ∧
        fs.Sorted (· ≤ ·) ∧ fs.Perm (([4, 3, 2, 1, 9].drop (i * 2)).take 2) ∧
        fs = (([4, 3, 2, 1, 9].drop (i * 2)).take 2).insertionSort (· ≤ ·) :=
  splitAndSortChunks_chunks
    ({ m := 4, k := 2, p := 2, q := 1, chunksfs := [], chunksrd := [],
       min_heap := [], outfs := [] } : Sorter Nat (ListQueue Nat)) [4, 3, 2, 1, 9]
    (by decide) (by decide) rfl (by decide)

/-- C10. After `initHeap` on `p` chunk stores of `k` records each, with
`k = p * q`, an empty heap and no counters yet, the heap holds exactly `k`
entries, namely the first `q` records of every chunk tagged with that
chunk's chunkid, and every read counter is 0 (each stream stands behind its
first `q` records).  And for every object, when the loads are done and the
heap size differs from `k`, `initHeap` fails with the insufficient-values
error of line 215. -/
theorem initHeap_loads {pq : PriorityQueue T} (s : Sorter T pq)
    (hlen : s.chunksfs.length = s.p) (hfs : ∀ fs ∈ s.chunksfs, fs.length = s.k)
    (hkq : s.k = s.p * s.q) (hheap : pq.toList s.min_heap = []) (hrd : s.chunksrd = []) :
    (∃ s', initHeap s = .ok s' ∧ pq.size s'.min_heap = s.k ∧
      (pq.toList s'.min_heap).Perm
        ((List.range s.p).map (fun i =>
          ((s.chunksfs[i]?.getD []).take s.q).map (fun v => (⟨v, i⟩ : Value T)))).flatten ∧
      s'.chunksrd.length = s.p ∧ (∀ rd ∈ s'.chunksrd, rd = 0) ∧
      s'.chunksfs = s.chunksfs.map (List.drop s.q)) ∧
    (∀ t t' : Sorter T pq, initLoop t.p 0 t = .ok t' → pq.size t'.min_heap ≠ t'.k →
      initHeap t = .throw (.insufficientHeap t'.k (pq.size t'.min_heap))) := by
  constructor
  · have hq : ∀ fs ∈ s.chunksfs, s.q ≤ fs.length := by
      intro fs hmem
      rw [hfs fs hmem, hkq]
      have hp : 0 < s.p := by
        rw [← hlen]; exact List.length_pos_of_mem hmem
      exact Nat.le_mul_of_pos_left _ hp
    obtain ⟨s', hs', _, hk', _, _, _, hrd', hfs', hperm, hsize⟩ :=
      initLoop_chunks s hlen hq hheap hrd
    refine ⟨s', ?_, by rw [hsize, hkq], hperm, by rw [hrd', List.length_replicate], ?_, hfs'⟩
    · simp [initHeap, hs', hsize, hk', hkq]
    · intro rd hmem
      rw [hrd'] at hmem
      exact List.eq_of_mem_replicate hmem
  · intro t t' hloop hne
    simp [initHeap, hloop, hne]

theorem initHeap_loads_witness :
    (∃ s', initHeap
        ({ m := 8, k := 4, p := 2, q := 2, chunksfs := [[1, 3, 5, 7], [2, 4, 6, 8]],
           chunksrd := [], min_heap := [], outfs := [] } : Sorter Nat (ListQueue Nat)) = .ok s' ∧
      (ListQueue Nat).size s'.min_heap = 4 ∧
      ((ListQueue Nat).toList s'.min_heap).Perm
        ((List.range 2).map (fun i =>
          ((([[1, 3, 5, 7], [2, 4, 6, 8]] : List (List Nat))[i]?.getD []).take 2).map
            (fun v => (⟨v, i⟩ : Value Nat)))).flatten ∧
      s'.chunksrd.length = 2 ∧ (∀ rd ∈ s'.chunksrd, rd = 0) ∧
      s'.chunksfs = ([[1, 3, 5, 7], [2, 4, 6, 8]] : List (List Nat)).map (List.drop 2)) ∧
    (∀ t t' : Sorter Nat (ListQueue Nat), initLoop t.p 0 t = .ok t' →
      (ListQueue Nat).size t'.min_heap ≠ t'.k →
      initHeap t = .throw (.insufficientHeap t'.k ((ListQueue Nat).size t'.min_heap))) :=
  initHeap_loads
    ({ m := 8, k := 4, p := 2, q := 2, chunksfs := [[1, 3, 5, 7], [2, 4, 6, 8]],
       chunksrd := [], min_heap := [], outfs := [] } : Sorter Nat (ListQueue Nat))
    rfl (by decide) rfl rfl rfl

/-- C4. At every point of `sort` the number of records held in memory is at
most `k`: at the head of every iteration of the split loop the buffer holds
at most `k` records, also after the `emplace_back` of the next value; the
heap holds at most `k` entries after every chunk that `initHeap` loads and
at the head of every iteration of the merge loop; and whenever the counter
test of the merge loop asks for a refill of `q` records, the heap, after the
pop, holds at most `k - q` entries. -/
theorem working_set_le_k (pq : PriorityQueue T) (m k : Nat) (input : List T) :
    (∀ (s0 : Sorter T pq) (n : Nat) (st : SplitState T), new pq m k = .ok s0 →
        iter (splitStep s0.k s0.p) n (splitInit s0 input) = some st →
        st.chunk.length ≤ k ∧ ∀ value, (st.chunk ++ [value]).length ≤ k) ∧
    (∀ (s0 s1 : Sorter T pq) (rest : List T) (j : Nat) (s' : Sorter T pq),
        new pq m k = .ok s0 → splitAndSortChunks s0 input = .ok (s1, rest) →
        j ≤ s1.p → initLoop j 0 s1 = .ok s' → pq.size s'.min_heap ≤ k) ∧
    (∀ (s2 : Sorter T pq) (n : Nat) (s : Sorter T pq), mergeInit pq m k input = .ok s2 →
        iter mergeStep n s2 = some s →
        pq.size s.min_heap ≤ k ∧
        ∀ (v : Value T) (rd : Nat), pq.top s.min_heap = some v →
          s.chunksrd[v.chunkid]? = some rd →
          (rd + 1) % s.q = 0 → pq.size (pq.pop s.min_heap) + s.q ≤ k) := by
  refine ⟨?_, ?_, ?_⟩
  · intro s0 n st hnew hiter
    obtain ⟨hk, _, _, hs0⟩ := new_ok_inv pq m k s0 hnew
    have hk0 : s0.k = k := by rw [hs0]
    have := split_buffer_lt s0 input (by omega) n st hiter
    refine ⟨by omega, ?_⟩
    intro value
    simp only [List.length_append, List.length_cons, List.length_nil]
    omega
  · intro s0 s1 rest j s' hnew hsplit hj hloop
    obtain ⟨hk, hkm, hp, hs0⟩ := new_ok_inv pq m k s0 hnew
    subst hs0
    by_cases hlen : m / k * k ≤ input.length
    · rw [splitAndSortChunks_ok _ input hk hp rfl hlen] at hsplit
      simp only [Outcome.ok.injEq, Prod.mk.injEq] at hsplit
      obtain ⟨hs1, _⟩ := hsplit
      subst hs1
      simp only at hj hloop
      have hcs := sortedChunks_mem k (m / k) input hlen
      have hqle : k / (m / k) ≤ k := Nat.div_le_self _ _
      obtain ⟨s'', hs'', _, _, _, _, _, _, _, _, hperm⟩ :=
        initLoop_ok j 0
          ({ m := m, k := k, p := m / k, q := k / (m / k),
             chunksfs := sortedChunks k (m / k) input, chunksrd := [],
             min_heap := pq.nil, outfs := [] } : Sorter T pq)
          (by
            intro i _ hi
            have hlt : i < (sortedChunks k (m / k) input).length := by
              rw [sortedChunks_length]; omega
            refine ⟨_, List.getElem?_eq_getElem hlt, ?_⟩
            simp only
            rw [(hcs _ (List.getElem_mem hlt)).1]
            exact hqle)
      rw [hs''] at hloop
      simp only [Outcome.ok.injEq] at hloop
      subst hloop
      simp only [pq.toList_nil, List.nil_append] at hperm
      rw [pq.size_eq, hperm.length_eq, length_flatten_const _ (k / (m / k)), List.length_range']
      · calc j * (k / (m / k)) ≤ m / k * (k / (m / k)) := Nat.mul_le_mul_right _ hj
          _ ≤ k := Nat.mul_div_le k (m / k)
      · intro i hi
        have hi' := List.mem_range'_1.1 hi
        have hlt : i < (sortedChunks k (m / k) input).length := by
          rw [sortedChunks_length]; omega
        rw [List.length_map, List.length_take, List.getElem?_eq_getElem hlt, Option.getD_some,
          (hcs _ (List.getElem_mem hlt)).1]
        exact Nat.min_eq_left hqle
    · rw [splitAndSortChunks_short _ input hk (by simp only; omega)] at hsplit
      simp at hsplit
  · intro s2 n s hinit hiter
    obtain ⟨_, _, _, _, _, hk2, _, _, _, _, hI2, hO2, _⟩ := mergeInit_ok_inv pq m k input s2 hinit
    obtain ⟨hI, _, _, hk', _, _, _⟩ := merge_reach _ s2 hI2 hO2 n s hiter
    have hks : s.k = k := hk'.trans hk2
    refine ⟨hks ▸ size_le_k s hI, ?_⟩
    intro v rd hv hrd hmod
    exact hks ▸ size_pop_le s hI v rd hv hrd hmod

theorem working_set_le_k_witness :
    ∃ s2 s : Sorter Nat (ListQueue Nat),
      mergeInit (ListQueue Nat) 8 4 [8, 7, 6, 5, 4, 3, 2, 1] = .ok s2 ∧
      iter mergeStep 3 s2 = some s ∧ (ListQueue Nat).size s.min_heap ≤ 4 :=
  ⟨_, _, rfl, rfl,
    ((working_set_le_k (ListQueue Nat) 8 4 [8, 7, 6, 5, 4, 3, 2, 1]).2.2 _ 3 _ rfl rfl).1⟩

/-- C5 (counterexample). With `m = 8`, `k = 4` (`p = 2`, `q = 2`) and the
input `1 .. 8`, at the head of the second iteration of the merge loop every
chunk store still has unread records and no chunk is exhausted, but the heap
size has gone down from `k = 4` to `3`. -/
theorem heap_size_below_k_with_unread :
    ∃ s2 s : Sorter Nat (ListQueue Nat),
      mergeInit (ListQueue Nat) 8 4 [1, 2, 3, 4, 5, 6, 7, 8] = .ok s2 ∧
      iter mergeStep 1 s2 = some s ∧ s.k = 4 ∧
      s.chunksfs = [[3, 4], [7, 8]] ∧
      (ListQueue Nat).size s2.min_heap = 4 ∧ (ListQueue Nat).size s.min_heap = 3 ∧
      (ListQueue Nat).size s.min_heap ≠ s.k :=
  ⟨_, _, rfl, rfl, rfl, rfl, rfl, rfl, by decide⟩

/-- C5 (amended). During the merge loop the heap size is exactly `k` at the
head of the first iteration and at most `k` at the head of every iteration;
at the head of every iteration each chunk whose store still has unread
records has at least one and at most `q` entries in the heap; an iteration
that does not refill lowers the heap size by exactly one, and an iteration
that refills raises it by `q - 1`. -/
theorem heap_size_in_merge_loop (pq : PriorityQueue T) (m k : Nat) (input : List T)
    (s2 : Sorter T pq) (hinit : mergeInit pq m k input = .ok s2) :
    pq.size s2.min_heap = k ∧
    ∀ (n : Nat) (s : Sorter T pq), iter mergeStep n s2 = some s →
      pq.size s.min_heap ≤ k ∧
      (∀ (c : Nat) (fs : List T), s.chunksfs[c]? = some fs → fs ≠ [] →
        1 ≤ inHeap pq s.min_heap c ∧ inHeap pq s.min_heap c ≤ s.q) ∧
      (∀ s', mergeStep s = .next s' →
        (s'.chunksfs = s.chunksfs ∧ pq.size s'.min_heap + 1 = pq.size s.min_heap) ∨
        (∃ c fs, s.chunksfs[c]? = some fs ∧ s.q ≤ fs.length ∧
          s'.chunksfs = s.chunksfs.set c (fs.drop s.q) ∧
          pq.size s'.min_heap + 1 = pq.size s.min_heap + s.q)) := by
  obtain ⟨_, _, _, _, _, hk2, _, _, _, hsize, hI2, hO2, _⟩ :=
    mergeInit_ok_inv pq m k input s2 hinit
  refine ⟨hsize, ?_⟩
  intro n s hiter
  obtain ⟨hI, _, _, hk', _, _, _⟩ := merge_reach _ s2 hI2 hO2 n s hiter
  refine ⟨(hk'.trans hk2) ▸ size_le_k s hI, ?_, fun s' hstep => mergeStep_size s s' hstep⟩
  intro c fs hfs hne
  exact ⟨inHeap_pos s hI c fs hfs hne, hI.quota c⟩

theorem heap_size_in_merge_loop_witness :
    ∃ s2 : Sorter Nat (ListQueue Nat),
      mergeInit (ListQueue Nat) 8 4 [1, 2, 3, 4, 5, 6, 7, 8] = .ok s2 ∧
      (ListQueue Nat).size s2.min_heap = 4 :=
  ⟨_, rfl, (heap_size_in_merge_loop (ListQueue Nat) 8 4 [1, 2, 3, 4, 5, 6, 7, 8] _ rfl).1⟩

/-- C6. At every pop of the merge loop the popped value is at most every
record that is still unread in any chunk store, and hence at most every
value written later, because each chunk with unread records has at least
one entry in the heap.  (The loop is only reached with `k = p * q`; that
`k` divides `m` is not needed.) -/
theorem popped_le_unread (pq : PriorityQueue T) (m k : Nat) (input : List T)
    (s2 : Sorter T pq) (hinit : mergeInit pq m k input = .ok s2)
    (n : Nat) (s : Sorter T pq) (hs : iter mergeStep n s2 = some s)
    (v : Value T) (hv : pq.top s.min_heap = some v) :
    (∀ fs ∈ s.chunksfs, ∀ y ∈ fs, v.value ≤ y) ∧
    (∀ (c : Nat) (fs : List T), s.chunksfs[c]? = some fs → fs ≠ [] →
      ∃ e ∈ pq.toList s.min_heap, e.chunkid = c) ∧
    (∀ (j : Nat) (s' : Sorter T pq), iter mergeStep (n + (j + 1)) s2 = some s' →
      ∃ later, s'.outfs = s.outfs ++ v.value :: later ∧ ∀ y ∈ later, v.value ≤ y) := by
  obtain ⟨_, _, _, _, _, _, _, _, _, _, hI2, hO2, _⟩ := mergeInit_ok_inv pq m k input s2 hinit
  obtain ⟨hI, hO, _⟩ := merge_reach _ s2 hI2 hO2 n s hs
  refine ⟨top_le_unread _ s hI hO v hv, ?_, ?_⟩
  · intro c fs hfs hne
    have hpos := inHeap_pos s hI c fs hfs hne
    unfold inHeap at hpos
    obtain ⟨e, he, hec⟩ := List.countP_pos_iff.1 hpos
    exact ⟨e, he, by simpa using hec⟩
  · intro j s' hs'
    rw [iter_add, hs] at hs'
    exact popped_le_later _ s s' hI hO v hv j hs'

theorem popped_le_unread_witness :
    ∃ s2 s : Sorter Nat (ListQueue Nat),
      mergeInit (ListQueue Nat) 8 4 [1, 2, 3, 4, 5, 6, 7, 8] = .ok s2 ∧
      iter mergeStep 1 s2 = some s ∧ (ListQueue Nat).top s.min_heap = some ⟨2, 0⟩ ∧
      s.chunksfs = [[3, 4], [7, 8]] ∧ ∀ fs ∈ s.chunksfs, ∀ y ∈ fs, 2 ≤ y :=
  ⟨_, _, rfl, rfl, rfl, rfl,
    (popped_le_unread (ListQueue Nat) 8 4 [1, 2, 3, 4, 5, 6, 7, 8] _ rfl 1 _ rfl
      ⟨2, 0⟩ rfl).1⟩

/-- C7. Under the divisibility precondition, at the head of every iteration
of the merge loop `chunksrd[c] ≤ m/p` for every chunk `c`; the loop ends, the
sum of all `chunksrd` entries then equals `m`, and `sort` returns normally:
the final sanity check does not raise. -/
theorem counters_le_quota_and_sum (pq : PriorityQueue T) (m k : Nat) (input : List T)
    (hm : 1 ≤ m) (hk : 1 ≤ k) (hmk : k ∣ m) (hkp : m / k ∣ k) (hlen : input.length = m) :
    (∀ (s2 : Sorter T pq) (n : Nat) (s : Sorter T pq), mergeInit pq m k input = .ok s2 →
      iter mergeStep n s2 = some s →
      s.m / s.p = m / (m / k) ∧
      ∀ (c rd : Nat), s.chunksrd[c]? = some rd → rd ≤ s.m / s.p) ∧
    (∃ s2 s3 : Sorter T pq, mergeInit pq m k input = .ok s2 ∧
      loop mergeStep (s2.p * s2.k + 1) s2 = .ok s3 ∧ s3.chunksrd.sum = m ∧
      sort pq m k input = .ok s3) := by
  obtain ⟨hkm, h1, h2⟩ := divisible_facts m k hm hmk hkp
  constructor
  · intro s2 n s hinit hiter
    obtain ⟨_, _, _, _, hm2, _, hp2, _, _, _, hI2, hO2, _⟩ :=
      mergeInit_ok_inv pq m k input s2 hinit
    obtain ⟨hI, _, hm', _, hp', _, _⟩ := merge_reach _ s2 hI2 hO2 n s hiter
    refine ⟨by rw [hm', hp', hm2, hp2], ?_⟩
    intro c rd hrd
    have hlt : c < s.chunksfs.length := by
      rw [hI.len_fs, ← hI.len_rd]; exact (List.getElem?_eq_some.1 hrd).1
    have := hI.total c _ rd (List.getElem?_eq_getElem hlt) hrd
    have := hI.k_le
    omega
  · obtain ⟨s2, s3, hinit, hloop, hsort, _, _, _, hsum⟩ :=
      sort_divisible pq m k input hk hkm h1 h2 (by omega)
    exact ⟨s2, s3, hinit, hloop, hsum, hsort⟩

theorem counters_le_quota_and_sum_witness :
    ∃ s2 s3 : Sorter Nat (ListQueue Nat),
      mergeInit (ListQueue Nat) 9 3 [9, 8, 7, 6, 5, 4, 3, 2, 1] = .ok s2 ∧
      loop mergeStep (s2.p * s2.k + 1) s2 = .ok s3 ∧ s3.chunksrd.sum = 9 ∧
      sort (ListQueue Nat) 9 3 [9, 8, 7, 6, 5, 4, 3, 2, 1] = .ok s3 :=
  (counters_le_quota_and_sum (ListQueue Nat) 9 3 [9, 8, 7, 6, 5, 4, 3, 2, 1]
    (by decide) (by decide) (by decide) (by decide) (by decide)).2

/-- C11 (the code at the failing input). With `m = 10`, `k = 4` (`p = 2`,
`q = 2`) and the input `1 .. 10` each chunk store holds 4 records and the
quota `m/p` is 5.  After three iterations of the merge loop the record 4 of
chunk 0 is on top, the store of chunk 0 is exhausted and its counter is 3;
the fourth iteration raises the counter to 4 and calls `loadChunk(0)`, with
fewer than `q` records to read and `chunksrd[0] + count = 4 < m/p = 5`.  The
call fails, and so does `sort`, but with the stream failure of the
extraction at the end of the store and not with the insufficient-values
error of lines 233-241.  On any object, a call that can read fewer than `q`
records raises the stream failure, and no call raises that error. -/
theorem loadChunk_short_raises_stream_failure :
    (∃ s2 s : Sorter Nat (ListQueue Nat),
      mergeInit (ListQueue Nat) 10 4 [1, 2, 3, 4, 5, 6, 7, 8, 9, 10] = .ok s2 ∧
      iter mergeStep 3 s2 = some s ∧ s.p = 2 ∧ s.q = 2 ∧
      (ListQueue Nat).top s.min_heap = some ⟨4, 0⟩ ∧
      s.chunksfs = [[], [7, 8]] ∧ s.chunksrd = [3, 0] ∧
      (afterPop s ⟨4, 0⟩ 3).chunksrd = [4, 0] ∧ 4 % s.q = 0 ∧ 4 + 0 < s.m / s.p ∧
      loadChunk (afterPop s ⟨4, 0⟩ 3) 0 = .throw .iosFailure ∧
      mergeStep s = .throw .iosFailure) ∧
    sort (ListQueue Nat) 10 4 [1, 2, 3, 4, 5, 6, 7, 8, 9, 10] = .throw .iosFailure ∧
    (∀ (pq : PriorityQueue T) (s : Sorter T pq) (chunkid : Nat) (fs : List T),
      s.chunksfs[chunkid]? = some fs → fs.length < s.q →
      loadChunk s chunkid = .throw .iosFailure) ∧
    (∀ (pq : PriorityQueue T) (s : Sorter T pq) (chunkid c expected received : Nat),
      loadChunk s chunkid ≠ .throw (.insufficientChunk c expected received)) := by
  refine ⟨⟨_, _, rfl, rfl, rfl, rfl, rfl, rfl, rfl, rfl, by decide, by decide, rfl, rfl⟩,
    rfl, ?_, ?_⟩
  · intro pq s chunkid fs hfs hlt
    rcases loadChunk_cases s chunkid with ⟨h, _⟩ | ⟨fs1, _, _, hc⟩ | ⟨fs1, h', h, hle, _, _⟩
    · rw [hfs] at h; simp at h
    · exact hc
    · rw [hfs] at h
      simp only [Option.some.injEq] at h
      subst h
      omega
  · intro pq s chunkid c expected received h
    rcases loadChunk_cases s chunkid with ⟨_, hc⟩ | ⟨_, _, _, hc⟩ | ⟨_, _, _, _, hc, _⟩ <;>
      · rw [hc] at h
        simp at h

/-- C12. A successful `loadChunk(c)` consumes exactly the next `q` records of
the store of chunk `c`, starting at its cursor, and adds exactly those `q`
records to the heap, each tagged with `c`; the stores and cursors of all
other chunks, every read counter, and the entries already in the heap are
unchanged (and so are `m`, `k`, `p`, `q` and the output). -/
theorem loadChunk_frame {pq : PriorityQueue T} (s s' : Sorter T pq) (c : Nat)
    (h : loadChunk s c = .ok s') :
    ∃ fs, s.chunksfs[c]? = some fs ∧ s.q ≤ fs.length ∧
      s'.chunksfs[c]? = some (fs.drop s.q) ∧
      (pq.toList s'.min_heap).Perm
        ((fs.take s.q).map (fun v => (⟨v, c⟩ : Value T)) ++ pq.toList s.min_heap) ∧
      pq.size s'.min_heap = pq.size s.min_heap + s.q ∧
      (∀ c', c' ≠ c → s'.chunksfs[c']? = s.chunksfs[c']?) ∧
      s'.chunksfs.length = s.chunksfs.length ∧
      s'.chunksrd = s.chunksrd ∧
      s'.m = s.m ∧ s'.k = s.k ∧ s'.p = s.p ∧ s'.q = s.q ∧ s'.outfs = s.outfs := by
  rcases loadChunk_cases s c with ⟨_, hc⟩ | ⟨_, _, _, hc⟩ | ⟨fs, h', hfs, hle, hc, hperm⟩
  · rw [hc] at h; simp at h
  · rw [hc] at h; simp at h
  · rw [hc] at h
    simp only [Outcome.ok.injEq] at h
    subst h
    have hlt : c < s.chunksfs.length := (List.getElem?_eq_some.1 hfs).1
    refine ⟨fs, hfs, hle, List.getElem?_set_self hlt, hperm, ?_, ?_, List.length_set _ _ _,
      rfl, rfl, rfl, rfl, rfl, rfl⟩
    · rw [pq.size_eq, pq.size_eq, hperm.length_eq, List.length_append, List.length_map,
        List.length_take, Nat.min_eq_left hle]
      omega
    · intro c' hc'
      exact List.getElem?_set_ne (Ne.symm hc')

theorem loadChunk_frame_witness :
    ∃ fs,
      ({ m := 8, k := 4, p := 2, q := 2, chunksfs := [[3, 4], [7, 8]], chunksrd := [2, 0],
         min_heap := [⟨5, 1⟩, ⟨6, 1⟩], outfs := [1, 2] } :
          Sorter Nat (ListQueue Nat)).chunksfs[0]? = some fs ∧
      2 ≤ fs.length ∧
      ({ m := 8, k := 4, p := 2, q := 2, chunksfs := [[], [7, 8]], chunksrd := [2, 0],
         min_heap := [⟨5, 1⟩, ⟨6, 1⟩, ⟨3, 0⟩, ⟨4, 0⟩], outfs := [1, 2] } :
          Sorter Nat (ListQueue Nat)).chunksfs[0]? = some (fs.drop 2) ∧
      ([⟨5, 1⟩, ⟨6, 1⟩, ⟨3, 0⟩, ⟨4, 0⟩] : List (Value Nat)).Perm
        ((fs.take 2).map (fun v => (⟨v, 0⟩ : Value Nat)) ++ [⟨5, 1⟩, ⟨6, 1⟩]) :=
  match loadChunk_frame
      ({ m := 8, k := 4, p := 2, q := 2, chunksfs := [[3, 4], [7, 8]], chunksrd := [2, 0],
         min_heap := [⟨5, 1⟩, ⟨6, 1⟩], outfs := [1, 2] } : Sorter Nat (ListQueue Nat))
      ({ m := 8, k := 4, p := 2, q := 2, chunksfs := [[], [7, 8]], chunksrd := [2, 0],
         min_heap := [⟨5, 1⟩, ⟨6, 1⟩, ⟨3, 0⟩, ⟨4, 0⟩], outfs := [1, 2] } :
          Sorter Nat (ListQueue Nat)) 0 rfl with
  | ⟨fs, h1, h2, h3, h4, _⟩ => ⟨fs, h1, h2, h3, h4⟩

/-- C13. When `m == k` (so `p = 1` and `q = k`), for every input of `m`
records `initHeap` loads the whole dataset into the heap and leaves the one
chunk store read to its end; at no pop of the merge loop does the counter
test ask for a refill, so `loadChunk` is never called there; and `sort`
returns normally with the sorted output. -/
theorem single_chunk_no_refill (pq : PriorityQueue T) (m : Nat) (input : List T)
    (hm : 1 ≤ m) (hlen : input.length = m) :
    ∃ s2 s3 : Sorter T pq, mergeInit pq m m input = .ok s2 ∧ s2.p = 1 ∧ s2.q = m ∧
      (pq.toList s2.min_heap).Perm
        ((input.insertionSort (· ≤ ·)).map (fun v => (⟨v, 0⟩ : Value T))) ∧
      pq.size s2.min_heap = m ∧ s2.chunksfs = [[]] ∧
      (∀ (n : Nat) (s : Sorter T pq) (v : Value T) (rd : Nat),
        iter mergeStep n s2 = some s → pq.top s.min_heap = some v →
        s.chunksrd[v.chunkid]? = some rd →
        ¬ ((rd + 1) % s.q = 0 ∧ rd + 1 < s.m / s.p) ∧
          mergeStep s = .next (afterPop s v rd)) ∧
      sort pq m m input = .ok s3 ∧ s3.outfs.Sorted (· ≤ ·) ∧ s3.outfs.Perm input := by
  have hdiv : m / m = 1 := Nat.div_self (by omega)
  obtain ⟨s2, s3, hinit, _, hsort, hsorted, hperm, _, _⟩ :=
    sort_divisible pq m m input hm (Nat.le_refl m) (by rw [hdiv, Nat.one_mul])
      (by rw [hdiv, Nat.one_mul, Nat.div_one]) (by omega)
  rw [List.take_of_length_le (by omega)] at hperm
  rcases mergeInit_cases pq m m input hm (Nat.le_refl m) with ⟨_, hc⟩ | ⟨_, _, hc⟩ |
    ⟨_, _, s2', hc, hm2, hk2, hp2, hq2, _, _, hfs, hheap, hsize, hI2, hO2, _⟩
  · rw [hc] at hinit; simp at hinit
  · rw [hc] at hinit; simp at hinit
  · rw [hc] at hinit
    simp only [Outcome.ok.injEq] at hinit
    subst hinit
    rw [hdiv] at hp2
    rw [hdiv, Nat.div_one] at hq2
    have hchunks : sortedChunks m 1 input = [input.insertionSort (· ≤ ·)] := by
      simp [sortedChunks, List.range_succ, List.take_of_length_le (Nat.le_of_eq hlen)]
    rw [hdiv, Nat.div_one, hchunks] at hfs hheap
    have hl : (input.insertionSort (· ≤ ·)).length ≤ m :=
      Nat.le_of_eq ((List.length_insertionSort _ _).trans hlen)
    refine ⟨s2', s3, hc, hp2, hq2, ?_, hsize, ?_, ?_, hsort, hsorted, hperm⟩
    · simp only [List.range_succ, List.range_zero, List.nil_append, List.map_cons,
        List.map_nil, List.flatten_cons, List.flatten_nil, List.append_nil,
        List.getElem?_cons_zero, Option.getD_some, List.take_of_length_le hl] at hheap
      exact hheap
    · rw [hfs, List.map_cons, List.map_nil, List.drop_of_length_le hl]
    · intro n s v rd hiter hv hrd
      obtain ⟨_, _, hm', _, hp', hq', _⟩ := merge_reach _ s2' hI2 hO2 n s hiter
      have hsq : s.q = m := hq'.trans hq2
      have hsm : s.m / s.p = m := by rw [hm', hp', hm2, hp2, Nat.div_one]
      have hno : ¬ ((rd + 1) % s.q = 0 ∧ rd + 1 < s.m / s.p) := by
        rintro ⟨h1, h2⟩
        rw [hsq] at h1
        rw [hsm] at h2
        rw [Nat.mod_eq_of_lt h2] at h1
        omega
      refine ⟨hno, ?_⟩
      have hq0 : ¬ s.q = 0 := by omega
      have hp0 : ¬ s.p = 0 := by rw [hp', hp2]; omega
      unfold mergeStep
      simp only [hv, hrd, hq0, hp0, if_false]
      by_cases h1 : (rd + 1) % s.q = 0
      · have h2 : ¬ rd + 1 < s.m / s.p := fun h2 => hno ⟨h1, h2⟩
        simp [h1, h2]
      · simp [h1]

theorem single_chunk_no_refill_witness :
    ∃ s2 s3 : Sorter Nat (ListQueue Nat),
      mergeInit (ListQueue Nat) 4 4 [4, 1, 3, 2] = .ok s2 ∧ s2.p = 1 ∧ s2.q = 4 ∧
      ((ListQueue Nat).toList s2.min_heap).Perm
        (([4, 1, 3, 2] : List Nat).insertionSort (· ≤ ·) |>.map (fun v => (⟨v, 0⟩ : Value Nat))) ∧
      (ListQueue Nat).size s2.min_heap = 4 ∧ s2.chunksfs = [[]] ∧
      (∀ (n : Nat) (s : Sorter Nat (ListQueue Nat)) (v : Value Nat) (rd : Nat),
        iter mergeStep n s2 = some s → (ListQueue Nat).top s.min_heap = some v →
        s.chunksrd[v.chunkid]? = some rd →
        ¬ ((rd + 1) % s.q = 0 ∧ rd + 1 < s.m / s.p) ∧
          mergeStep s = .next (afterPop s v rd)) ∧
      sort (ListQueue Nat) 4 4 [4, 1, 3, 2] = .ok s3 ∧ s3.outfs.Sorted (· ≤ ·) ∧
      s3.outfs.Perm [4, 1, 3, 2] :=
  single_chunk_no_refill (ListQueue Nat) 4 [4, 1, 3, 2] (by decide) (by decide)

/-- C14. For an input of `m` records that is already in non-decreasing order
(`m` divisible by `k`, `k` divisible by `p`), `sort` outputs exactly the
input sequence; and for every input of `m` records, sorting the output of a
sort yields the same sequence again. -/
theorem sort_idempotent (pq : PriorityQueue T) (m k : Nat) (input : List T)
    (hm : 1 ≤ m) (hk : 1 ≤ k) (hmk : k ∣ m) (hkp : m / k ∣ k) (hlen : input.length = m) :
    (input.Sorted (· ≤ ·) → ∃ s, sort pq m k input = .ok s ∧ s.outfs = input) ∧
    (∃ s s', sort pq m k input = .ok s ∧ sort pq m k s.outfs = .ok s' ∧
      s'.outfs = s.outfs) := by
  obtain ⟨hkm, h1, h2⟩ := divisible_facts m k hm hmk hkp
  have key : ∀ l : List T, l.length = m → ∃ s, sort pq m k l = .ok s ∧
      s.outfs.Sorted (· ≤ ·) ∧ s.outfs.Perm l := by
    intro l hl
    obtain ⟨_, s3, _, _, hsort, hsorted, hperm, _, _⟩ :=
      sort_divisible pq m k l hk hkm h1 h2 (by omega)
    rw [List.take_of_length_le (by omega)] at hperm
    exact ⟨s3, hsort, hsorted, hperm⟩
  constructor
  · intro hin
    obtain ⟨s, hs, hsorted, hperm⟩ := key input hlen
    exact ⟨s, hs, List.eq_of_perm_of_sorted hperm hsorted hin⟩
  · obtain ⟨s, hs, hsorted, hperm⟩ := key input hlen
    obtain ⟨s', hs', hsorted', hperm'⟩ := key s.outfs (hperm.length_eq.trans hlen)
    exact ⟨s, s', hs, hs', List.eq_of_perm_of_sorted hperm' hsorted' hsorted⟩

theorem sort_idempotent_witness :
    (([1, 2, 2, 5] : List Nat).Sorted (· ≤ ·) →
      ∃ s, sort (ListQueue Nat) 4 2 [1, 2, 2, 5] = .ok s ∧ s.outfs = [1, 2, 2, 5]) ∧
    (∃ s s', sort (ListQueue Nat) 4 2 [1, 2, 2, 5] = .ok s ∧
      sort (ListQueue Nat) 4 2 s.outfs = .ok s' ∧ s'.outfs = s.outfs) :=
  sort_idempotent (ListQueue Nat) 4 2 [1, 2, 2, 5]
    (by decide) (by decide) (by decide) (by decide) (by decide)

/-- C15 (counterexample). With `m = 6`, `k = 3` the constructor takes
`p = 2` and `q = 3 / 2 = 1`, so the two loads of `initHeap` leave 2 entries
in the heap, not 3, and `sort` raises the insufficient-values error of line
215: it does not produce the output `[1,1,3,3,5,5]`. -/
theorem sort_six_three_raises :
    sort (ListQueue Nat) 6 3 [5, 5, 1, 1, 3, 3] = .throw (.insufficientHeap 3 2) ∧
      ¬ ∃ s, sort (ListQueue Nat) 6 3 [5, 5, 1, 1, 3, 3] = .ok s ∧
        s.outfs = [1, 1, 3, 3, 5, 5] := by
  have h : sort (ListQueue Nat) 6 3 [5, 5, 1, 1, 3, 3] = .throw (.insufficientHeap 3 2) := rfl
  refine ⟨h, ?_⟩
  rintro ⟨s, hs, _⟩
  rw [h] at hs
  simp at hs

/-- C15 (amended). With `m = 6`, `k = 3` (so `p = 2`, `q = 1` and `k` is not
`p * q`) and input `[5,5,1,1,3,3]`, `sort` fails in `initHeap` with the
insufficient-values error, the heap holding 2 entries where 3 are expected;
with `m = 6`, `k = 6` (`p = 1`, `q = 6`) the same input is sorted to
`[1,1,3,3,5,5]`.  Both hold for every priority queue. -/
theorem sort_six_records (pq : PriorityQueue Nat) :
    sort pq 6 3 [5, 5, 1, 1, 3, 3] = .throw (.insufficientHeap 3 2) ∧
      ∃ s, sort pq 6 6 [5, 5, 1, 1, 3, 3] = .ok s ∧ s.outfs = [1, 1, 3, 3, 5, 5] := by
  constructor
  · rcases mergeInit_cases pq 6 3 [5, 5, 1, 1, 3, 3] (by decide) (by decide) with
      ⟨h, _⟩ | ⟨_, _, hc⟩ | ⟨_, h, _⟩
    · exact absurd h (by decide)
    · simp only [sort, hc]
    · exact absurd h (by decide)
  · obtain ⟨_, s3, _, _, hsort, hsorted, hperm, _, _⟩ :=
      sort_divisible pq 6 6 [5, 5, 1, 1, 3, 3] (by decide) (by decide) (by decide)
        (by decide) (by decide)
    refine ⟨s3, hsort, List.eq_of_perm_of_sorted (hperm.trans ?_) hsorted ?_⟩
    · decide
    · decide

/-- C16. With `m = 12`, `k = 6` (`p = 2`, `q = 3`) and input
`[9,1,4,7,2,8,3,6,5,11,10,12]`, `sort` returns normally and produces the
output `[1,2,3,4,5,6,7,8,9,10,11,12]`, for every priority queue. -/
theorem sort_twelve_records (pq : PriorityQueue Nat) :
    ∃ s, sort pq 12 6 [9, 1, 4, 7, 2, 8, 3, 6, 5, 11, 10, 12] = .ok s ∧
      s.outfs = [1, 2, 3, 4, 5, 6, 7, 8, 9, 10, 11, 12] ∧ s.p = 2 ∧ s.q = 3 := by
  obtain ⟨s2, s3, hinit, hloop, hsort, hsorted, hperm, _, _⟩ :=
    sort_divisible pq 12 6 [9, 1, 4, 7, 2, 8, 3, 6, 5, 11, 10, 12] (by decide) (by decide)
      (by decide) (by decide) (by decide)
  obtain ⟨_, _, _, _, _, _, hp2, hq2, _, _, hI2, hO2, _⟩ :=
    mergeInit_ok_inv pq 12 6 _ s2 hinit
  obtain ⟨_, _, g3, g4, _⟩ := merge_loop_ok _ s2 s3 hI2 hO2 _ hloop
  refine ⟨s3, hsort, List.eq_of_perm_of_sorted (hperm.trans ?_) hsorted ?_,
    g3.trans hp2, g4.trans hq2⟩
  · decide
  · decide

/-- C17 (counterexample). When `sort` has returned, normally (input
`4 3 2 1`) or with an exception (input `4 3 2`, one record short), the
temporary directory, which did not exist before, exists. -/
theorem tmpdir_exists_after_sort :
    (∃ s, (sortOnDisk (ListQueue Nat) 4 2 [4, 3, 2, 1] false).1 = .ok s) ∧
    (sortOnDisk (ListQueue Nat) 4 2 [4, 3, 2, 1] false).2 = true ∧
    (sortOnDisk (ListQueue Nat) 4 2 [4, 3, 2] false).1 = .throw .iosFailure ∧
    (sortOnDisk (ListQueue Nat) 4 2 [4, 3, 2] false).2 = true :=
  ⟨⟨_, rfl⟩, rfl, rfl, rfl⟩

/-- C17 (amended). After `sort` returns, whether it succeeded or failed, the
temporary directory that `splitAndSortChunks` created still exists; it is
`cleanup`, called by the destructor, that removes it: once the object that
ran `sort` is destroyed, the directory no longer exists. -/
theorem tmpdir_removed_by_destructor (pq : PriorityQueue T) (m k : Nat) (input : List T)
    (tmpdir : Bool) (hk : 1 ≤ k) (hkm : k ≤ m) :
    (sortOnDisk pq m k input tmpdir).1 = sort pq m k input ∧
    (sortOnDisk pq m k input tmpdir).2 = true ∧
    (sortInScope pq m k input tmpdir).1 = sort pq m k input ∧
    (sortInScope pq m k input tmpdir).2 = false := by
  simp [sortInScope, sortOnDisk, new_ok pq m k hk hkm, create_directories, destroy, cleanup,
    remove_all]

theorem tmpdir_removed_by_destructor_witness :
    (sortOnDisk (ListQueue Nat) 4 2 [4, 3, 2] false).1 = sort (ListQueue Nat) 4 2 [4, 3, 2] ∧
    (sortOnDisk (ListQueue Nat) 4 2 [4, 3, 2] false).2 = true ∧
    (sortInScope (ListQueue Nat) 4 2 [4, 3, 2] false).1 = sort (ListQueue Nat) 4 2 [4, 3, 2] ∧
    (sortInScope (ListQueue Nat) 4 2 [4, 3, 2] false).2 = false :=
  tmpdir_removed_by_destructor (ListQueue Nat) 4 2 [4, 3, 2] false (by decide) (by decide)

end Claims

end MwayMergesort

/-! # Anagram search: proofs -/

namespace Anagrams

theorem find_assign (c : Char) (v : Int) (c' : Char) :
    ∀ m : List (Char × Int), find (assign m c v) c' = if c = c' then some v else find m c' := by
  intro m
  induction m with
  | nil =>
    simp only [assign, find]
  | cons e rest ih =>
    obtain ⟨k, w⟩ := e
    simp only [assign]
    by_cases hk : k = c
    · subst hk
      simp only [if_true, find]
      by_cases hk' : k = c' <;> simp [hk']
    · simp only [hk, if_false, find, ih]
      by_cases hk' : k = c'
      · subst hk'
        have : ¬ c = k := fun h => hk h.symm
        simp [this]
      · simp [hk']

theorem find_erase (c c' : Char) :
    ∀ m : List (Char × Int), find (erase m c) c' = if c = c' then none else find m c' := by
  intro m
  induction m with
  | nil => simp [erase, find]
  | cons e rest ih =>
    obtain ⟨k, w⟩ := e
    simp only [erase] at ih ⊢
    by_cases hk : k = c
    · subst hk
      simp only [List.filter, ne_eq, not_true_eq_false, decide_False, ih, find]
      by_cases hc : k = c' <;> simp [hc]
    · simp only [List.filter, ne_eq, hk, not_false_eq_true, decide_True, find, ih]
      by_cases hk' : k = c'
      · subst hk'
        have : ¬ c = k := fun h => hk h.symm
        simp [this]
      · simp [hk']

theorem length_eq_zero_iff (m : List (Char × Int)) :
    m.length = 0 ↔ ∀ c, find m c = none := by
  cases m with
  | nil => simp [find]
  | cons e rest =>
    obtain ⟨k, w⟩ := e
    simp only [List.length_cons, Nat.add_one_ne_zero, false_iff, not_forall]
    exact ⟨k, by simp [find]⟩

/-- A map without 0-valued entries is empty exactly when every count is 0. -/
theorem length_eq_zero_iff_freq (m : List (Char × Int)) (hnz : ∀ c, find m c ≠ some 0) :
    m.length = 0 ↔ ∀ c, freq m c = 0 := by
  rw [length_eq_zero_iff]
  constructor
  · intro h c
    simp [freq, h c]
  · intro h c
    have hc := h c
    unfold freq at hc
    cases hf : find m c with
    | none => rfl
    | some f =>
      rw [hf] at hc
      simp only [Option.getD_some] at hc
      subst hc
      exact absurd hf (hnz c)

theorem foundInWindow_spec (m : List (Char × Int)) (c : Char) (hnz : ∀ c, find m c ≠ some 0) :
    (∀ c', find (foundInWindow m c) c' ≠ some 0) ∧
    ∀ c', freq (foundInWindow m c) c' = freq m c' - (if c = c' then 1 else 0) := by
  unfold foundInWindow
  cases hf : find m c with
  | none =>
    simp only
    constructor
    · intro c'
      rw [find_assign]
      by_cases hc : c = c'
      · simp [hc]
      · simp only [hc, if_false]; exact hnz c'
    · intro c'
      unfold freq
      rw [find_assign]
      by_cases hc : c = c'
      · subst hc; simp [hf]
      · simp [hc]
  | some f =>
    simp only
    by_cases h0 : f - 1 = 0
    · simp only [h0, if_true]
      constructor
      · intro c'
        rw [find_erase]
        by_cases hc : c = c'
        · simp [hc]
        · simp only [hc, if_false]; exact hnz c'
      · intro c'
        unfold freq
        rw [find_erase]
        by_cases hc : c = c'
        · subst hc
          simp only [if_true, hf, Option.getD_none, Option.getD_some]
          omega
        · simp [hc]
    · simp only [h0, if_false]
      constructor
      · intro c'
        rw [find_assign]
        by_cases hc : c = c'
        · simp only [hc, if_true, ne_eq, Option.some.injEq]; exact h0
        · simp only [hc, if_false]; exact hnz c'
      · intro c'
        unfold freq
        rw [find_assign]
        by_cases hc : c = c'
        · subst hc; simp [hf]
        · simp [hc]

theorem leftOfWindow_spec (m : List (Char × Int)) (c : Char) (hnz : ∀ c, find m c ≠ some 0) :
    (∀ c', find (leftOfWindow m c) c' ≠ some 0) ∧
    ∀ c', freq (leftOfWindow m c) c' = freq m c' + (if c = c' then 1 else 0) := by
  unfold leftOfWindow
  cases hf : find m c with
  | none =>
    simp only
    constructor
    · intro c'
      rw [find_assign]
      by_cases hc : c = c'
      · simp [hc]
      · simp only [hc, if_false]; exact hnz c'
    · intro c'
      unfold freq
      rw [find_assign]
      by_cases hc : c = c'
      · subst hc; simp [hf]
      · simp [hc]
  | some f =>
    simp only
    by_cases h0 : f + 1 = 0
    · simp only [h0, if_true]
      constructor
      · intro c'
        rw [find_erase]
        by_cases hc : c = c'
        · simp [hc]
        · simp only [hc, if_false]; exact hnz c'
      · intro c'
        unfold freq
        rw [find_erase]
        by_cases hc : c = c'
        · subst hc
          simp only [if_true, hf, Option.getD_none, Option.getD_some]
          omega
        · simp [hc]
    · simp only [h0, if_false]
      constructor
      · intro c'
        rw [find_assign]
        by_cases hc : c = c'
        · simp only [hc, if_true, ne_eq, Option.some.injEq]; exact h0
        · simp only [hc, if_false]; exact hnz c'
      · intro c'
        unfold freq
        rw [find_assign]
        by_cases hc : c = c'
        · subst hc; simp [hf]
        · simp [hc]

theorem countUp_spec (m : List (Char × Int)) (c : Char)
    (hpos : ∀ c f, find m c = some f → 0 < f) :
    (∀ c' f, find (countUp m c) c' = some f → 0 < f) ∧
    ∀ c', freq (countUp m c) c' = freq m c' + (if c = c' then 1 else 0) := by
  unfold countUp
  cases hf : find m c with
  | none =>
    simp only
    constructor
    · intro c' f
      rw [find_assign]
      by_cases hc : c = c'
      · simp only [hc, if_true, Option.some.injEq]; intro h; omega
      · simp only [hc, if_false]; exact hpos c' f
    · intro c'
      unfold freq
      rw [find_assign]
      by_cases hc : c = c'
      · subst hc; simp [hf]
      · simp [hc]
  | some f0 =>
    simp only
    have h0 := hpos c f0 hf
    constructor
    · intro c' f
      rw [find_assign]
      by_cases hc : c = c'
      · simp only [hc, if_true, Option.some.injEq]; intro h; omega
      · simp only [hc, if_false]; exact hpos c' f
    · intro c'
      unfold freq
      rw [find_assign]
      by_cases hc : c = c'
      · subst hc; simp [hf]
      · simp [hc]


theorem foldl_countUp (l : List Char) :
    ∀ m : List (Char × Int), (∀ c f, find m c = some f → 0 < f) →
      (∀ c f, find (l.foldl countUp m) c = some f → 0 < f) ∧
      ∀ c, freq (l.foldl countUp m) c = freq m c + (l.count c : Int) := by
  induction l with
  | nil => intro m h; exact ⟨h, by simp⟩
  | cons a l ih =>
    intro m h
    obtain ⟨h1, h2⟩ := countUp_spec m a h
    obtain ⟨h3, h4⟩ := ih (countUp m a) h1
    refine ⟨h3, ?_⟩
    intro c
    simp only [List.foldl_cons]
    rw [h4 c, h2 c, List.count_cons]
    by_cases hc : a = c
    · subst hc; simp; omega
    · simp [hc]

theorem foldl_foundInWindow (l : List Char) :
    ∀ m : List (Char × Int), (∀ c, find m c ≠ some 0) →
      (∀ c, find (l.foldl foundInWindow m) c ≠ some 0) ∧
      ∀ c, freq (l.foldl foundInWindow m) c = freq m c - (l.count c : Int) := by
  induction l with
  | nil => intro m h; exact ⟨h, by simp⟩
  | cons a l ih =>
    intro m h
    obtain ⟨h1, h2⟩ := foundInWindow_spec m a h
    obtain ⟨h3, h4⟩ := ih (foundInWindow m a) h1
    refine ⟨h3, ?_⟩
    intro c
    simp only [List.foldl_cons]
    rw [h4 c, h2 c, List.count_cons]
    by_cases hc : a = c
    · subst hc; simp; omega
    · simp [hc]

theorem charAt_eq (word : List Char) (i : Nat) (h : i < word.length) :
    charAt word i = word[i] := by
  unfold charAt
  exact List.getD_eq_getElem word _ h

theorem map_charAt_range (word : List Char) :
    ∀ n, n ≤ word.length → (List.range n).map (charAt word) = word.take n := by
  intro n
  induction n with
  | zero => intro _; simp
  | succ n ih =>
    intro h
    rw [List.range_succ, List.map_append, ih (by omega), List.take_succ,
      List.getElem?_eq_getElem (by omega)]
    simp [charAt_eq word n (by omega)]

/-- Sliding the window by one: the character that leaves and the one that
enters account for the difference of the counts. -/
theorem count_window_succ (word s : List Char) (n : Nat) (h : n + s.length < word.length)
    (c : Char) :
    ((window word s (n + 1)).count c : Int) + (if charAt word n = c then 1 else 0) =
      ((window word s n).count c : Int) +
        (if charAt word (n + 1 + s.length - 1) = c then 1 else 0) := by
  have hn : n < word.length := by omega
  have h1 : (word.drop n).take (s.length + 1) = word[n] :: window word s (n + 1) := by
    rw [List.drop_eq_getElem_cons hn, List.take_succ_cons]
    rfl
  have h2 : (word.drop n).take (s.length + 1) = window word s n ++ [word[n + s.length]] := by
    rw [List.take_succ, List.getElem?_drop, List.getElem?_eq_getElem h]
    rfl
  have h3 : n + 1 + s.length - 1 = n + s.length := by omega
  rw [h3, charAt_eq word n hn, charAt_eq word (n + s.length) h]
  have := congrArg (fun l => (l.count c : Int)) (h1.symm.trans h2)
  simp only [List.count_cons, List.count_append, List.count_nil, Nat.cast_add, Nat.zero_add,
    beq_iff_eq] at this
  have e1 : ((if word[n] = c then (1 : Nat) else 0 : Nat) : Int) = if word[n] = c then 1 else 0 := by
    split <;> simp
  have e2 : ((if word[n + s.length] = c then (1 : Nat) else 0 : Nat) : Int) =
      if word[n + s.length] = c then 1 else 0 := by
    split <;> simp
  rw [e1, e2] at this
  exact this

theorem window_perm_iff (word s : List Char) (i : Nat) (m : List (Char × Int))
    (hnz : ∀ c, find m c ≠ some 0)
    (hfreq : ∀ c, freq m c = (s.count c : Int) - ((window word s i).count c : Int)) :
    m.length = 0 ↔ (window word s i).Perm s := by
  rw [length_eq_zero_iff_freq m hnz, List.perm_iff_count]
  constructor
  · intro h c
    have := h c
    rw [hfreq c] at this
    omega
  · intro h c
    rw [hfreq c, h c]
    omega

/-- The loop of lines 62-91 after `n` iterations: the map describes the
window at `n`, and the matches are the anagram positions up to `n`. -/
theorem slide_loop (word s : List Char) (m0 : List (Char × Int))
    (hnz0 : ∀ c, find m0 c ≠ some 0)
    (hfreq0 : ∀ c, freq m0 c = (s.count c : Int) - ((window word s 0).count c : Int)) :
    ∀ n, n + s.length ≤ word.length →
      (∀ c, find ((List.range' 1 n).foldl (slide word s)
        (m0, if m0.length = 0 then [0] else [])).1 c ≠ some 0) ∧
      (∀ c, freq ((List.range' 1 n).foldl (slide word s)
        (m0, if m0.length = 0 then [0] else [])).1 c =
          (s.count c : Int) - ((window word s n).count c : Int)) ∧
      ((List.range' 1 n).foldl (slide word s) (m0, if m0.length = 0 then [0] else [])).2 =
        (List.range (n + 1)).filter (fun i => decide ((window word s i).Perm s)) := by
  intro n
  induction n with
  | zero =>
    intro _
    refine ⟨hnz0, hfreq0, ?_⟩
    have := window_perm_iff word s 0 m0 hnz0 hfreq0
    simp only [List.range'_zero, List.foldl_nil, List.range_succ, List.range_zero,
      List.nil_append, List.filter_cons, List.filter_nil]
    by_cases h : m0.length = 0
    · simp [h, this.1 h]
    · have : ¬ (window word s 0).Perm s := fun hp => h (this.2 hp)
      simp [h, this]
  | succ n ih =>
    intro hlen
    obtain ⟨hnz, hfreq, hres⟩ := ih (by omega)
    rw [List.range'_concat, List.foldl_append]
    simp only [List.foldl_cons, List.foldl_nil, Nat.one_mul, Nat.add_comm 1 n]
    generalize (List.range' 1 n).foldl (slide word s) (m0, if m0.length = 0 then [0] else []) = st
      at hnz hfreq hres ⊢
    have hidx : n + 1 - 1 = n := by omega
    obtain ⟨hnz1, hfreq1⟩ := leftOfWindow_spec st.1 (charAt word (n + 1 - 1)) hnz
    obtain ⟨hnz2, hfreq2⟩ := foundInWindow_spec _ (charAt word (n + 1 + s.length - 1)) hnz1
    have hfreq' : ∀ c, freq (slide word s st (n + 1)).1 c =
        (s.count c : Int) - ((window word s (n + 1)).count c : Int) := by
      intro c
      simp only [slide]
      rw [hfreq2 c, hfreq1 c, hfreq c, hidx]
      have := count_window_succ word s n (by omega) c
      omega
    refine ⟨hnz2, hfreq', ?_⟩
    have hiff := window_perm_iff word s (n + 1) (slide word s st (n + 1)).1 hnz2 hfreq'
    have hslide2 : (slide word s st (n + 1)).2 =
        if (slide word s st (n + 1)).1.length = 0 then st.2 ++ [n + 1] else st.2 := rfl
    rw [hslide2, hres, List.range_succ (n + 1), List.filter_append]
    by_cases h : (slide word s st (n + 1)).1.length = 0
    · have hp := hiff.1 h
      rw [if_pos h]
      simp only [List.filter_cons, hp, decide_True, if_true, List.filter_nil]
    · have hp : ¬ (window word s (n + 1)).Perm s := fun hp => h (hiff.2 hp)
      rw [if_neg h]
      simp only [List.filter_cons, hp, decide_False, List.filter_nil, List.append_nil]
      simp

/-- In closed form: `anagrams` filters the positions `0 .. |word| - |s|` by
the test that the window is a permutation of `s`. -/
theorem anagrams_eq_filter (word s : List Char) (h : s.length ≤ word.length) :
    anagrams word s =
      (List.range (word.length - s.length + 1)).filter
        (fun i => decide ((window word s i).Perm s)) := by
  unfold anagrams
  have hgt : ¬ s.length > word.length := by omega
  simp only [hgt, if_false]
  have hfold : (List.range s.length).foldl (fun wfreq i => foundInWindow wfreq (charAt word i))
      (s.foldl countUp []) = (word.take s.length).foldl foundInWindow (s.foldl countUp []) := by
    rw [← map_charAt_range word s.length h, List.foldl_map]
  rw [hfold]
  obtain ⟨hpos, hcount⟩ := foldl_countUp s [] (by intro c f hf; simp [find] at hf)
  obtain ⟨hnz, hfreq⟩ := foldl_foundInWindow (word.take s.length) (s.foldl countUp [])
    (by
      intro c hc
      have := hpos c 0 hc
      omega)
  have hfreq0 : ∀ c, freq ((word.take s.length).foldl foundInWindow (s.foldl countUp [])) c =
      (s.count c : Int) - ((window word s 0).count c : Int) := by
    intro c
    rw [hfreq c, hcount c]
    simp [freq, find, window]
  exact (slide_loop word s _ hnz hfreq0 (word.length - s.length) (by omega)).2.2


/-- The six cases of the test `examples` (lines 96-137). -/
theorem anagrams_examples :
    anagrams ['a', 'b', 'x', 'a', 'b', 'a'] ['a', 'b'] = [0, 3, 4] ∧
    anagrams ['a', 'b', 'x', 'a', 'b', 'b'] ['a', 'b'] = [0, 3] ∧
    anagrams ['a', 'b', 'x', 'a', 'b', 'b', 'a'] ['a', 'b'] = [0, 3, 5] ∧
    anagrams ['l', 'i', 'v', 'e', 'e', 'v', 'i', 'l', 'v', 'i', 'l', 'e'] ['l', 'i', 'v', 'e'] =
      [0, 4, 8] ∧
    anagrams ['x', 'b', 'c', 'a', 'x', 'a', 'c', 'b', 'b', 'c', 'a'] ['a', 'b', 'c'] =
      [1, 5, 8] ∧
    anagrams ['t', 't', 'w', 'w', 't'] ['w', 'w', 't'] = [1, 2] := by
  refine ⟨?_, ?_, ?_, ?_, ?_, ?_⟩ <;> decide

/-- C18. For every word and every string `s` (the empty one too),
`anagrams word s` is strictly increasing and holds exactly the indices `i`
with `i + |s| ≤ |word|` such that the window `word[i .. i+|s|)` is a
permutation of `s`; it is the empty list when `|s| > |word|`. -/
theorem anagrams_spec (word s : List Char) :
    (anagrams word s).Sorted (· < ·) ∧
    (∀ i, i ∈ anagrams word s ↔
      i + s.length ≤ word.length ∧ ((word.drop i).take s.length).Perm s) ∧
    (s.length > word.length → anagrams word s = []) := by
  by_cases h : s.length ≤ word.length
  · rw [anagrams_eq_filter word s h]
    refine ⟨(List.sorted_lt_range _).filter _, ?_, fun hgt => absurd h (by omega)⟩
    intro i
    simp only [List.mem_filter, List.mem_range, decide_eq_true_eq, window]
    constructor
    · rintro ⟨h1, h2⟩
      exact ⟨by omega, h2⟩
    · rintro ⟨h1, h2⟩
      exact ⟨by omega, h2⟩
  · have hnil : anagrams word s = [] := by
      unfold anagrams
      simp [show s.length > word.length by omega]
    rw [hnil]
    refine ⟨List.sorted_nil, ?_, fun _ => rfl⟩
    intro i
    simp only [List.not_mem_nil, false_iff, not_and]
    intro h1
    omega

end Anagrams

/-! # Pattern search: proofs -/

namespace Patmatch

theorem fastpow_natCast (y : Nat) : ∀ n : Nat, fastpow y (n : Int) = y ^ n % 2 ^ 64 := by
  intro n
  induction n using Nat.strong_induction_on with
  | _ n ih =>
    rw [fastpow]
    by_cases hn : n = 0
    · subst hn
      simp
    · have hne : ¬ (n : Int) = 0 := by omega
      have hnn : ¬ (n : Int) < 0 := by omega
      simp only [hne, hnn, if_false]
      have hdiv : (n : Int) / 2 = ((n / 2 : Nat) : Int) := by omega
      rw [hdiv, ih (n / 2) (by omega)]
      by_cases hpar : n % 2 = 0
      · have hpar' : (n : Int) % 2 = 0 := by omega
        simp only [hpar', if_true]
        have hn2 : n = n / 2 + n / 2 := by omega
        conv_rhs => rw [hn2, pow_add]
        exact (Nat.mul_mod _ _ _).symm
      · have hpar' : ¬ (n : Int) % 2 = 0 := by omega
        simp only [hpar', if_false]
        have hn2 : n = n / 2 + n / 2 + 1 := by omega
        conv_rhs => rw [hn2, pow_succ, pow_add]
        rw [← Nat.mul_mod, Nat.mod_mul_mod]

theorem foldl_mod (M b : Nat) (l : List Nat) :
    ∀ h : Nat, l.foldl (fun hash v => (hash * b + v) % M) (h % M) =
      l.foldl (fun hash v => hash * b + v) h % M := by
  induction l with
  | nil => intro h; rfl
  | cons a l ih =>
    intro h
    simp only [List.foldl_cons]
    rw [← ih (h * b + a)]
    congr 1
    rw [Nat.add_mod, Nat.mul_mod, Nat.mod_mod, ← Nat.mul_mod, ← Nat.add_mod]

theorem hashOf_eq (l : List Nat) : hashOf l = poly l % 2 ^ 64 := by
  unfold hashOf poly
  have := foldl_mod (2 ^ 64) base l 0
  rwa [Nat.zero_mod] at this

theorem foldl_poly (b : Nat) (l : List Nat) :
    ∀ h : Nat, l.foldl (fun hash v => hash * b + v) h =
      h * b ^ l.length + l.foldl (fun hash v => hash * b + v) 0 := by
  induction l with
  | nil => intro h; simp
  | cons a l ih =>
    intro h
    simp only [List.foldl_cons, List.length_cons]
    rw [ih (h * b + a), ih (0 * b + a)]
    ring

theorem poly_cons (a : Nat) (u : List Nat) : poly (a :: u) = a * base ^ u.length + poly u := by
  unfold poly
  simp only [List.foldl_cons]
  rw [foldl_poly]
  ring

theorem poly_append_singleton (u : List Nat) (b : Nat) : poly (u ++ [b]) = poly u * base + b := by
  unfold poly
  simp [List.foldl_append]

/-- Rolling the hash: from the hash of `a :: u` to the hash of `u ++ [b]`. -/
theorem hashOf_roll (a b : Nat) (u : List Nat) :
    ((hashOf (a :: u) + 2 ^ 64 - a * (base ^ u.length % 2 ^ 64) % 2 ^ 64) % 2 ^ 64 * base + b)
      % 2 ^ 64 = hashOf (u ++ [b]) := by
  rw [hashOf_eq, hashOf_eq, poly_cons, poly_append_singleton]
  generalize (2 : Nat) ^ 64 = M at *
  rcases Nat.eq_zero_or_pos M with hM | hM
  · subst hM
    simp only [Nat.mod_zero, Nat.add_zero]
    rw [Nat.add_sub_cancel_left]
  · have hlt : a * (base ^ u.length % M) % M < M := Nat.mod_lt _ hM
    have hA : a * (base ^ u.length % M) % M = a * base ^ u.length % M := by
      rw [Nat.mul_mod, Nat.mod_mod, ← Nat.mul_mod]
    rw [hA] at hlt ⊢
    have key : ((a * base ^ u.length + poly u) % M + M - a * base ^ u.length % M) % M =
        poly u % M := by
      have h1 : ((a * base ^ u.length + poly u) % M + M - a * base ^ u.length % M) +
          a * base ^ u.length % M = (a * base ^ u.length + poly u) % M + M := by omega
      have h2 : Nat.ModEq M
          (((a * base ^ u.length + poly u) % M + M - a * base ^ u.length % M) +
            a * base ^ u.length % M)
          (poly u + a * base ^ u.length % M) := by
        rw [h1]
        unfold Nat.ModEq
        rw [Nat.add_mod_right, Nat.mod_mod]
        conv_rhs => rw [Nat.add_mod, Nat.mod_mod, ← Nat.add_mod]
        rw [Nat.add_comm]
      exact Nat.ModEq.add_right_cancel' _ h2
    rw [Nat.add_mod, Nat.mul_mod, key, Nat.mod_mod]
    conv_rhs => rw [Nat.add_mod, Nat.mul_mod]

theorem getD_eq_getElem (seq : List Nat) (i : Nat) (h : i < seq.length) :
    seq.getD i 0 = seq[i] :=
  List.getD_eq_getElem seq 0 h

theorem window_cons (seq pat : List Nat) (i : Nat) (hpat : 1 ≤ pat.length)
    (h : i < seq.length) :
    window seq pat i = seq.getD i 0 :: (seq.drop (i + 1)).take (pat.length - 1) := by
  unfold window
  obtain ⟨n, hn⟩ : ∃ n, pat.length = n + 1 := ⟨pat.length - 1, by omega⟩
  rw [hn, List.drop_eq_getElem_cons h, List.take_succ_cons, getD_eq_getElem seq i h]
  rfl

theorem window_snoc (seq pat : List Nat) (i : Nat) (hpat : 1 ≤ pat.length)
    (h : i + pat.length ≤ seq.length) :
    window seq pat i =
      (seq.drop i).take (pat.length - 1) ++ [seq.getD (i + pat.length - 1) 0] := by
  unfold window
  obtain ⟨n, hn⟩ : ∃ n, pat.length = n + 1 := ⟨pat.length - 1, by omega⟩
  rw [hn, List.take_succ, List.getElem?_drop, List.getElem?_eq_getElem (by omega),
    getD_eq_getElem seq _ (by omega)]
  rfl

theorem length_window (seq pat : List Nat) (i : Nat) (h : i + pat.length ≤ seq.length) :
    (window seq pat i).length = pat.length := by
  unfold window
  rw [List.length_take, List.length_drop]
  omega

/-- The hash that `rolling_hash` returns in the loop of `patmatch` is the hash
of the window, whether it is rolled on or computed afresh. -/
theorem rolling_hash_window (seq pat : List Nat) (first : Nat) (hpat : 1 ≤ pat.length)
    (hfirst : 1 ≤ first) (h : first + pat.length ≤ seq.length) :
    rolling_hash seq first (first + pat.length) (hashOf (window seq pat (first - 1))) =
      hashOf (window seq pat first) := by
  unfold rolling_hash
  by_cases hprev : hashOf (window seq pat (first - 1)) = 0
  · simp only [hprev, ne_eq, not_true_eq_false, if_false, Nat.add_sub_cancel_left]
    rfl
  · simp only [ne_eq, hprev, not_false_eq_true, if_true]
    have hlen : ((first + pat.length : Nat) : Int) - (first : Int) - 1 =
        ((pat.length - 1 : Nat) : Int) := by omega
    rw [hlen, fastpow_natCast]
    have hw1 := window_cons seq pat (first - 1) hpat (by omega)
    have hf : first - 1 + 1 = first := by omega
    rw [hf] at hw1
    have hw2 := window_snoc seq pat first hpat h
    have hu : ((seq.drop first).take (pat.length - 1)).length = pat.length - 1 := by
      rw [List.length_take, List.length_drop]; omega
    rw [hw1, hw2]
    have := hashOf_roll (seq.getD (first - 1) 0) (seq.getD (first + pat.length - 1) 0)
      ((seq.drop first).take (pat.length - 1))
    rw [hu] at this
    exact this

theorem rolling_hash_scratch (seq pat : List Nat) :
    rolling_hash seq 0 pat.length 0 = hashOf (window seq pat 0) := by
  simp [rolling_hash, hashOf, window]

/-- The loop of `patmatch`, entered at `first` with the hash of the window
before it: it returns the least position from `first` on where the window
equals the pattern, and nothing when there is none. -/
theorem searchLoop_spec (seq pat : List Nat) (hpat : 1 ≤ pat.length) :
    ∀ (n first : Nat), 1 ≤ first → first + n + pat.length = seq.length + 1 →
      (∀ i, searchLoop seq pat (hashOf pat) n first (hashOf (window seq pat (first - 1))) =
          some i ↔
        (first ≤ i ∧ window seq pat i = pat ∧ ∀ j, first ≤ j → j < i → window seq pat j ≠ pat)) ∧
      (searchLoop seq pat (hashOf pat) n first (hashOf (window seq pat (first - 1))) = none ↔
        ∀ j, first ≤ j → window seq pat j ≠ pat) := by
  intro n
  induction n with
  | zero =>
    intro first hfirst hlen
    have hnone : ∀ j, first ≤ j → window seq pat j ≠ pat := by
      intro j hj heq
      have := congrArg List.length heq
      unfold window at this
      rw [List.length_take, List.length_drop] at this
      omega
    simp only [searchLoop]
    refine ⟨?_, by simpa using hnone⟩
    intro i
    constructor
    · intro h
      exact absurd h (by simp)
    · rintro ⟨h1, h2, _⟩
      exact absurd h2 (hnone i h1)
  | succ n ih =>
    intro first hfirst hlen
    have hroll := rolling_hash_window seq pat first hpat hfirst (by omega)
    simp only [searchLoop, hroll]
    by_cases hw : window seq pat first = pat
    · have hcond : hashOf pat = hashOf (window seq pat first) ∧
          (seq.drop first).take pat.length = pat := ⟨by rw [hw], hw⟩
      simp only [hcond, and_self, if_true, Option.some.injEq]
      constructor
      · intro i
        constructor
        · intro hi
          subst hi
          exact ⟨Nat.le_refl _, hw, fun j h1 h2 => by omega⟩
        · rintro ⟨h1, h2, h3⟩
          by_contra hne
          exact h3 first (Nat.le_refl _) (by omega) hw
      · constructor
        · intro h
          exact absurd h (by simp)
        · intro g
          exact absurd hw (g first (Nat.le_refl _))
    · have hcond : ¬ (hashOf pat = hashOf (window seq pat first) ∧
          (seq.drop first).take pat.length = pat) := fun h => hw h.2
      simp only [hcond, if_false]
      have hih := ih (first + 1) (by omega) (by omega)
      simp only [Nat.add_sub_cancel] at hih
      obtain ⟨h1, h2⟩ := hih
      constructor
      · intro i
        rw [h1 i]
        constructor
        · rintro ⟨g1, g2, g3⟩
          refine ⟨by omega, g2, ?_⟩
          intro j hj1 hj2
          by_cases hjf : j = first
          · subst hjf; exact hw
          · exact g3 j (by omega) hj2
        · rintro ⟨g1, g2, g3⟩
          have hne : i ≠ first := fun h => hw (h ▸ g2)
          exact ⟨by omega, g2, fun j hj1 hj2 => g3 j (by omega) hj2⟩
      · rw [h2]
        constructor
        · intro g j hj
          by_cases hjf : j = first
          · subst hjf; exact hw
          · exact g j (by omega)
        · intro g j hj
          exact g j (by omega)

/-- C20. For every sequence and every non-empty pattern, `patmatch` returns
the smallest index `i` such that `sequence[i .. i+|pattern|)` equals the
pattern, and returns no value exactly when the pattern does not occur, as
when the pattern is longer than the sequence.  The result is told by the
sequence and the pattern alone: no hash enters the statement, so a collision
of hashes does not change it. -/
theorem patmatch_first_occurrence (seq pat : List Nat) (hpat : pat ≠ []) :
    (∀ i, patmatch seq pat = some i ↔
      ((seq.drop i).take pat.length = pat ∧
        ∀ j, j < i → (seq.drop j).take pat.length ≠ pat)) ∧
    (patmatch seq pat = none ↔ ∀ j, (seq.drop j).take pat.length ≠ pat) ∧
    (pat.length > seq.length → patmatch seq pat = none) := by
  have hlen : 1 ≤ pat.length := List.length_pos.2 hpat
  have hshort : ∀ j, seq.length < j + pat.length → (seq.drop j).take pat.length ≠ pat := by
    intro j hj heq
    have := congrArg List.length heq
    rw [List.length_take, List.length_drop] at this
    omega
  by_cases hguard : pat.length > seq.length ∨ seq.length < 1
  · have hnone : patmatch seq pat = none := by
      unfold patmatch
      simp only [hguard, if_true]
    have hall : ∀ j, (seq.drop j).take pat.length ≠ pat :=
      fun j => hshort j (by omega)
    rw [hnone]
    refine ⟨?_, ⟨fun _ => hall, fun _ => rfl⟩, fun _ => rfl⟩
    intro i
    constructor
    · intro h
      exact absurd h (by simp)
    · rintro ⟨h1, _⟩
      exact absurd h1 (hall i)
  · have hle : pat.length ≤ seq.length := by omega
    have hpathash : rolling_hash pat 0 pat.length 0 = hashOf pat := by
      rw [rolling_hash_scratch pat pat]
      simp [window]
    have hseqhash := rolling_hash_scratch seq pat
    have hw0 : window seq pat 0 = seq.take pat.length := rfl
    unfold patmatch
    simp only [hguard, if_false, hpathash, hseqhash]
    by_cases h0 : seq.take pat.length = pat
    · have hcond : hashOf pat = hashOf (window seq pat 0) ∧ seq.take pat.length = pat :=
        ⟨by rw [hw0, h0], h0⟩
      simp only [hcond, and_self, if_true, Option.some.injEq]
      refine ⟨?_, ?_, fun h => absurd h (by omega)⟩
      · intro i
        constructor
        · intro hi
          subst hi
          exact ⟨h0, fun j hj => absurd hj (Nat.not_lt_zero j)⟩
        · rintro ⟨_, h2⟩
          by_contra hne
          exact h2 0 (by omega) h0
      · constructor
        · intro h
          exact absurd h (by simp)
        · intro g
          exact absurd h0 (g 0)
    · have hcond : ¬ (hashOf pat = hashOf (window seq pat 0) ∧ seq.take pat.length = pat) :=
        fun h => h0 h.2
      simp only [hcond, if_false]
      obtain ⟨h1, h2⟩ := searchLoop_spec seq pat hlen (seq.length - pat.length) 1
        (Nat.le_refl 1) (by omega)
      simp only [Nat.sub_self] at h1 h2
      refine ⟨?_, ?_, fun h => absurd h (by omega)⟩
      · intro i
        rw [h1 i]
        unfold window
        constructor
        · rintro ⟨g1, g2, g3⟩
          refine ⟨g2, ?_⟩
          intro j hj
          by_cases hj0 : j = 0
          · subst hj0; exact h0
          · exact g3 j (by omega) hj
        · rintro ⟨g1, g2⟩
          have hne : i ≠ 0 := fun h => h0 (by rw [h] at g1; exact g1)
          exact ⟨by omega, g1, fun j _ hj => g2 j hj⟩
      · rw [h2]
        unfold window
        constructor
        · intro g j
          by_cases hj0 : j = 0
          · subst hj0; exact h0
          · exact g j (by omega)
        · intro g j _
          exact g j

theorem patmatch_first_occurrence_witness :
    (∀ i, patmatch [0, 1, 2, 3, 4, 5, 6, 7, 8, 9] [3, 4, 5, 6] = some i ↔
      ((([0, 1, 2, 3, 4, 5, 6, 7, 8, 9] : List Nat).drop i).take 4 = [3, 4, 5, 6] ∧
        ∀ j, j < i → (([0, 1, 2, 3, 4, 5, 6, 7, 8, 9] : List Nat).drop j).take 4 ≠
          [3, 4, 5, 6])) ∧
    (patmatch [0, 1, 2, 3, 4, 5, 6, 7, 8, 9] [3, 4, 5, 6] = none ↔
      ∀ j, (([0, 1, 2, 3, 4, 5, 6, 7, 8, 9] : List Nat).drop j).take 4 ≠ [3, 4, 5, 6]) ∧
    (([3, 4, 5, 6] : List Nat).length > ([0, 1, 2, 3, 4, 5, 6, 7, 8, 9] : List Nat).length →
      patmatch [0, 1, 2, 3, 4, 5, 6, 7, 8, 9] [3, 4, 5, 6] = none) :=
  patmatch_first_occurrence [0, 1, 2, 3, 4, 5, 6, 7, 8, 9] [3, 4, 5, 6] (by decide)

end Patmatch

/-! # Binary indexed tree: proofs -/

namespace BinaryIndexed

theorem lsb_zero : lsb 0 = 0 := by
  rw [lsb]; simp

theorem lsb_odd (j : Nat) : lsb (2 * j + 1) = 1 := by
  rw [lsb]
  have h1 : ¬ 2 * j + 1 = 0 := by omega
  have h2 : (2 * j + 1) % 2 = 1 := by omega
  simp [h1, h2]

theorem lsb_even (j : Nat) (hj : 1 ≤ j) : lsb (2 * j) = 2 * lsb j := by
  rw [lsb]
  have h1 : ¬ 2 * j = 0 := by omega
  have h2 : ¬ (2 * j) % 2 = 1 := by omega
  have h3 : 2 * j / 2 = j := by omega
  simp only [h1, h2, if_false, h3]

theorem lsb_pos : ∀ i : Nat, 1 ≤ i → 1 ≤ lsb i := by
  intro i
  induction i using Nat.strong_induction_on with
  | _ i ih =>
    intro hi
    rcases Nat.even_or_odd' i with ⟨j, hj | hj⟩
    · subst hj
      rw [lsb_even j (by omega)]
      have := ih j (by omega) (by omega)
      omega
    · subst hj
      rw [lsb_odd]

theorem lsb_le : ∀ i : Nat, lsb i ≤ i := by
  intro i
  induction i using Nat.strong_induction_on with
  | _ i ih =>
    rcases Nat.even_or_odd' i with ⟨j, hj | hj⟩
    · subst hj
      by_cases hj0 : j = 0
      · subst hj0; simp [lsb_zero]
      · rw [lsb_even j (by omega)]
        have := ih j (by omega)
        omega
    · subst hj
      rw [lsb_odd]
      omega

theorem land_double (a b : Nat) : (2 * a) &&& (2 * b) = 2 * (a &&& b) := by
  have := Nat.land_bit false a false b
  simpa [Nat.bit_val] using this

theorem land_double_succ (a b : Nat) : (2 * a + 1) &&& (2 * b + 1) = 2 * (a &&& b) + 1 := by
  have := Nat.land_bit true a true b
  simpa [Nat.bit_val] using this

theorem land_succ_double (a b : Nat) : (2 * a + 1) &&& (2 * b) = 2 * (a &&& b) := by
  have := Nat.land_bit true a false b
  simpa [Nat.bit_val] using this

theorem land_double_succ_right (a b : Nat) : (2 * a) &&& (2 * b + 1) = 2 * (a &&& b) := by
  have := Nat.land_bit false a true b
  simpa [Nat.bit_val] using this

/-- Two numbers that add up to `2 ^ w - 1` have no bit in common. -/
theorem land_compl : ∀ (w j m : Nat), j + m + 1 = 2 ^ w → j &&& m = 0 := by
  intro w
  induction w with
  | zero =>
    intro j m h
    have hj : j = 0 := by simp at h; omega
    have hm : m = 0 := by simp at h; omega
    subst hj; subst hm
    rfl
  | succ w ih =>
    intro j m h
    rw [pow_succ] at h
    rcases Nat.even_or_odd' j with ⟨a, ha | ha⟩ <;> rcases Nat.even_or_odd' m with ⟨b, hb | hb⟩
    · omega
    · subst ha; subst hb
      rw [land_double_succ_right, ih a b (by omega)]
    · subst ha; subst hb
      rw [land_succ_double, ih a b (by omega)]
    · omega

/-- On words of `w` bits, `i & (-i)` is the lowest set bit of `i`. -/
theorem land_neg_eq_lsb : ∀ (w i : Nat), i < 2 ^ w → i &&& ((2 ^ w - i) % 2 ^ w) = lsb i := by
  intro w
  induction w with
  | zero =>
    intro i hi
    have : i = 0 := by simp at hi; omega
    subst this
    simp [lsb_zero]
  | succ w ih =>
    intro i hi
    have hpow : 2 ^ (w + 1) = 2 * 2 ^ w := by rw [pow_succ]; omega
    have hpos : 0 < 2 ^ w := Nat.pow_pos (by omega)
    rcases Nat.even_or_odd' i with ⟨j, hj | hj⟩
    · subst hj
      by_cases hj0 : j = 0
      · subst hj0
        simp [lsb_zero]
      · have hjlt : j < 2 ^ w := by omega
        have h1 : (2 ^ (w + 1) - 2 * j) % 2 ^ (w + 1) = 2 * (2 ^ w - j) := by
          rw [Nat.mod_eq_of_lt (by omega)]
          omega
        have h2 : (2 ^ w - j) % 2 ^ w = 2 ^ w - j := Nat.mod_eq_of_lt (by omega)
        rw [h1, land_double, lsb_even j (by omega), ← ih j hjlt, h2]
    · subst hj
      have hjlt : j < 2 ^ w := by omega
      have h1 : (2 ^ (w + 1) - (2 * j + 1)) % 2 ^ (w + 1) = 2 * (2 ^ w - 1 - j) + 1 := by
        rw [Nat.mod_eq_of_lt (by omega)]
        omega
      rw [h1, land_double_succ, lsb_odd, land_compl w j (2 ^ w - 1 - j) (by omega)]

theorem lowbit_eq_lsb (i : Nat) (hi : i < 2 ^ 64) : lowbit i = lsb i :=
  land_neg_eq_lsb 64 i hi

/-- The bins at and above `t` that hold the sample `t` are those that hold
the next index of the walk of `add`. -/
theorem covers_next : ∀ (i t : Nat), 1 ≤ t → t < i →
    (i - lsb i < t ↔ (t + lsb t ≤ i ∧ i - lsb i < t + lsb t)) := by
  intro i
  induction i using Nat.strong_induction_on with
  | _ i ih =>
    intro t ht hti
    have hli := lsb_le i
    have hlt := lsb_le t
    rcases Nat.even_or_odd' t with ⟨a, ha | ha⟩ <;> rcases Nat.even_or_odd' i with ⟨b, hb | hb⟩
    · subst ha; subst hb
      rw [lsb_even a (by omega), lsb_even b (by omega)]
      have := ih b (by omega) a (by omega) (by omega)
      have hlb := lsb_le b
      have hla := lsb_le a
      omega
    · subst ha; subst hb
      rw [lsb_even a (by omega), lsb_odd]
      omega
    · subst ha; subst hb
      rw [lsb_even b (by omega), lsb_odd]
      have hlb := lsb_le b
      omega
    · subst ha; subst hb
      rw [lsb_odd, lsb_odd]
      omega

section Tree

variable {G : Type} [AddCommGroup G]

theorem sumIn_cons (t : Nat) (x : G) (ops : List (Nat × G)) (lo hi : Nat) :
    sumIn ((t, x) :: ops) lo hi = (if lo < t ∧ t ≤ hi then x else 0) + sumIn ops lo hi := by
  unfold sumIn
  by_cases h : lo < t ∧ t ≤ hi
  · simp [List.filter_cons, h]
  · simp [List.filter_cons, h]

theorem sumIn_append_singleton (t : Nat) (x : G) (ops : List (Nat × G)) (lo hi : Nat) :
    sumIn (ops ++ [(t, x)]) lo hi = sumIn ops lo hi + (if lo < t ∧ t ≤ hi then x else 0) := by
  induction ops with
  | nil =>
    rw [List.nil_append, sumIn_cons]
    simp [sumIn]
  | cons op ops ih =>
    obtain ⟨t', x'⟩ := op
    rw [List.cons_append, sumIn_cons, sumIn_cons, ih]
    abel

theorem sumIn_add (ops : List (Nat × G)) (lo mid hi : Nat) (h1 : lo ≤ mid) (h2 : mid ≤ hi) :
    sumIn ops lo mid + sumIn ops mid hi = sumIn ops lo hi := by
  induction ops with
  | nil => simp [sumIn]
  | cons op ops ih =>
    obtain ⟨t, x⟩ := op
    rw [sumIn_cons, sumIn_cons, sumIn_cons, ← ih]
    by_cases ha : lo < t ∧ t ≤ mid
    · have hb : ¬ (mid < t ∧ t ≤ hi) := by omega
      have hc : lo < t ∧ t ≤ hi := by omega
      rw [if_pos ha, if_neg hb, if_pos hc]
      abel
    · by_cases hb : mid < t ∧ t ≤ hi
      · have hc : lo < t ∧ t ≤ hi := by omega
        rw [if_neg ha, if_pos hb, if_pos hc]
        abel
      · have hc : ¬ (lo < t ∧ t ≤ hi) := by omega
        rw [if_neg ha, if_neg hb, if_neg hc]
        abel

theorem sumIn_self (ops : List (Nat × G)) (lo : Nat) : sumIn ops lo lo = 0 := by
  have := sumIn_add ops lo lo lo (Nat.le_refl _) (Nat.le_refl _)
  exact add_left_cancel (a := sumIn ops lo lo) (by rw [this, add_zero])

/-- The walk of `add` from `ind`: it adds `x` to the bins `i ≥ ind` that hold
the sample `ind`, and to no other bin. -/
theorem addLoop_spec (n : Nat) (hn : n < 2 ^ 63) (x : G) :
    ∀ (fuel ind : Nat) (tree : List G), tree.length = n + 1 → 1 ≤ ind → 1 ≤ fuel →
      n + 2 ≤ fuel + ind →
      ∃ tree', addLoop x fuel ind tree = .done tree' ∧ tree'.length = n + 1 ∧
        ∀ i, i ≤ n → tree'[i]? =
          (tree[i]?).map (fun v => v + if i - lsb i < ind ∧ ind ≤ i then x else 0) := by
  intro fuel
  induction fuel with
  | zero => intro _ _ _ _ h; omega
  | succ fuel ih =>
    intro ind tree hlen hind _ hfuel
    by_cases hle : ind ≤ n
    · have hlt : ind < tree.length := by omega
      have h64 : ind < 2 ^ 64 := by
        have : (2 : Nat) ^ 64 = 2 * 2 ^ 63 := by norm_num
        omega
      have hlsb := lsb_le ind
      have hpos := lsb_pos ind hind
      have hnext : (ind + lowbit ind) % 2 ^ 64 = ind + lsb ind := by
        rw [lowbit_eq_lsb ind h64]
        apply Nat.mod_eq_of_lt
        have : (2 : Nat) ^ 64 = 2 * 2 ^ 63 := by norm_num
        omega
      obtain ⟨tree', hrun, hlen', hget⟩ := ih (ind + lsb ind) (tree.set ind (tree[ind] + x))
        (by rw [List.length_set]; exact hlen) (by omega) (by omega) (by omega)
      refine ⟨tree', ?_, hlen', ?_⟩
      · simp only [addLoop, List.getElem?_eq_getElem hlt, hnext]
        exact hrun
      · intro i hi
        rw [hget i hi]
        by_cases hii : i = ind
        · subst hii
          have h1 : ¬ (i - lsb i < i + lsb i ∧ i + lsb i ≤ i) := by omega
          have h2 : i - lsb i < i ∧ i ≤ i := by omega
          rw [List.getElem?_set_self hlt, List.getElem?_eq_getElem hlt]
          simp only [Option.map_some', h1, h2, and_self, if_true, if_false, add_zero]
        · rw [List.getElem?_set_ne (Ne.symm hii)]
          have hiff : (i - lsb i < ind + lsb ind ∧ ind + lsb ind ≤ i) ↔
              (i - lsb i < ind ∧ ind ≤ i) := by
            by_cases hlt' : i < ind
            · constructor
              · intro h; omega
              · intro h; omega
            · have := covers_next i ind hind (by omega)
              constructor
              · rintro ⟨g1, g2⟩
                exact ⟨this.2 ⟨g2, g1⟩, by omega⟩
              · rintro ⟨g1, _⟩
                exact ⟨(this.1 g1).2, (this.1 g1).1⟩
          by_cases hc : i - lsb i < ind ∧ ind ≤ i
          · rw [if_pos (hiff.2 hc), if_pos hc]
          · rw [if_neg (fun h => hc (hiff.1 h)), if_neg hc]
    · have hnone : tree[ind]? = none := List.getElem?_eq_none (by omega)
      refine ⟨tree, by simp only [addLoop, hnone], hlen, ?_⟩
      intro i hi
      have hc : ¬ (i - lsb i < ind ∧ ind ≤ i) := by omega
      simp only [hc, if_false, add_zero]
      cases tree[i]? <;> rfl

/-- One call `add(t, x)` with `1 ≤ t ≤ n` keeps the invariant, for the calls
so far and this one. -/
theorem add_inv (n : Nat) (hn : n < 2 ^ 63) (tree : List G) (ops : List (Nat × G))
    (hI : Inv tree ops n) (t : Nat) (x : G) (ht : 1 ≤ t) (htn : t ≤ n) :
    ∃ tree', add tree t x = .done tree' ∧ Inv tree' (ops ++ [(t, x)]) n := by
  obtain ⟨hlen, hbins⟩ := hI
  obtain ⟨tree', hrun, hlen', hget⟩ := addLoop_spec n hn x tree.length t tree hlen ht
    (by omega) (by omega)
  refine ⟨tree', ?_, hlen', ?_⟩
  · unfold add
    simp only [show t > 0 from ht, if_true]
    exact hrun
  · intro i hi1 hi2
    have h64 : i < 2 ^ 64 := by
      have : (2 : Nat) ^ 64 = 2 * 2 ^ 63 := by norm_num
      omega
    have hlow : i &&& ((2 ^ 64 - i) % 2 ^ 64) = lsb i := lowbit_eq_lsb i h64
    rw [hget i hi2, hbins i hi1 hi2, hlow, sumIn_append_singleton]
    rfl

/-- A sequence of calls with `1 ≤ t ≤ n` keeps the invariant. -/
theorem addAll_inv (n : Nat) (hn : n < 2 ^ 63) :
    ∀ (rest : List (Nat × G)) (tree : List G) (ops : List (Nat × G)), Inv tree ops n →
      (∀ op ∈ rest, 1 ≤ op.1 ∧ op.1 ≤ n) →
      ∃ tree', addAll tree rest = .done tree' ∧ Inv tree' (ops ++ rest) n := by
  intro rest
  induction rest with
  | nil =>
    intro tree ops hI _
    exact ⟨tree, rfl, by rw [List.append_nil]; exact hI⟩
  | cons op rest ih =>
    intro tree ops hI hops
    obtain ⟨t, x⟩ := op
    have ht := hops (t, x) (List.mem_cons_self _ _)
    obtain ⟨tree1, hadd, hI1⟩ := add_inv n hn tree ops hI t x ht.1 ht.2
    obtain ⟨tree', hrun, hI'⟩ := ih tree1 (ops ++ [(t, x)]) hI1
      (fun op hop => hops op (List.mem_cons_of_mem _ hop))
    refine ⟨tree', ?_, ?_⟩
    · simp only [addAll, hadd]
      exact hrun
    · rw [List.append_assoc, List.singleton_append] at hI'
      exact hI'

theorem new_inv (n : Nat) (hn : n < 2 ^ 63) : Inv (new n : List G) [] n := by
  have hmod : (n + 1) % 2 ^ 64 = n + 1 := by
    apply Nat.mod_eq_of_lt
    have : (2 : Nat) ^ 64 = 2 * 2 ^ 63 := by norm_num
    omega
  unfold new
  rw [hmod]
  refine ⟨by simp, ?_⟩
  intro i _ hi
  simp [sumIn, List.getElem?_replicate, show i < n + 1 by omega]

/-- The walk of `cumsum` down from `ind` adds up the samples `1 .. ind`. -/
theorem prefixLoop_spec (n : Nat) (hn : n < 2 ^ 63) (tree : List G) (ops : List (Nat × G))
    (hI : Inv tree ops n) :
    ∀ (fuel ind : Nat) (sum : G), ind ≤ n → ind < fuel →
      prefixLoop tree fuel ind sum = .done (sum + sumIn ops 0 ind) := by
  intro fuel
  induction fuel with
  | zero => intro _ _ _ h; omega
  | succ fuel ih =>
    intro ind sum hle hfuel
    by_cases h0 : ind = 0
    · subst h0
      simp [prefixLoop, sumIn_self]
    · have h64 : ind < 2 ^ 64 := by
        have : (2 : Nat) ^ 64 = 2 * 2 ^ 63 := by norm_num
        omega
      have hlow : ind &&& ((2 ^ 64 - ind) % 2 ^ 64) = lsb ind := lowbit_eq_lsb ind h64
      have hbin := hI.2 ind (by omega) hle
      rw [hlow] at hbin
      have hlsb := lsb_le ind
      have hpos := lsb_pos ind (by omega)
      simp only [prefixLoop, show ind > 0 by omega, if_true, hbin, lowbit_eq_lsb ind h64]
      rw [ih (ind - lsb ind) _ (by omega) (by omega), add_assoc, add_comm (sumIn ops _ ind),
        sumIn_add ops 0 (ind - lsb ind) ind (by omega) (by omega)]

theorem sumIn_eq_filter (ops : List (Nat × G)) (t0 t1 : Nat) (h0 : 1 ≤ t0) :
    sumIn ops (t0 - 1) t1 =
      ((ops.filter (fun op => decide (t0 ≤ op.1 ∧ op.1 ≤ t1))).map Prod.snd).sum := by
  unfold sumIn
  congr 2
  apply List.filter_congr
  intro op _
  have : (t0 - 1 < op.1 ∧ op.1 ≤ t1) ↔ (t0 ≤ op.1 ∧ op.1 ≤ t1) := by omega
  simp only [this]

theorem cumsum_spec (n : Nat) (hn : n < 2 ^ 63) (tree : List G) (ops : List (Nat × G))
    (hI : Inv tree ops n) (t0 t1 : Nat) (h0 : 1 ≤ t0) (h01 : t0 ≤ t1) (h1 : t1 ≤ n) :
    cumsum tree t0 t1 =
      .done (((ops.filter (fun op => decide (t0 ≤ op.1 ∧ op.1 ≤ t1))).map Prod.snd).sum) := by
  have hfrom : ∀ t, 1 ≤ t → t ≤ n → cumsumFromOne tree t = .done (sumIn ops 0 t) := by
    intro t ht htn
    unfold cumsumFromOne
    simp only [show t ≥ 1 from ht, if_true]
    rw [prefixLoop_spec n hn tree ops hI (t + 1) t 0 htn (by omega), zero_add]
  unfold cumsum
  simp only [show t0 > 0 from h0, show t1 ≥ t0 from h01, if_true]
  by_cases ht0 : t0 = 1
  · subst ht0
    simp only [ne_eq, not_true_eq_false, if_false]
    rw [hfrom t1 (by omega) h1, ← sumIn_eq_filter ops 1 t1 (Nat.le_refl 1)]
  · simp only [ne_eq, ht0, not_false_eq_true, if_true]
    rw [hfrom t1 (by omega) h1, hfrom (t0 - 1) (by omega) (by omega)]
    simp only
    rw [← sumIn_eq_filter ops t0 t1 h0,
      ← sumIn_add ops 0 (t0 - 1) t1 (by omega) (by omega)]
    congr 1
    abel

/-- At `n = 2 ^ 64 - 1` the size `n+1` of the vector wraps to 0: no bin
exists, and `cumsum(1, 1)` reads outside the vector. -/
theorem cumsum_size_max :
    (new (2 ^ 64 - 1) : List Int) = [] ∧
      cumsum (new (2 ^ 64 - 1) : List Int) 1 1 = .outOfRange := by
  have h : (new (2 ^ 64 - 1) : List Int) = [] := by
    unfold new
    norm_num
  rw [h]
  exact ⟨rfl, rfl⟩

end Tree

section Claims

/-- C19. For a tree of size `n` (its vector holds `n + 1` bins, so
`n < 2 ^ 63`) and any sequence `ops` of calls `add(t_i, x_i)` with
`1 ≤ t_i ≤ n`, every call returns and then, for all `1 ≤ t0 ≤ t1 ≤ n`,
`cumsum(t0, t1)` returns the sum of the `x_i` over the calls with
`t0 ≤ t_i ≤ t1`; a later `add(t, x)` with `1 ≤ t ≤ n` returns and raises
`cumsum(1, t1)` by `x` exactly when `t1 ≥ t`. -/
theorem cumsum_eq_sum_of_adds {G : Type} [AddCommGroup G] (n : Nat) (hn : n < 2 ^ 63)
    (ops : List (Nat × G)) (hops : ∀ op ∈ ops, 1 ≤ op.1 ∧ op.1 ≤ n) :
    ∃ tree : List G, addAll (new n) ops = .done tree ∧
      (∀ t0 t1, 1 ≤ t0 → t0 ≤ t1 → t1 ≤ n →
        cumsum tree t0 t1 = .done
          (((ops.filter (fun op => decide (t0 ≤ op.1 ∧ op.1 ≤ t1))).map Prod.snd).sum)) ∧
      (∀ (t : Nat) (x : G), 1 ≤ t → t ≤ n →
        ∃ tree' : List G, add tree t x = .done tree' ∧
          ∀ t1, 1 ≤ t1 → t1 ≤ n →
            ∃ s : G, cumsum tree 1 t1 = .done s ∧
              cumsum tree' 1 t1 = .done (s + if t ≤ t1 then x else 0)) := by
  obtain ⟨tree, hrun, hI⟩ := addAll_inv n hn ops (new n) [] (new_inv n hn) hops
  rw [List.nil_append] at hI
  refine ⟨tree, hrun, ?_, ?_⟩
  · intro t0 t1 h0 h01 h1
    exact cumsum_spec n hn tree ops hI t0 t1 h0 h01 h1
  · intro t x ht htn
    obtain ⟨tree', hadd, hI'⟩ := add_inv n hn tree ops hI t x ht htn
    refine ⟨tree', hadd, ?_⟩
    intro t1 h1 h1n
    refine ⟨_, cumsum_spec n hn tree ops hI 1 t1 (Nat.le_refl 1) h1 h1n, ?_⟩
    rw [cumsum_spec n hn tree' _ hI' 1 t1 (Nat.le_refl 1) h1 h1n,
      ← sumIn_eq_filter _ 1 t1 (Nat.le_refl 1), ← sumIn_eq_filter _ 1 t1 (Nat.le_refl 1),
      sumIn_append_singleton]
    have hiff : (1 - 1 < t ∧ t ≤ t1) ↔ t ≤ t1 := by omega
    by_cases hc : t ≤ t1
    · rw [if_pos (hiff.2 hc), if_pos hc]
    · rw [if_neg (fun h => hc (hiff.1 h)), if_neg hc]

theorem cumsum_eq_sum_of_adds_witness :
    ∃ tree : List Int,
      addAll (new 14) [(1, 1), (2, 7), (3, 3), (4, 0), (5, 5), (6, 8), (7, 3), (8, 2),
        (9, 6), (10, 2), (11, 1), (12, 1), (13, 4), (14, 5)] = .done tree ∧
      (∀ t0 t1, 1 ≤ t0 → t0 ≤ t1 → t1 ≤ 14 →
        cumsum tree t0 t1 = .done
          (((([(1, 1), (2, 7), (3, 3), (4, 0), (5, 5), (6, 8), (7, 3), (8, 2),
            (9, 6), (10, 2), (11, 1), (12, 1), (13, 4), (14, 5)] : List (Nat × Int)).filter
              (fun op => decide (t0 ≤ op.1 ∧ op.1 ≤ t1))).map Prod.snd).sum)) ∧
      (∀ (t : Nat) (x : Int), 1 ≤ t → t ≤ 14 →
        ∃ tree' : List Int, add tree t x = .done tree' ∧
          ∀ t1, 1 ≤ t1 → t1 ≤ 14 →
            ∃ s : Int, cumsum tree 1 t1 = .done s ∧
              cumsum tree' 1 t1 = .done (s + if t ≤ t1 then x else 0)) :=
  cumsum_eq_sum_of_adds 14 (by norm_num)
    [(1, 1), (2, 7), (3, 3), (4, 0), (5, 5), (6, 8), (7, 3), (8, 2),
      (9, 6), (10, 2), (11, 1), (12, 1), (13, 4), (14, 5)] (by decide)

end Claims

end BinaryIndexed

/-! # Step words: proofs -/

namespace Stepword

section Words

theorem countDiff_eq_one : ∀ (s1 s2 : List Char) (c : Nat), c ≤ 1 →
    (countDiff s1 s2 c = 1 ↔ c + distance s1 s2 = 1) := by
  intro s1
  induction s1 with
  | nil => intro s2 c _; simp [countDiff, distance]
  | cons c1 s1 ih =>
    intro s2 c hc
    cases s2 with
    | nil => simp [countDiff, distance]
    | cons c2 s2 =>
      by_cases h : c1 = c2
      · simp only [countDiff, distance, h, ne_eq, not_true_eq_false, if_false, Nat.zero_add]
        exact ih s2 c hc
      · simp only [countDiff, distance, h, ne_eq, not_false_eq_true, if_true]
        by_cases hc1 : c + 1 > 1
        · simp only [hc1, if_true]
          omega
        · simp only [hc1, if_false]
          rw [ih s2 (c + 1) (by omega)]
          omega

theorem distance_eq_zero : ∀ (s1 s2 : List Char), s1.length = s2.length →
    (distance s1 s2 = 0 ↔ s1 = s2) := by
  intro s1
  induction s1 with
  | nil =>
    intro s2 h
    cases s2 with
    | nil => simp [distance]
    | cons _ _ => simp at h
  | cons c1 s1 ih =>
    intro s2 h
    cases s2 with
    | nil => simp at h
    | cons c2 s2 =>
      have hl : s1.length = s2.length := by simpa using h
      by_cases hc : c1 = c2
      · simp [distance, hc, ih s2 hl]
      · simp [distance, hc]

theorem distance_eq_one : ∀ (s1 s2 : List Char), s1.length = s2.length →
    (distance s1 s2 = 1 ↔ ∃ i : Nat, s1[i]? ≠ s2[i]? ∧ ∀ j : Nat, j ≠ i → s1[j]? = s2[j]?) := by
  intro s1
  induction s1 with
  | nil =>
    intro s2 h
    cases s2 with
    | nil => simp [distance]
    | cons _ _ => simp at h
  | cons c1 s1 ih =>
    intro s2 h
    cases s2 with
    | nil => simp at h
    | cons c2 s2 =>
      have hl : s1.length = s2.length := by simpa using h
      by_cases hc : c1 = c2
      · subst hc
        simp only [distance, ne_eq, not_true_eq_false, if_false, Nat.zero_add]
        rw [ih s2 hl]
        constructor
        · rintro ⟨i, hi, hj⟩
          refine ⟨i + 1, by simpa using hi, ?_⟩
          intro j hji
          cases j with
          | zero => simp
          | succ j => simpa using hj j (by omega)
        · rintro ⟨i, hi, hj⟩
          cases i with
          | zero => simp at hi
          | succ i =>
            refine ⟨i, by simpa using hi, ?_⟩
            intro j hji
            simpa using hj (j + 1) (by omega)
      · simp only [distance, hc, ne_eq, not_false_eq_true, if_true]
        constructor
        · intro hd
          have h0 : distance s1 s2 = 0 := by omega
          have heq := (distance_eq_zero s1 s2 hl).1 h0
          subst heq
          refine ⟨0, by simpa using hc, ?_⟩
          intro j hj
          cases j with
          | zero => exact absurd rfl hj
          | succ j => simp
        · rintro ⟨i, hi, hj⟩
          cases i with
          | zero =>
            have heq : s1 = s2 := by
              apply List.ext_getElem?
              intro n
              simpa using hj (n + 1) (by omega)
            have := (distance_eq_zero s1 s2 hl).2 heq
            omega
          | succ i =>
            have := hj 0 (by omega)
            simp at this
            exact absurd this hc

/-- The lambda `is_one_character_different` decides whether the two words
have equal length and differ in exactly one position. -/
theorem is_one_character_different_iff (s1 s2 : List Char) :
    is_one_character_different s1 s2 = true ↔ OneCharApart s1 s2 := by
  unfold is_one_character_different OneCharApart
  by_cases h : s1.length = s2.length
  · simp only [h, ne_eq, not_true_eq_false, if_false, beq_iff_eq, true_and]
    rw [countDiff_eq_one s1 s2 0 (by omega), Nat.zero_add]
    exact distance_eq_one s1 s2 h
  · simp [h]

end Words

section Loop

theorem visitNext_eq (vs : List Char → Option VisitState) (word : List Char)
    (st : (List Char → Option (List Char)) × List (List Char)) (x : List Char) :
    visitNext vs word st x =
      if fresh vs word x = true then (assign st.1 x word, st.2 ++ [x]) else st := by
  unfold visitNext fresh
  by_cases h1 : vs x = some VisitState.Visited
  · simp [h1]
  · by_cases h2 : is_one_character_different word x = true
    · simp [h1, h2]
    · simp [h1, h2]

/-- The loop over `valid_words` in closed form. -/
theorem foldl_visitNext (vs : List Char → Option VisitState) (word : List Char) :
    ∀ (valid_words : List (List Char)) (parents : List Char → Option (List Char))
      (queue : List (List Char)),
      (valid_words.foldl (visitNext vs word) (parents, queue)).2 =
          queue ++ valid_words.filter (fresh vs word) ∧
        ∀ x, (valid_words.foldl (visitNext vs word) (parents, queue)).1 x =
          if x ∈ valid_words ∧ fresh vs word x = true then some word else parents x := by
  intro valid_words
  induction valid_words with
  | nil => intro parents queue; simp
  | cons v vw ih =>
    intro parents queue
    rw [List.foldl_cons, visitNext_eq]
    by_cases hv : fresh vs word v = true
    · rw [if_pos hv]
      obtain ⟨h1, h2⟩ := ih (assign parents v word) (queue ++ [v])
      refine ⟨by rw [h1, List.filter_cons, if_pos hv]; simp, ?_⟩
      intro x
      rw [h2 x]
      by_cases hx : x ∈ vw ∧ fresh vs word x = true
      · rw [if_pos hx, if_pos ⟨List.mem_cons_of_mem _ hx.1, hx.2⟩]
      · rw [if_neg hx]
        unfold assign
        by_cases hxv : x = v
        · subst hxv
          rw [if_pos rfl, if_pos ⟨List.mem_cons_self _ _, hv⟩]
        · rw [if_neg hxv, if_neg]
          rintro ⟨hm, hf⟩
          rcases List.mem_cons.1 hm with h | h
          · exact hxv h
          · exact hx ⟨h, hf⟩
    · rw [if_neg hv]
      obtain ⟨h1, h2⟩ := ih parents queue
      refine ⟨by rw [h1, List.filter_cons, if_neg hv], ?_⟩
      intro x
      rw [h2 x]
      by_cases hx : x ∈ vw ∧ fresh vs word x = true
      · rw [if_pos hx, if_pos ⟨List.mem_cons_of_mem _ hx.1, hx.2⟩]
      · rw [if_neg hx, if_neg]
        rintro ⟨hm, hf⟩
        rcases List.mem_cons.1 hm with h | h
        · subst h
          exact hv hf
        · exact hx ⟨h, hf⟩

theorem visit_queue (valid_words : List (List Char)) (s : Search) (word : List Char)
    (rest : List (List Char)) :
    (visit valid_words s word rest).nodes_to_visit =
      rest ++ valid_words.filter (fresh (assign s.visit_states word VisitState.Visited) word) :=
  (foldl_visitNext _ word valid_words s.parents rest).1

theorem visit_parents (valid_words : List (List Char)) (s : Search) (word : List Char)
    (rest : List (List Char)) (x : List Char) :
    (visit valid_words s word rest).parents x =
      if x ∈ valid_words ∧ fresh (assign s.visit_states word VisitState.Visited) word x = true
      then some word else s.parents x :=
  (foldl_visitNext _ word valid_words s.parents rest).2 x

theorem visit_states_eq (valid_words : List (List Char)) (s : Search) (word : List Char)
    (rest : List (List Char)) :
    (visit valid_words s word rest).visit_states =
      assign s.visit_states word VisitState.Visited := rfl

theorem visited_assign (vs : List Char → Option VisitState) (word w : List Char) :
    Visited (assign vs word VisitState.Visited) w ↔ Visited vs w ∨ w = word := by
  unfold Visited assign
  by_cases h : w = word
  · simp [h]
  · simp [h]

theorem fresh_iff (vs : List Char → Option VisitState) (word x : List Char) :
    fresh vs word x = true ↔ ¬ Visited vs x ∧ is_one_character_different word x = true := by
  unfold fresh Visited
  simp

end Loop

section Invariant

variable {valid_words : List (List Char)} {start : List Char}

theorem back_transfer {p p' : List Char → Option (List Char)}
    {vs vs' : List Char → Option VisitState} {w : List Char} {c : List (List Char)}
    (hb : Back valid_words start p vs w c) (hw : p' w = p w)
    (hp : ∀ x, Visited vs x → p' x = p x) (hv : ∀ x, Visited vs x → Visited vs' x) :
    Back valid_words start p' vs' w c := by
  induction hb with
  | root h => exact Back.root (by rw [hw]; exact h)
  | link w v c hne hpar hmem hadj hvis _ ih =>
    exact Back.link w v c hne (by rw [hw]; exact hpar) hmem hadj (hv v hvis) (ih (hp v hvis))

theorem inv_init (valid_words : List (List Char)) (start : List Char) :
    Inv valid_words start (init start) := by
  have hroot : (init start).parents start = some start := by simp [init, assign]
  have honly : ∀ w, (init start).parents w ≠ none → w = start := by
    intro w hw
    by_contra hne
    exact hw (by simp [init, assign, hne])
  refine ⟨hroot, ?_, ?_, Or.inr ⟨[], rfl⟩, ?_, ?_, ?_⟩
  · intro w hw
    rw [honly w hw]
    exact ⟨[start], Back.root hroot⟩
  · intro w hw
    have : w = start := by simpa [init] using hw
    rw [this, hroot]
    simp
  · intro w hw
    right
    rw [honly w hw]
    simp [init]
  · intro v hv
    simp [Visited, init] at hv
  · intro w hw
    simp [Visited, init] at hw

theorem inv_visit {s : Search} {word : List Char} {rest : List (List Char)}
    (hI : Inv valid_words start s) (hq : s.nodes_to_visit = word :: rest) :
    Inv valid_words start (visit valid_words s word rest) := by
  have hvs := visit_states_eq valid_words s word rest
  have hpar := visit_parents valid_words s word rest
  have hqueue := visit_queue valid_words s word rest
  have hword : s.parents word ≠ none := hI.queued word (by rw [hq]; exact List.mem_cons_self _ _)
  have hstart : Visited (assign s.visit_states word VisitState.Visited) start := by
    rw [visited_assign]
    rcases hI.first with h | ⟨r, hr⟩
    · exact Or.inl h
    · rw [hq] at hr
      exact Or.inr (List.cons.inj hr).1.symm
  -- the parents of a visited word are left alone
  have hkeep : ∀ x, Visited (assign s.visit_states word VisitState.Visited) x →
      (visit valid_words s word rest).parents x = s.parents x := by
    intro x hx
    rw [hpar x, if_neg]
    rintro ⟨_, hf⟩
    exact ((fresh_iff _ _ _).1 hf).1 hx
  have hmono : ∀ x, s.parents x ≠ none → (visit valid_words s word rest).parents x ≠ none := by
    intro x hx
    rw [hpar x]
    by_cases hc : x ∈ valid_words ∧
        fresh (assign s.visit_states word VisitState.Visited) word x = true
    · rw [if_pos hc]; simp
    · rw [if_neg hc]; exact hx
  have hold : ∀ x, Visited s.visit_states x →
      Visited (assign s.visit_states word VisitState.Visited) x :=
    fun x hx => (visited_assign _ _ _).2 (Or.inl hx)
  have hseen : ∀ w, Visited (assign s.visit_states word VisitState.Visited) w →
      (visit valid_words s word rest).parents w ≠ none := by
    intro w hw
    rcases (visited_assign _ _ _).1 hw with h | h
    · exact hmono w (hI.seen w h)
    · rw [h]; exact hmono word hword
  refine ⟨?_, ?_, ?_, ?_, ?_, ?_, ?_⟩
  · rw [hkeep start hstart]
    exact hI.root
  · intro w hw
    rw [hvs]
    by_cases hc : w ∈ valid_words ∧
        fresh (assign s.visit_states word VisitState.Visited) word w = true
    · obtain ⟨c, hc'⟩ := hI.back word hword
      have hf := (fresh_iff _ _ _).1 hc.2
      have hwne : w ≠ start := fun h => hf.1 (h ▸ hstart)
      have hwordvis : Visited (assign s.visit_states word VisitState.Visited) word :=
        (visited_assign _ _ _).2 (Or.inr rfl)
      refine ⟨w :: c, Back.link w word c hwne (by rw [hpar w, if_pos hc]) hc.1 hf.2 hwordvis ?_⟩
      exact back_transfer hc' (hkeep word hwordvis) (fun x hx => hkeep x (hold x hx)) hold
    · have hsame : (visit valid_words s word rest).parents w = s.parents w := by
        rw [hpar w, if_neg hc]
      obtain ⟨c, hc'⟩ := hI.back w (by rw [← hsame]; exact hw)
      exact ⟨c, back_transfer hc' hsame (fun x hx => hkeep x (hold x hx)) hold⟩
  · intro w hw
    rw [hqueue, List.mem_append] at hw
    rcases hw with h | h
    · exact hmono w (hI.queued w (by rw [hq]; exact List.mem_cons_of_mem _ h))
    · rw [List.mem_filter] at h
      rw [hpar w, if_pos h]
      simp
  · left
    rw [hvs]
    exact hstart
  · intro w hw
    rw [hvs, hqueue]
    by_cases hc : w ∈ valid_words ∧
        fresh (assign s.visit_states word VisitState.Visited) word w = true
    · right
      exact List.mem_append.2 (Or.inr (List.mem_filter.2 hc))
    · rw [hpar w, if_neg hc] at hw
      rcases hI.known w hw with h | h
      · exact Or.inl (hold w h)
      · rw [hq] at h
        rcases List.mem_cons.1 h with h | h
        · exact Or.inl ((visited_assign _ _ _).2 (Or.inr h))
        · exact Or.inr (List.mem_append.2 (Or.inl h))
  · intro v hv x hx hadj
    rw [hvs] at hv
    rcases (visited_assign _ _ _).1 hv with h | h
    · exact hmono x (hI.closed v h x hx hadj)
    · subst h
      by_cases hxv : Visited (assign s.visit_states v VisitState.Visited) x
      · exact hseen x hxv
      · rw [hpar x, if_pos ⟨hx, (fresh_iff _ _ _).2 ⟨hxv, hadj⟩⟩]
        simp
  · intro w hw
    rw [hvs] at hw
    exact hseen w hw

end Invariant

section Termination

variable {valid_words : List (List Char)} {start : List Char}

theorem unvisited_visit_subset (valid_words : List (List Char)) (s : Search) (word : List Char)
    (rest : List (List Char))
    (hq : s.nodes_to_visit = word :: rest) :
    unvisited valid_words (visit valid_words s word rest) ⊆ unvisited valid_words s := by
  intro w hw
  unfold unvisited at hw ⊢
  rw [Finset.mem_filter, List.mem_toFinset] at hw ⊢
  rw [visit_queue, visit_states_eq] at hw
  obtain ⟨hmem, hnv⟩ := hw
  constructor
  · rw [hq]
    simp only [List.mem_append, List.mem_cons, List.mem_filter] at hmem ⊢
    tauto
  · intro h
    exact hnv ((visited_assign _ _ _).2 (Or.inl h))

theorem unvisited_visit_lt (valid_words : List (List Char)) (s : Search) (word : List Char)
    (rest : List (List Char))
    (hq : s.nodes_to_visit = word :: rest) (hword : ¬ Visited s.visit_states word) :
    (unvisited valid_words (visit valid_words s word rest)).card <
      (unvisited valid_words s).card := by
  apply Finset.card_lt_card
  rw [Finset.ssubset_iff_of_subset (unvisited_visit_subset valid_words s word rest hq)]
  refine ⟨word, ?_, ?_⟩
  · unfold unvisited
    rw [Finset.mem_filter, List.mem_toFinset, hq]
    exact ⟨by simp, hword⟩
  · unfold unvisited
    rw [Finset.mem_filter, visit_states_eq]
    rintro ⟨_, hnv⟩
    exact hnv ((visited_assign _ _ _).2 (Or.inr rfl))

theorem stale_visit (valid_words : List (List Char)) (s : Search) (word : List Char)
    (rest : List (List Char))
    (hq : s.nodes_to_visit = word :: rest) (hword : Visited s.visit_states word) :
    stale (visit valid_words s word rest) + 1 = stale s := by
  have hsame : ∀ w, Visited (assign s.visit_states word VisitState.Visited) w ↔
      Visited s.visit_states w := by
    intro w
    rw [visited_assign]
    constructor
    · rintro (h | h)
      · exact h
      · rw [h]; exact hword
    · exact Or.inl
  unfold stale
  rw [visit_queue, visit_states_eq, hq, List.countP_append, List.countP_cons]
  have h0 : List.countP
      (fun w => decide (assign s.visit_states word VisitState.Visited w = some VisitState.Visited))
      (valid_words.filter (fresh (assign s.visit_states word VisitState.Visited) word)) = 0 := by
    rw [List.countP_eq_zero]
    intro w hw
    have := (fresh_iff _ _ _).1 (List.mem_filter.1 hw).2
    simpa [Visited] using this.1
  have h1 : List.countP
      (fun w => decide (assign s.visit_states word VisitState.Visited w = some VisitState.Visited))
      rest = List.countP (fun w => decide (s.visit_states w = some VisitState.Visited)) rest := by
    apply List.countP_congr
    intro w _
    have := hsame w
    unfold Visited at this
    simp only [decide_eq_true_eq]
    exact this
  have h2 : decide (s.visit_states word = some VisitState.Visited) = true := by
    simpa [Visited] using hword
  rw [h0, h1, h2]
  simp

/-- The search loop ends: with enough fuel it returns, with the queue
empty. -/
theorem search_terminates (valid_words : List (List Char)) (start : List Char) :
    ∀ (u a : Nat) (s : Search), Inv valid_words start s →
    (unvisited valid_words s).card ≤ u → stale s ≤ a →
    ∃ N s', (∀ fuel, N ≤ fuel → search valid_words fuel s = some s') ∧
      Inv valid_words start s' ∧ s'.nodes_to_visit = [] := by
  have hstep : ∀ (s : Search) (word : List Char) (rest : List (List Char)),
      s.nodes_to_visit = word :: rest →
      (∃ N s', (∀ fuel, N ≤ fuel →
          search valid_words fuel (visit valid_words s word rest) = some s') ∧
        Inv valid_words start s' ∧ s'.nodes_to_visit = []) →
      ∃ N s', (∀ fuel, N ≤ fuel → search valid_words fuel s = some s') ∧
        Inv valid_words start s' ∧ s'.nodes_to_visit = [] := by
    rintro s word rest hq ⟨N, s', hrun, hI', hq'⟩
    refine ⟨N + 1, s', ?_, hI', hq'⟩
    intro fuel hfuel
    obtain ⟨f, rfl⟩ : ∃ f, fuel = f + 1 := ⟨fuel - 1, by omega⟩
    rw [search, hq]
    exact hrun f (by omega)
  have hnil : ∀ (s : Search), Inv valid_words start s → s.nodes_to_visit = [] →
      ∃ N s', (∀ fuel, N ≤ fuel → search valid_words fuel s = some s') ∧
        Inv valid_words start s' ∧ s'.nodes_to_visit = [] := by
    intro s hI hq
    refine ⟨1, s, ?_, hI, hq⟩
    intro fuel hfuel
    obtain ⟨f, rfl⟩ : ∃ f, fuel = f + 1 := ⟨fuel - 1, by omega⟩
    rw [search, hq]
  intro u
  induction u with
  | zero =>
    intro a
    induction a with
    | zero =>
      intro s hI hu ha
      cases hq : s.nodes_to_visit with
      | nil => exact hnil s hI hq
      | cons word rest =>
        by_cases hword : Visited s.visit_states word
        · have := stale_visit valid_words s word rest hq hword
          omega
        · have := unvisited_visit_lt valid_words s word rest hq hword
          omega
    | succ a iha =>
      intro s hI hu ha
      cases hq : s.nodes_to_visit with
      | nil => exact hnil s hI hq
      | cons word rest =>
        by_cases hword : Visited s.visit_states word
        · have h1 := stale_visit valid_words s word rest hq hword
          have h2 := Finset.card_le_card
            (unvisited_visit_subset valid_words s word rest hq)
          exact hstep s word rest hq
            (iha (visit valid_words s word rest) (inv_visit hI hq) (by omega) (by omega))
        · have := unvisited_visit_lt valid_words s word rest hq hword
          omega
  | succ u ihu =>
    intro a
    induction a with
    | zero =>
      intro s hI hu ha
      cases hq : s.nodes_to_visit with
      | nil => exact hnil s hI hq
      | cons word rest =>
        by_cases hword : Visited s.visit_states word
        · have := stale_visit valid_words s word rest hq hword
          omega
        · have := unvisited_visit_lt valid_words s word rest hq hword
          exact hstep s word rest hq
            (ihu (stale (visit valid_words s word rest)) (visit valid_words s word rest)
              (inv_visit hI hq) (by omega) (Nat.le_refl _))
    | succ a iha =>
      intro s hI hu ha
      cases hq : s.nodes_to_visit with
      | nil => exact hnil s hI hq
      | cons word rest =>
        by_cases hword : Visited s.visit_states word
        · have h1 := stale_visit valid_words s word rest hq hword
          have h2 := Finset.card_le_card
            (unvisited_visit_subset valid_words s word rest hq)
          exact hstep s word rest hq
            (iha (visit valid_words s word rest) (inv_visit hI hq) (by omega) (by omega))
        · have := unvisited_visit_lt valid_words s word rest hq hword
          exact hstep s word rest hq
            (ihu (stale (visit valid_words s word rest)) (visit valid_words s word rest)
              (inv_visit hI hq) (by omega) (Nat.le_refl _))

end Termination

section Path

variable {valid_words : List (List Char)} {start : List Char}

theorem search_mono : ∀ (fuel : Nat) (s s' : Search), search valid_words fuel s = some s' →
    ∀ k, search valid_words (fuel + k) s = some s' := by
  intro fuel
  induction fuel with
  | zero => intro s s' h; simp [search] at h
  | succ fuel ih =>
    intro s s' h k
    rw [show fuel + 1 + k = (fuel + k) + 1 by omega]
    rw [search] at h ⊢
    cases hq : s.nodes_to_visit with
    | nil => rw [hq] at h; exact h
    | cons word rest =>
      rw [hq] at h
      exact ih _ _ h k

theorem walkBack_mono (parents : List Char → Option (List Char)) :
    ∀ (fuel : Nat) (w : List Char) (acc path : List (List Char)),
      walkBack parents start fuel w acc = some path →
      ∀ k, walkBack parents start (fuel + k) w acc = some path := by
  intro fuel
  induction fuel with
  | zero => intro w acc path h; simp [walkBack] at h
  | succ fuel ih =>
    intro w acc path h k
    rw [show fuel + 1 + k = (fuel + k) + 1 by omega]
    rw [walkBack] at h ⊢
    cases hp : parents w with
    | none => rw [hp] at h; exact h
    | some par =>
      rw [hp] at h
      by_cases hw : w = start
      · simp only [hw, if_true] at h ⊢
        exact h
      · simp only [hw, if_false] at h ⊢
        exact ih _ _ _ h k

/-- More fuel does not change what `stepword_chain` returns. -/
theorem stepword_chain_mono (fuel : Nat) (endw : List Char) (path : List (List Char))
    (h : stepword_chain fuel start endw valid_words = some path) (k : Nat) :
    stepword_chain (fuel + k) start endw valid_words = some path := by
  unfold stepword_chain at h ⊢
  cases hs : search valid_words fuel (init start) with
  | none => rw [hs] at h; simp at h
  | some s =>
    rw [hs] at h
    rw [search_mono fuel _ s hs k]
    simp only [Option.map_eq_some'] at h ⊢
    obtain ⟨p, hp, hr⟩ := h
    exact ⟨p, walkBack_mono _ fuel endw [] p hp k, hr⟩

theorem walkBack_back {parents : List Char → Option (List Char)}
    {vs : List Char → Option VisitState} {w : List Char} {c : List (List Char)}
    (hb : Back valid_words start parents vs w c) :
    ∀ (fuel : Nat) (acc : List (List Char)), c.length ≤ fuel →
      walkBack parents start fuel w acc = some (acc ++ c) := by
  induction hb with
  | root h =>
    intro fuel acc hf
    obtain ⟨f, rfl⟩ : ∃ f, fuel = f + 1 := ⟨fuel - 1, by simp at hf; omega⟩
    simp [walkBack, h]
  | link w v c hne hpar _ _ _ _ ih =>
    intro fuel acc hf
    obtain ⟨f, rfl⟩ : ∃ f, fuel = f + 1 := ⟨fuel - 1, by simp at hf; omega⟩
    rw [walkBack, hpar]
    simp only [hne, if_false]
    rw [ih f (acc ++ [w]) (by simp at hf; omega)]
    simp

theorem back_chain {parents : List Char → Option (List Char)}
    {vs : List Char → Option VisitState} {w : List Char} {c : List (List Char)}
    (hb : Back valid_words start parents vs w c) :
    c.head? = some w ∧ c.getLast? = some start ∧
      c.Chain' (fun a b => Link valid_words b a) := by
  induction hb with
  | root _ => simp
  | link w v c _ _ hmem hadj _ _ ih =>
    obtain ⟨h1, h2, h3⟩ := ih
    refine ⟨rfl, ?_, ?_⟩
    · cases c with
      | nil => simp at h1
      | cons x xs => rw [List.getLast?_cons_cons]; exact h2
    · apply List.Chain'.cons' h3
      intro y hy
      rw [h1] at hy
      have : y = v := by simpa using hy.symm
      subst this
      exact ⟨hmem, (is_one_character_different_iff _ _).1 hadj⟩

theorem back_root {parents : List Char → Option (List Char)}
    {vs : List Char → Option VisitState} {c : List (List Char)}
    (hb : Back valid_words start parents vs start c) : c = [start] := by
  cases hb with
  | root _ => rfl
  | link _ v c hne _ _ _ _ _ => exact absurd rfl hne

/-- When the queue is empty every word of a chain from a word with a parent
has a parent. -/
theorem chain_known {s : Search} (hI : Inv valid_words start s) (hq : s.nodes_to_visit = []) :
    ∀ (path : List (List Char)) (a : List Char), path.head? = some a → s.parents a ≠ none →
      path.Chain' (Link valid_words) → ∀ b ∈ path, s.parents b ≠ none := by
  intro path
  induction path with
  | nil => intro a h; simp at h
  | cons x xs ih =>
    intro a ha hpa hch b hb
    have hxa : x = a := by simpa using ha
    subst hxa
    rcases List.mem_cons.1 hb with h | h
    · rw [h]; exact hpa
    · cases xs with
      | nil => simp at h
      | cons y ys =>
        rw [List.chain'_cons] at hch
        have hvis : Visited s.visit_states x := by
          rcases hI.known x hpa with hv | hv
          · exact hv
          · rw [hq] at hv; simp at hv
        have hy := hI.closed x hvis y hch.1.1 ((is_one_character_different_iff _ _).2 hch.1.2)
        exact ih y rfl hy hch.2 b h

/-- What `stepword_chain` returns, with enough fuel: the empty path when `endw`
has no parent after the search, and else the words from `start` to `endw`
along `parents`. -/
theorem stepword_chain_result (start endw : List Char) (valid_words : List (List Char)) :
    ∃ N path, (∀ fuel, N ≤ fuel → stepword_chain fuel start endw valid_words = some path) ∧
      (path = [] ↔ ¬ ∃ chain, IsChain valid_words start endw chain) ∧
      (path ≠ [] → IsChain valid_words start endw path) ∧
      (start = endw → path = [start]) := by
  obtain ⟨N, s, hrun, hI, hq⟩ := search_terminates valid_words start _ _ (init start) (inv_init valid_words start) (Nat.le_refl _) (Nat.le_refl _)
  cases hp : s.parents endw with
  | none =>
    refine ⟨N + 1, [], ?_, ?_, ?_, ?_⟩
    · intro fuel hfuel
      obtain ⟨f, rfl⟩ : ∃ f, fuel = f + 1 := ⟨fuel - 1, by omega⟩
      unfold stepword_chain
      rw [hrun (f + 1) (by omega)]
      simp [walkBack, hp]
    · simp only [true_iff]
      rintro ⟨chain, h1, h2, h3⟩
      have hmem : endw ∈ chain := List.mem_of_mem_getLast? h2
      exact chain_known hI hq chain start h1 (by rw [hI.root]; simp) h3 endw hmem hp
    · intro h; exact absurd rfl h
    · intro h
      rw [← h, hI.root] at hp
      simp at hp
  | some par =>
    obtain ⟨c, hc⟩ := hI.back endw (by rw [hp]; simp)
    obtain ⟨h1, h2, h3⟩ := back_chain hc
    have hne : c ≠ [] := by
      intro h; rw [h] at h1; simp at h1
    have hchain : IsChain valid_words start endw c.reverse := by
      refine ⟨?_, ?_, ?_⟩
      · rw [List.head?_reverse]; exact h2
      · rw [List.getLast?_reverse]; exact h1
      · rw [List.chain'_reverse]; exact h3
    refine ⟨N + c.length, c.reverse, ?_, ?_, ?_, ?_⟩
    · intro fuel hfuel
      unfold stepword_chain
      rw [hrun fuel (by omega), Option.map_eq_some']
      exact ⟨c, by simpa using walkBack_back hc fuel [] (by omega), rfl⟩
    · constructor
      · intro h
        exact absurd (List.reverse_eq_nil_iff.1 h) hne
      · intro h
        exact absurd ⟨c.reverse, hchain⟩ h
    · intro _; exact hchain
    · intro h
      subst h
      rw [back_root hc]
      rfl

end Path

section Claims

/-- The two positive examples of the test. -/
theorem stepword_chain_examples :
    stepword_chain 8 ['d', 'o', 'g'] ['c', 'a', 't']
      [['d', 'o', 'g'], ['d', 'o', 't'], ['d', 'o', 'p'], ['d', 'a', 't'], ['c', 'a', 't']] =
        some [['d', 'o', 'g'], ['d', 'o', 't'], ['d', 'a', 't'], ['c', 'a', 't']] ∧
    stepword_chain 8 ['b', 'e', 's', 't'] ['r', 'i', 's', 'e']
      [['b', 'e', 's', 't'], ['f', 'o', 'u', 'r'], ['r', 'u', 's', 'e'], ['h', 'o', 'u', 'r'],
        ['r', 'i', 's', 'e'], ['h', 'o', 'm', 'e'], ['f', 'i', 'l', 'l'], ['m', 'e', 'm', 'o'],
        ['b', 'u', 's', 't'], ['t', 'y', 'p', 'e'], ['a', 'l', 's', 'o'], ['p', 'a', 'c', 'k'],
        ['t', 'i', 'm', 'e'], ['l', 'o', 'o', 'k'], ['o', 'n', 'l', 'y'], ['r', 'u', 's', 't']] =
        some [['b', 'e', 's', 't'], ['b', 'u', 's', 't'], ['r', 'u', 's', 't'],
          ['r', 'u', 's', 'e'], ['r', 'i', 's', 'e']] := by
  constructor <;> decide

theorem stepword_chain_returns (start endw : List Char) (valid_words : List (List Char)) :
    ∃ N, ∀ fuel, N ≤ fuel → ∃ path, stepword_chain fuel start endw valid_words = some path := by
  obtain ⟨N, path, hrun, _⟩ := stepword_chain_result start endw valid_words
  exact ⟨N, fun fuel hf => ⟨path, hrun fuel hf⟩⟩

theorem stepword_chain_spec (start endw : List Char) (valid_words : List (List Char))
    (fuel : Nat) (path : List (List Char))
    (h : stepword_chain fuel start endw valid_words = some path) :
    (path = [] ↔ ¬ ∃ chain, IsChain valid_words start endw chain) ∧
      (path ≠ [] → IsChain valid_words start endw path) ∧
      (start = endw → path = [start]) := by
  obtain ⟨N, p0, hrun, hres⟩ := stepword_chain_result start endw valid_words
  have h1 := stepword_chain_mono fuel endw path h N
  rw [hrun (fuel + N) (by omega)] at h1
  have : p0 = path := by simpa using h1
  subst this
  exact hres

theorem chain_tail_mem (valid_words : List (List Char)) :
    ∀ (path : List (List Char)), path.Chain' (Link valid_words) →
      ∀ w ∈ path.tail, w ∈ valid_words := by
  intro path
  induction path with
  | nil => intro _ w hw; simp at hw
  | cons x xs ih =>
    intro hch w hw
    cases xs with
    | nil => simp at hw
    | cons y ys =>
      rw [List.chain'_cons] at hch
      rcases List.mem_cons.1 hw with h | h
      · rw [h]; exact hch.1.1
      · exact ih hch.2 w (by simpa using h)

/-- C21. The returned path is not always a shortest one.  From `dog` to `dob`
over the valid words `dot`, `dob` the function returns `dog, dot, dob` (with
any fuel from 5 on), although `dog, dob` is a chain of one-character
transformations from `dog` to `dob` through valid words with fewer words. -/
theorem stepword_chain_not_shortest :
    (∀ k, stepword_chain (5 + k) ['d', 'o', 'g'] ['d', 'o', 'b']
        [['d', 'o', 't'], ['d', 'o', 'b']] =
      some [['d', 'o', 'g'], ['d', 'o', 't'], ['d', 'o', 'b']]) ∧
    IsChain [['d', 'o', 't'], ['d', 'o', 'b']] ['d', 'o', 'g'] ['d', 'o', 'b']
      [['d', 'o', 'g'], ['d', 'o', 'b']] ∧
    ([['d', 'o', 'g'], ['d', 'o', 'b']] : List (List Char)).length <
      ([['d', 'o', 'g'], ['d', 'o', 't'], ['d', 'o', 'b']] : List (List Char)).length := by
  refine ⟨fun k => stepword_chain_mono 5 _ _ (by decide) k, ⟨rfl, rfl, ?_⟩, by decide⟩
  rw [List.chain'_pair]
  exact ⟨by decide, (is_one_character_different_iff _ _).1 (by decide)⟩

/-- C22. For every `start`, `end` and `valid_words` the function returns, and
whenever it returns a non-empty path, the path starts with `start`, ends with
`end`, every word after the first is a member of `valid_words`, and every two
consecutive words have equal length and differ in exactly one character
position. -/
theorem stepword_chain_path_valid (start endw : List Char) (valid_words : List (List Char)) :
    (∃ N, ∀ fuel, N ≤ fuel →
      ∃ path, stepword_chain fuel start endw valid_words = some path) ∧
    ∀ fuel path, stepword_chain fuel start endw valid_words = some path → path ≠ [] →
      path.head? = some start ∧ path.getLast? = some endw ∧
      (∀ w ∈ path.tail, w ∈ valid_words) ∧
      path.Chain' (fun a b => a.length = b.length ∧
        ∃ i : Nat, a[i]? ≠ b[i]? ∧ ∀ j : Nat, j ≠ i → a[j]? = b[j]?) := by
  refine ⟨stepword_chain_returns start endw valid_words, ?_⟩
  intro fuel path h hne
  obtain ⟨h1, h2, h3⟩ := (stepword_chain_spec start endw valid_words fuel path h).2.1 hne
  exact ⟨h1, h2, chain_tail_mem valid_words path h3, h3.imp (fun _ _ hl => hl.2)⟩

/-- C23. For every `start`, `end` and `valid_words` the function returns; it
returns the empty path if and only if `end` cannot be reached from `start` by
a chain of one-character transformations through words of `valid_words`, as
from `dog` to `cat` over `dog, dot, tod, mat, cat`; when `start == end` it
returns `[start]`. -/
theorem stepword_chain_empty_iff (start endw : List Char) (valid_words : List (List Char)) :
    (∃ N, ∀ fuel, N ≤ fuel →
      ∃ path, stepword_chain fuel start endw valid_words = some path) ∧
    (∀ fuel path, stepword_chain fuel start endw valid_words = some path →
      ((path = [] ↔ ¬ ∃ chain, IsChain valid_words start endw chain) ∧
        (start = endw → path = [start]))) ∧
    stepword_chain 8 ['d', 'o', 'g'] ['c', 'a', 't']
      [['d', 'o', 'g'], ['d', 'o', 't'], ['t', 'o', 'd'], ['m', 'a', 't'], ['c', 'a', 't']] =
        some [] := by
  refine ⟨stepword_chain_returns start endw valid_words, ?_, by decide⟩
  intro fuel path h
  have := stepword_chain_spec start endw valid_words fuel path h
  exact ⟨this.1, this.2.2⟩

end Claims

end Stepword

/-! # Staircase: proofs -/

namespace Staircase

theorem mem_emplace (ways : List (List Int)) (x c : List Int) :
    c ∈ emplace ways x ↔ c ∈ ways ∨ c = x := by
  unfold emplace
  by_cases h : x ∈ ways
  · rw [if_pos h]
    constructor
    · exact Or.inl
    · rintro (h' | h')
      · exact h'
      · rw [h']; exact h
  · rw [if_neg h]
    simp

theorem nodup_emplace (ways : List (List Int)) (x : List Int) (hn : ways.Nodup) :
    (emplace ways x).Nodup := by
  unfold emplace
  by_cases h : x ∈ ways
  · rw [if_pos h]; exact hn
  · rw [if_neg h]
    rw [List.nodup_append]
    refine ⟨hn, List.nodup_singleton x, ?_⟩
    intro a ha hb
    rw [List.mem_singleton] at hb
    exact h (hb ▸ ha)

theorem combine_inner (s1i : List Int) : ∀ (s2 : List (List Int)) (ways : List (List Int)),
    ways.Nodup →
    (s2.foldl (fun ways s2i => emplace (emplace ways (s1i ++ s2i)) (s2i ++ s1i)) ways).Nodup ∧
      ∀ c, c ∈ s2.foldl (fun ways s2i => emplace (emplace ways (s1i ++ s2i)) (s2i ++ s1i)) ways ↔
        c ∈ ways ∨ ∃ b ∈ s2, c = s1i ++ b ∨ c = b ++ s1i := by
  intro s2
  induction s2 with
  | nil => intro ways hn; simp [hn]
  | cons b s2 ih =>
    intro ways hn
    rw [List.foldl_cons]
    obtain ⟨h1, h2⟩ := ih _ (nodup_emplace _ (b ++ s1i) (nodup_emplace _ (s1i ++ b) hn))
    refine ⟨h1, ?_⟩
    intro c
    rw [h2 c, mem_emplace, mem_emplace]
    simp only [List.mem_cons, exists_eq_or_imp, or_assoc]

theorem combine_spec : ∀ (s1 s2 : List (List Int)) (ways : List (List Int)), ways.Nodup →
    (combine s1 s2 ways).Nodup ∧
      ∀ c, c ∈ combine s1 s2 ways ↔
        c ∈ ways ∨ ∃ a ∈ s1, ∃ b ∈ s2, c = a ++ b ∨ c = b ++ a := by
  intro s1
  induction s1 with
  | nil => intro s2 ways hn; simp [combine, hn]
  | cons a s1 ih =>
    intro s2 ways hn
    unfold combine at ih ⊢
    rw [List.foldl_cons]
    obtain ⟨h1, h2⟩ := combine_inner a s2 ways hn
    obtain ⟨h3, h4⟩ := ih s2 _ h1
    refine ⟨h3, ?_⟩
    intro c
    rw [h4 c, h2 c]
    simp only [List.mem_cons, exists_eq_or_imp, or_assoc]

/-- What one allowed step `s` contributes to the ways of climbing `h`. -/
theorem isWay_iff_last (allowed_steps : List Int) (hpos : ∀ s ∈ allowed_steps, 1 ≤ s) (h : Int)
    (c : List Int) :
    IsWay allowed_steps h c ↔
      ∃ s ∈ allowed_steps, (s = h ∧ c = [s]) ∨
        (s < h ∧ ∃ a b, IsWay allowed_steps (h - s) a ∧ IsWay allowed_steps s b ∧
          (c = a ++ b ∨ c = b ++ a)) := by
  have hsum : ∀ l : List Int, (∀ x ∈ l, x ∈ allowed_steps) → l ≠ [] → 1 ≤ l.sum := by
    intro l
    induction l with
    | nil => intro _ h; exact absurd rfl h
    | cons x xs ih =>
      intro hx _
      have h1 := hpos x (hx x (List.mem_cons_self _ _))
      rw [List.sum_cons]
      by_cases hxs : xs = []
      · rw [hxs]; simp; exact h1
      · have := ih (fun y hy => hx y (List.mem_cons_of_mem _ hy)) hxs
        omega
  constructor
  · rintro ⟨hne, hall, hs⟩
    obtain ⟨c', s, rfl⟩ : ∃ c' s, c = c' ++ [s] :=
      ⟨c.dropLast, c.getLast hne, (List.dropLast_append_getLast hne).symm⟩
    have hmem : s ∈ allowed_steps := hall s (by simp)
    refine ⟨s, hmem, ?_⟩
    by_cases hc' : c' = []
    · left
      subst hc'
      simp at hs
      exact ⟨hs, rfl⟩
    · right
      have hc'all : ∀ x ∈ c', x ∈ allowed_steps := fun x hx => hall x (by simp [hx])
      have h1 := hsum c' hc'all hc'
      rw [List.sum_append] at hs
      simp at hs
      refine ⟨by omega, c', [s], ⟨hc', hc'all, by omega⟩, ⟨by simp, by simpa using hmem, by simp⟩,
        Or.inl rfl⟩
  · rintro ⟨s, hmem, ⟨rfl, rfl⟩ | ⟨_, a, b, ⟨ha1, ha2, ha3⟩, ⟨hb1, hb2, hb3⟩, hc⟩⟩
    · exact ⟨by simp, by simpa using hmem, by simp⟩
    · rcases hc with rfl | rfl
      · refine ⟨by simp [ha1], ?_, by rw [List.sum_append]; omega⟩
        intro x hx
        rcases List.mem_append.1 hx with h' | h'
        · exact ha2 x h'
        · exact hb2 x h'
      · refine ⟨by simp [ha1], ?_, by rw [List.sum_append]; omega⟩
        intro x hx
        rcases List.mem_append.1 hx with h' | h'
        · exact hb2 x h'
        · exact ha2 x h'

/-- The loop over the allowed steps, given that the recursive calls return
the ways of the smaller heights. -/
theorem foldl_addStep (allowed_steps : List Int) (h : Int)
    (call : Int → Option (List (List Int)))
    (hcall : ∀ h', 0 < h' → h' < h → ∃ ways, call h' = some ways ∧ ways.Nodup ∧
      ∀ c, c ∈ ways ↔ IsWay allowed_steps h' c) :
    ∀ (todo : List Int) (ways0 : List (List Int)), (∀ s ∈ todo, 1 ≤ s) → ways0.Nodup →
      ∃ ways1, todo.foldl (addStep call h) (some ways0) = some ways1 ∧ ways1.Nodup ∧
        ∀ c, c ∈ ways1 ↔ c ∈ ways0 ∨ ∃ s ∈ todo, (s = h ∧ c = [s]) ∨
          (s < h ∧ ∃ a b, IsWay allowed_steps (h - s) a ∧ IsWay allowed_steps s b ∧
            (c = a ++ b ∨ c = b ++ a)) := by
  intro todo
  induction todo with
  | nil => intro ways0 _ hn; exact ⟨ways0, rfl, hn, by simp⟩
  | cons s todo ih =>
    intro ways0 hpos hn
    have hs : 1 ≤ s := hpos s (List.mem_cons_self _ _)
    have hpos' : ∀ x ∈ todo, 1 ≤ x := fun x hx => hpos x (List.mem_cons_of_mem _ hx)
    rw [List.foldl_cons]
    by_cases h1 : s > h
    · have hstep : addStep call h (some ways0) s = some ways0 := by
        simp only [addStep, h1, if_true]
      rw [hstep]
      obtain ⟨ways1, hr, hn1, hm⟩ := ih ways0 hpos' hn
      refine ⟨ways1, hr, hn1, ?_⟩
      intro c
      rw [hm c]
      simp only [List.mem_cons, exists_eq_or_imp]
      have hno : ¬ ((s = h ∧ c = [s]) ∨ (s < h ∧ ∃ a b, IsWay allowed_steps (h - s) a ∧
          IsWay allowed_steps s b ∧ (c = a ++ b ∨ c = b ++ a))) := by
        rintro (⟨h2, _⟩ | ⟨h2, _⟩) <;> omega
      simp only [hno, false_or]
    · by_cases h2 : s = h
      · have hstep : addStep call h (some ways0) s = some (emplace ways0 [s]) := by
          unfold addStep
          simp only []
          rw [if_neg h1, if_pos h2]
        rw [hstep]
        obtain ⟨ways1, hr, hn1, hm⟩ := ih _ hpos' (nodup_emplace ways0 [s] hn)
        refine ⟨ways1, hr, hn1, ?_⟩
        intro c
        rw [hm c, mem_emplace]
        simp only [List.mem_cons, exists_eq_or_imp]
        have hiff : ((s = h ∧ c = [s]) ∨ (s < h ∧ ∃ a b, IsWay allowed_steps (h - s) a ∧
            IsWay allowed_steps s b ∧ (c = a ++ b ∨ c = b ++ a))) ↔ c = [s] := by
          constructor
          · rintro (⟨_, h3⟩ | ⟨h3, _⟩)
            · exact h3
            · omega
          · intro h3; exact Or.inl ⟨h2, h3⟩
        rw [hiff, or_assoc]
      · obtain ⟨s1, hc1, hn1, hm1⟩ := hcall (h - s) (by omega) (by omega)
        obtain ⟨s2, hc2, hn2, hm2⟩ := hcall s (by omega) (by omega)
        have hstep : addStep call h (some ways0) s = some (combine s1 s2 ways0) := by
          simp only [addStep, h1, if_false, h2, hc1, hc2]
        rw [hstep]
        obtain ⟨hnc, hmc⟩ := combine_spec s1 s2 ways0 hn
        obtain ⟨ways1, hr, hnw, hm⟩ := ih _ hpos' hnc
        refine ⟨ways1, hr, hnw, ?_⟩
        intro c
        rw [hm c, hmc c]
        simp only [List.mem_cons, exists_eq_or_imp]
        have hiff : ((s = h ∧ c = [s]) ∨ (s < h ∧ ∃ a b, IsWay allowed_steps (h - s) a ∧
            IsWay allowed_steps s b ∧ (c = a ++ b ∨ c = b ++ a))) ↔
            ∃ a ∈ s1, ∃ b ∈ s2, c = a ++ b ∨ c = b ++ a := by
          constructor
          · rintro (⟨h3, _⟩ | ⟨_, a, b, ha, hb, hc⟩)
            · exact absurd h3 h2
            · exact ⟨a, (hm1 a).2 ha, b, (hm2 b).2 hb, hc⟩
          · rintro ⟨a, ha, b, hb, hc⟩
            exact Or.inr ⟨by omega, a, b, (hm1 a).1 ha, (hm2 b).1 hb, hc⟩
        rw [hiff, or_assoc]

/-- With fuel above the height, `staircase` returns the ways to climb. -/
theorem staircase_spec (allowed_steps : List Int) (hpos : ∀ s ∈ allowed_steps, 1 ≤ s) :
    ∀ (fuel : Nat) (h : Int), 0 ≤ h → h.toNat < fuel →
      ∃ ways, staircase fuel h allowed_steps = some ways ∧ ways.Nodup ∧
        ∀ c, c ∈ ways ↔ IsWay allowed_steps h c := by
  intro fuel
  induction fuel with
  | zero => intro h _ hf; omega
  | succ fuel ih =>
    intro h h0 hf
    rw [staircase]
    by_cases hz : h = 0
    · rw [if_pos hz]
      refine ⟨[], rfl, List.nodup_nil, ?_⟩
      intro c
      rw [isWay_iff_last allowed_steps hpos]
      constructor
      · intro hc; simp at hc
      · rintro ⟨s, hs, ⟨h1, _⟩ | ⟨h1, _⟩⟩
        · have := hpos s hs; omega
        · have := hpos s hs; omega
    · rw [if_neg hz]
      obtain ⟨ways, hr, hn, hm⟩ := foldl_addStep allowed_steps h
        (fun h' => staircase fuel h' allowed_steps)
        (fun h' h1 h2 => ih h' (by omega) (by omega)) allowed_steps [] hpos List.nodup_nil
      refine ⟨ways, hr, hn, ?_⟩
      intro c
      rw [hm c, isWay_iff_last allowed_steps hpos]
      simp

/-- The examples of the test. -/
theorem staircase_examples :
    staircase 5 0 [1, 2, 3] = some [] ∧
    staircase 5 1 [1, 2, 3] = some [[1]] ∧
    staircase 5 2 [1, 2, 3] = some [[1, 1], [2]] ∧
    staircase 5 3 [1, 2, 3] = some [[1, 1, 1], [2, 1], [1, 2], [3]] ∧
    staircase 5 4 [1, 2, 3] =
      some [[1, 1, 1, 1], [2, 1, 1], [1, 2, 1], [1, 1, 2], [3, 1], [1, 3], [2, 2]] := by
  decide

/-- C24. For every `h ≥ 0` and every list of allowed steps that are all `≥ 1`,
`staircase(h, allowed_steps)` returns (with fuel above `h`) a set whose
elements are exactly the non-empty sequences of allowed steps whose sum is
`h`; `staircase(0, _)` is the empty set. -/
theorem staircase_all_ways (h : Int) (allowed_steps : List Int) (h0 : 0 ≤ h)
    (hpos : ∀ s ∈ allowed_steps, 1 ≤ s) :
    (∀ fuel, h.toNat < fuel →
      ∃ ways, staircase fuel h allowed_steps = some ways ∧ ways.Nodup ∧
        ∀ c, c ∈ ways ↔ (c ≠ [] ∧ (∀ x ∈ c, x ∈ allowed_steps) ∧ c.sum = h)) ∧
    (∀ fuel, staircase (fuel + 1) 0 allowed_steps = some []) := by
  refine ⟨fun fuel hf => staircase_spec allowed_steps hpos fuel h h0 hf, ?_⟩
  intro fuel
  simp [staircase]

theorem staircase_all_ways_witness :
    (∀ fuel, (4 : Int).toNat < fuel →
      ∃ ways, staircase fuel 4 [1, 2, 3] = some ways ∧ ways.Nodup ∧
        ∀ c, c ∈ ways ↔ (c ≠ [] ∧ (∀ x ∈ c, x ∈ ([1, 2, 3] : List Int)) ∧ c.sum = 4)) ∧
    (∀ fuel, staircase (fuel + 1) 0 [1, 2, 3] = some []) :=
  staircase_all_ways 4 [1, 2, 3] (by decide) (by decide)

end Staircase

/-! # Index is value: proofs -/

namespace IndexIsValue

/-- The examples of the test, with a read past the end that finds the value
0; where that read is an error, the one element vector `{0}` of the test
makes the call leave the vector. -/
theorem index_matches_value_examples :
    index_matches_value [] (some 0) 1 0 0 = .done none ∧
    index_matches_value [0] (some 0) 2 0 1 = .done (some (0, 1)) ∧
    index_matches_value [-10, -5, 0, 3, 4, 5, 7, 20] (some 0) 9 0 8 = .done (some (3, 6)) ∧
    index_matches_value [0, 1, 2, 5, 7, 8, 9, 10] (some 0) 9 0 8 = .done (some (0, 3)) ∧
    index_matches_value [-10, -5, 0, 1, 4, 5, 10] (some 0) 8 0 7 = .done (some (4, 6)) ∧
    index_matches_value [0] none 2 0 1 = .outOfRange := by
  decide

end IndexIsValue

/-! # Spiral: proofs -/

namespace Spiral2d

theorem inc_eq (x : Nat) (h : x + 1 < 2 ^ 64) : inc x = x + 1 := by
  unfold inc
  exact Nat.mod_eq_of_lt h

theorem dec_eq (x : Nat) (h1 : 1 ≤ x) (h2 : x < 2 ^ 64) : dec x = x - 1 := by
  unfold dec
  have h : x + (2 ^ 64 - 1) = (x - 1) + 2 ^ 64 := by omega
  rw [h, Nat.add_mod_right]
  exact Nat.mod_eq_of_lt (by omega)

theorem rowRight_succ (i j k : Nat) : rowRight i j (k + 1) = (i, j) :: rowRight i (j + 1) k := by
  unfold rowRight
  rw [List.range_succ_eq_map]
  simp [Function.comp_def, Nat.add_assoc, Nat.add_comm 1]

theorem colDown_succ (i j k : Nat) : colDown i j (k + 1) = (i, j) :: colDown (i + 1) j k := by
  unfold colDown
  rw [List.range_succ_eq_map]
  simp [Function.comp_def, Nat.add_assoc, Nat.add_comm 1]

theorem rowLeft_succ (i j k : Nat) : rowLeft i j (k + 1) = (i, j) :: rowLeft i (j - 1) k := by
  unfold rowLeft
  rw [List.range_succ_eq_map]
  simp [Function.comp_def, Nat.sub_add_eq]
  intro a _
  omega

theorem colUp_succ (i j k : Nat) : colUp i j (k + 1) = (i, j) :: colUp (i - 1) j k := by
  unfold colUp
  rw [List.range_succ_eq_map]
  simp [Function.comp_def, Nat.sub_add_eq]
  intro a _
  omega

theorem seg_right (i ll rl dl ul : Nat) (hrl : rl < 2 ^ 64) : ∀ (k j rest : Nat), j + k = rl →
    visits (k + 1 + rest) ⟨i, j, .right, ll, rl, dl, ul⟩ =
      rowRight i j (k + 1) ++ visits rest ⟨inc i, rl, .down, ll, rl, dl, inc i⟩ := by
  intro k
  induction k with
  | zero =>
    intro j rest hj
    have hj' : j = rl := by omega
    subst hj'
    rw [show 0 + 1 + rest = rest + 1 by omega, visits, rowRight_succ]
    simp [advance, rowRight]
  | succ k ih =>
    intro j rest hj
    rw [show k + 1 + 1 + rest = (k + 1 + rest) + 1 by omega, visits, rowRight_succ]
    have hne : ¬ j = rl := by omega
    have hadv : advance ⟨i, j, .right, ll, rl, dl, ul⟩ = ⟨i, j + 1, .right, ll, rl, dl, ul⟩ := by
      simp [advance, hne, inc_eq j (by omega)]
    rw [hadv, ih (j + 1) rest (by omega)]
    rfl

theorem seg_down (j ll rl dl ul : Nat) (hdl : dl < 2 ^ 64) : ∀ (k i rest : Nat), i + k = dl →
    visits (k + 1 + rest) ⟨i, j, .down, ll, rl, dl, ul⟩ =
      colDown i j (k + 1) ++ visits rest ⟨dl, dec j, .left, ll, dec j, dl, ul⟩ := by
  intro k
  induction k with
  | zero =>
    intro i rest hi
    have hi' : i = dl := by omega
    subst hi'
    rw [show 0 + 1 + rest = rest + 1 by omega, visits, colDown_succ]
    simp [advance, colDown]
  | succ k ih =>
    intro i rest hi
    rw [show k + 1 + 1 + rest = (k + 1 + rest) + 1 by omega, visits, colDown_succ]
    have hne : ¬ i = dl := by omega
    have hadv : advance ⟨i, j, .down, ll, rl, dl, ul⟩ = ⟨i + 1, j, .down, ll, rl, dl, ul⟩ := by
      simp [advance, hne, inc_eq i (by omega)]
    rw [hadv, ih (i + 1) rest (by omega)]
    rfl

theorem seg_left (i ll rl dl ul : Nat) : ∀ (k j rest : Nat), ll + k = j → j < 2 ^ 64 →
    visits (k + 1 + rest) ⟨i, j, .left, ll, rl, dl, ul⟩ =
      rowLeft i j (k + 1) ++ visits rest ⟨dec i, ll, .up, ll, rl, dec i, ul⟩ := by
  intro k
  induction k with
  | zero =>
    intro j rest hj _
    have hj' : j = ll := by omega
    subst hj'
    rw [show 0 + 1 + rest = rest + 1 by omega, visits, rowLeft_succ]
    simp [advance, rowLeft]
  | succ k ih =>
    intro j rest hj hlt
    rw [show k + 1 + 1 + rest = (k + 1 + rest) + 1 by omega, visits, rowLeft_succ]
    have hne : ¬ j = ll := by omega
    have hadv : advance ⟨i, j, .left, ll, rl, dl, ul⟩ = ⟨i, j - 1, .left, ll, rl, dl, ul⟩ := by
      simp [advance, hne, dec_eq j (by omega) hlt]
    rw [hadv, ih (j - 1) rest (by omega) (by omega)]
    rfl

theorem seg_up (j ll rl dl ul : Nat) : ∀ (k i rest : Nat), ul + k = i → i < 2 ^ 64 →
    visits (k + 1 + rest) ⟨i, j, .up, ll, rl, dl, ul⟩ =
      colUp i j (k + 1) ++ visits rest ⟨ul, inc j, .right, inc j, rl, dl, ul⟩ := by
  intro k
  induction k with
  | zero =>
    intro i rest hi _
    have hi' : i = ul := by omega
    subst hi'
    rw [show 0 + 1 + rest = rest + 1 by omega, visits, colUp_succ]
    simp [advance, colUp]
  | succ k ih =>
    intro i rest hi hlt
    rw [show k + 1 + 1 + rest = (k + 1 + rest) + 1 by omega, visits, colUp_succ]
    have hne : ¬ i = ul := by omega
    have hadv : advance ⟨i, j, .up, ll, rl, dl, ul⟩ = ⟨i - 1, j, .up, ll, rl, dl, ul⟩ := by
      simp [advance, hne, dec_eq i (by omega) hlt]
    rw [hadv, ih (i - 1) rest (by omega) (by omega)]
    rfl

/-- The walk from the top-left cell of a block, with the limits at the sides
of the block, visits the block in spiral order. -/
theorem visits_spiral : ∀ (h w t l : Nat), t + h < 2 ^ 64 → l + w < 2 ^ 64 →
    visits (h * w) ⟨t, l, .right, l, l + w - 1, t + h - 1, t⟩ = spiralOrder t l h w := by
  intro h
  induction h using Nat.strong_induction_on with
  | _ h ih =>
    intro w t l ht hl
    match h, w with
    | 0, w => simp [visits, spiralOrder]
    | 1, 0 => simp [visits, spiralOrder, rowRight]
    | 1, w + 1 =>
      rw [show 1 * (w + 1) = w + 1 + 0 by omega,
        seg_right t l (l + (w + 1) - 1) (t + 1 - 1) t (by omega) w l 0 (by omega)]
      simp [visits, spiralOrder]
    | h + 2, 0 => simp [visits, spiralOrder]
    | h + 2, 1 =>
      rw [show l + 1 - 1 = l by omega, show t + (h + 2) - 1 = t + h + 1 by omega,
        show (h + 2) * 1 = 0 + 1 + (h + 1 + 0) by omega,
        seg_right t l l (t + h + 1) t (by omega) 0 l _ (by omega),
        inc_eq t (by omega),
        seg_down l l l (t + h + 1) (t + 1) (by omega) h (t + 1) 0 (by omega)]
      simp only [visits, spiralOrder, List.append_nil]
      rw [colDown_succ t l (h + 1), rowRight_succ]
      simp [rowRight]
    | h + 2, w + 2 =>
      have e1 : l + (w + 2) - 1 = l + w + 1 := by omega
      have e2 : t + (h + 2) - 1 = t + h + 1 := by omega
      rw [e1, e2]
      rw [show (h + 2) * (w + 2) = (w + 1) + 1 + ((h + 1) + ((w + 1) + (h + h * w))) by ring,
        seg_right t l (l + w + 1) (t + h + 1) t (by omega) (w + 1) l _ (by omega),
        inc_eq t (by omega),
        seg_down (l + w + 1) l (l + w + 1) (t + h + 1) (t + 1) (by omega) h (t + 1) _ (by omega),
        dec_eq (l + w + 1) (by omega) (by omega),
        show l + w + 1 - 1 = l + w by omega,
        seg_left (t + h + 1) l (l + w) (t + h + 1) (t + 1) w (l + w) _ rfl (by omega),
        dec_eq (t + h + 1) (by omega) (by omega),
        show t + h + 1 - 1 = t + h by omega]
      rw [spiralOrder]
      simp only [List.append_assoc]
      congr 1
      congr 1
      congr 1
      match h with
      | 0 => simp [visits, spiralOrder, colUp]
      | h + 1 =>
        rw [show h + 1 + (h + 1) * w = h + 1 + (h + 1) * w by rfl,
          seg_up l l (l + w) (t + (h + 1)) (t + 1) h (t + (h + 1)) _ (by omega) (by omega),
          inc_eq l (by omega)]
        congr 1
        have := ih (h + 1) (by omega) w (t + 1) (l + 1) (by omega) (by omega)
        rw [show l + 1 + w - 1 = l + w by omega,
          show t + 1 + (h + 1) - 1 = t + (h + 1) by omega] at this
        exact this

/-- The examples of the test, and one row, one column and one cell. -/
theorem visit_order_examples :
    visit_order [[1, 2], [3, 4]] = some [some 1, some 2, some 4, some 3] ∧
    visit_order [[1, 2, 3, 4], [5, 6, 7, 8], [9, 10, 11, 12], [13, 14, 15, 16]] =
      some [some 1, some 2, some 3, some 4, some 8, some 12, some 16, some 15, some 14,
        some 13, some 9, some 5, some 6, some 7, some 11, some 10] ∧
    visit_order [[1, 2, 3], [4, 5, 6], [7, 8, 9], [10, 11, 12]] =
      some [some 1, some 2, some 3, some 6, some 9, some 12, some 11, some 10, some 7,
        some 4, some 5, some 8] ∧
    visit_order [[1, 2, 3]] = some [some 1, some 2, some 3] ∧
    visit_order [[1], [2], [3]] = some [some 1, some 2, some 3] ∧
    visit_order [[1]] = some [some 1] := by
  decide

/-- C26. For every non-empty rectangular matrix (`nrow ≥ 1`, `ncol ≥ 1`, all
rows of length `ncol`; its `nrow * ncol` cells fit in memory, so their number
is below `2 ^ 64`), the sequence of cells `spiral2d` passes to the visitor is
the clockwise spiral order starting at the top-left cell: top row left to
right, right column downwards, bottom row right to left, left column upwards,
then the same on the remaining inner matrix. -/
theorem spiral2d_clockwise {T : Type} (m : List (List T)) (ncol : Nat) (hrow : 1 ≤ m.length)
    (hcol : 1 ≤ ncol) (hrect : ∀ row ∈ m, row.length = ncol)
    (hsize : m.length * ncol < 2 ^ 64) :
    spiral2d m = some (spiralOrder 0 0 m.length ncol) := by
  cases m with
  | nil => simp at hrow
  | cons row0 rows =>
    have h0 : row0.length = ncol := hrect row0 (List.mem_cons_self _ _)
    have hne : row0.isEmpty = false := by
      cases row0 with
      | nil => simp at h0; omega
      | cons _ _ => rfl
    have hn1 : (row0 :: rows).length < 2 ^ 64 := by
      calc (row0 :: rows).length = (row0 :: rows).length * 1 := (Nat.mul_one _).symm
        _ ≤ (row0 :: rows).length * ncol := Nat.mul_le_mul_left _ hcol
        _ < 2 ^ 64 := hsize
    have hn2 : ncol < 2 ^ 64 := by
      calc ncol = 1 * ncol := (Nat.one_mul _).symm
        _ ≤ (row0 :: rows).length * ncol := Nat.mul_le_mul_right _ hrow
        _ < 2 ^ 64 := hsize
    unfold spiral2d
    simp only [hne, Bool.false_eq_true, if_false, h0, Nat.mod_eq_of_lt hsize]
    have := visits_spiral (row0 :: rows).length ncol 0 0 (by omega) (by omega)
    unfold start
    rw [dec_eq ncol hcol hn2, dec_eq _ hrow hn1]
    simp only [Nat.zero_add] at this
    rw [this]

theorem spiral2d_clockwise_witness :
    spiral2d [[1, 2, 3], [4, 5, 6], [7, 8, 9], [10, 11, 12]] =
      some (spiralOrder 0 0 ([[1, 2, 3], [4, 5, 6], [7, 8, 9], [10, 11, 12]] :
        List (List Nat)).length 3) :=
  spiral2d_clockwise [[1, 2, 3], [4, 5, 6], [7, 8, 9], [10, 11, 12]] 3 (by decide) (by decide)
    (by decide) (by decide)

end Spiral2d

/-! # Random sample of a stream: proofs -/

namespace Randstream

section Proofs

variable {T : Type}

/-- With `k = 0` the test `samples.size() == k` never holds: the first loop
reads the whole stream into `samples`. -/
theorem fill_zero : ∀ (is samples : List T), fill 0 is samples = (samples ++ is, []) := by
  intro is
  induction is with
  | nil => intro samples; simp [fill]
  | cons x is ih =>
    intro samples
    rw [fill, if_neg (by simp), ih]
    simp

/-- With `k ≥ 1` the first loop moves values from the stream to `samples`
until there are `k`. -/
theorem fill_spec (k : Nat) : ∀ (is samples : List T), samples.length < k →
    k ≤ samples.length + is.length →
    fill k is samples =
      (samples ++ is.take (k - samples.length), is.drop (k - samples.length)) := by
  intro is
  induction is with
  | nil => intro samples h1 h2; simp at h2; omega
  | cons x is ih =>
    intro samples h1 h2
    rw [fill]
    by_cases h : (samples ++ [x]).length = k
    · rw [if_pos h]
      have : k - samples.length = 1 := by simp at h; omega
      rw [this]
      simp
    · rw [if_neg h]
      have hl : (samples ++ [x]).length = samples.length + 1 := by simp
      rw [ih (samples ++ [x]) (by omega) (by simp at h2 ⊢; omega), hl]
      have : k - samples.length = (k - (samples.length + 1)) + 1 := by omega
      rw [this]
      simp

theorem forall2_set {α β : Type} {R : α → β → Prop} {l1 : List α} {l2 : List β}
    (h : List.Forall₂ R l1 l2) (a : α) (b : β) (hab : R a b) :
    ∀ j, List.Forall₂ R (l1.set j a) (l2.set j b) := by
  induction h with
  | nil => intro j; simp
  | cons hxy _ ih =>
    intro j
    cases j with
    | zero => exact List.Forall₂.cons hab (by assumption)
    | succ j => exact List.Forall₂.cons hxy (ih j)

theorem nodup_set {α : Type} : ∀ (l : List α) (a : α) (j : Nat), l.Nodup → a ∉ l →
    (l.set j a).Nodup := by
  intro l
  induction l with
  | nil => intro a j _ _; simp
  | cons y ys ih =>
    intro a j hn ha
    rw [List.nodup_cons] at hn
    rw [List.mem_cons, not_or] at ha
    cases j with
    | zero =>
      rw [List.set_cons_zero, List.nodup_cons]
      exact ⟨ha.2, hn.2⟩
    | succ j =>
      rw [List.set_cons_succ, List.nodup_cons]
      refine ⟨?_, ih a j hn.2 ha.2⟩
      intro hy
      rcases List.mem_or_eq_of_mem_set hy with h | h
      · exact hn.1 h
      · exact ha.1 h.symm

theorem forall2_mem_right {α β : Type} {R : α → β → Prop} {l1 : List α} {l2 : List β}
    (h : List.Forall₂ R l1 l2) : ∀ b ∈ l2, ∃ a, a ∈ l1 ∧ R a b := by
  induction h with
  | nil => intro b hb; simp at hb
  | cons hxy _ ih =>
    intro b hb
    rcases List.mem_cons.1 hb with h | h
    · subst h
      exact ⟨_, List.mem_cons_self _ _, hxy⟩
    · obtain ⟨a, ha, hr⟩ := ih b h
      exact ⟨a, List.mem_cons_of_mem _ ha, hr⟩

/-- The second loop keeps `k` samples, each from a stream position of its
own. -/
theorem replace_spec (S : List T) (k : Nat) (draw : Nat → Nat) :
    ∀ (is : List T) (n : Nat) (samples : List T) (idx : List Nat), S.drop n = is →
      List.Forall₂ (fun x i => S[i]? = some x) samples idx → idx.Nodup → (∀ i ∈ idx, i < n) →
      ∃ idx' : List Nat,
        List.Forall₂ (fun x i => S[i]? = some x) (replace k draw is n samples) idx' ∧
        idx'.Nodup ∧ idx'.length = idx.length := by
  intro is
  induction is with
  | nil =>
    intro n samples idx _ hf hn _
    exact ⟨idx, hf, hn, rfl⟩
  | cons x is ih =>
    intro n samples idx hd hf hn hlt
    have hx : S[n]? = some x := by
      have := congrArg (fun l => l[0]?) hd
      simpa using this
    have hd' : S.drop (n + 1) = is := by
      have := congrArg List.tail hd
      simpa using this
    rw [replace]
    by_cases h : draw (n + 1) ≤ k
    · rw [if_pos h]
      obtain ⟨idx', g1, g2, g4⟩ := ih (n + 1) (samples.set (draw (n + 1) - 1) x)
        (idx.set (draw (n + 1) - 1) n) hd' (forall2_set hf x n hx _)
        (nodup_set idx n _ hn (fun hmem => by have := hlt n hmem; omega))
        (by
          intro i hi
          rcases List.mem_or_eq_of_mem_set hi with h' | h'
          · have := hlt i h'; omega
          · omega)
      exact ⟨idx', g1, g2, by rw [g4, List.length_set]⟩
    · rw [if_neg h]
      exact ih (n + 1) samples idx hd' hf hn (fun i hi => by have := hlt i hi; omega)

theorem forall2_take_range (S : List T) (k : Nat) (hk : k ≤ S.length) :
    List.Forall₂ (fun x i => S[i]? = some x) (S.take k) (List.range k) := by
  rw [List.forall₂_iff_get]
  refine ⟨by simp [hk], ?_⟩
  intro i h1 h2
  simp only [List.get_eq_getElem, List.getElem_range, List.getElem_take]
  rw [List.getElem?_eq_getElem]

/-- Samples taken from positions of the stream that differ form a
sub-multiset of the stream. -/
theorem subperm_of_positions (S samples : List T) (idx : List Nat)
    (hf : List.Forall₂ (fun x i => S[i]? = some x) samples idx) (hn : idx.Nodup) :
    (∀ i ∈ idx, i < S.length) ∧ samples.Subperm S := by
  have hlt : ∀ i ∈ idx, i < S.length := by
    intro i hi
    obtain ⟨x, _, hx⟩ := forall2_mem_right hf i hi
    by_contra hc
    rw [List.getElem?_eq_none (Nat.le_of_not_lt hc)] at hx
    simp at hx
  refine ⟨hlt, ?_⟩
  have h1 : samples.map some = idx.map (fun i => S[i]?) := by
    have : List.Forall₂ (fun a b => a = b) (samples.map some) (idx.map (fun i => S[i]?)) := by
      rw [List.forall₂_map_left_iff, List.forall₂_map_right_iff]
      exact hf.imp (fun _ _ h => h.symm)
    rw [List.forall₂_eq_eq_eq] at this
    exact this
  have h2 : (List.range S.length).map (fun i => S[i]?) = S.map some := by
    apply List.ext_getElem
    · simp
    · intro n hn1 hn2
      simp at hn1
      simp [List.getElem?_eq_getElem hn1]
  have h3 : idx.Subperm (List.range S.length) :=
    List.subperm_of_subset hn (fun i hi => List.mem_range.2 (hlt i hi))
  have h4 : (Multiset.map (fun i => S[i]?) (idx : Multiset Nat)) ≤
      Multiset.map (fun i => S[i]?) (List.range S.length : Multiset Nat) :=
    Multiset.map_le_map (Multiset.coe_le.2 h3)
  rw [Multiset.map_coe, Multiset.map_coe, ← h1, h2, ← Multiset.map_coe, ← Multiset.map_coe,
    Multiset.map_le_map_iff (Option.some_injective T)] at h4
  exact Multiset.coe_le.1 h4

/-- For `k ≥ 1`, a stream of at least `k` values and draws in `[1, n]`,
`randstream` returns exactly `k` elements, taken from `k` distinct stream
positions: a sub-multiset of the stream. -/
theorem randstream_sample (S : List T) (k : Nat) (draw : Nat → Nat)
    (_hdraw : ∀ n, 1 ≤ draw n ∧ draw n ≤ n) (hk : 1 ≤ k) (hn : k ≤ S.length) :
    (randstream S k draw).length = k ∧ (randstream S k draw).Subperm S ∧
      ∃ idx : List Nat, idx.Nodup ∧ (∀ i ∈ idx, i < S.length) ∧
        List.Forall₂ (fun x i => S[i]? = some x) (randstream S k draw) idx := by
  unfold randstream
  rw [fill_spec k S [] (by simpa using hk) (by simpa using hn)]
  simp only [List.length_nil, Nat.sub_zero, List.nil_append]
  obtain ⟨idx, h1, h2, h3⟩ := replace_spec S k draw (S.drop k) k (S.take k) (List.range k) rfl
    (forall2_take_range S k hn) (List.nodup_range k) (fun i hi => List.mem_range.1 hi)
  obtain ⟨h4, h5⟩ := subperm_of_positions S _ idx h1 h2
  refine ⟨?_, h5, idx, h2, h4, h1⟩
  rw [h1.length_eq, h3, List.length_range]

/-- C28. With `k = 0` the function returns the whole stream, not a sample of
`k = 0` elements: the first loop compares `samples.size()` with `k` only after
it has added an element.  For the stream `5` it returns the one element
`5`. -/
theorem randstream_zero_returns_stream :
    (∀ (T : Type) (is : List T) (draw : Nat → Nat), randstream is 0 draw = is) ∧
      (randstream [5] 0 (fun _ => 1)).length = 1 := by
  refine ⟨?_, by decide⟩
  intro T is draw
  unfold randstream
  rw [fill_zero]
  simp [replace]

end Proofs

end Randstream

/-! # Top-k similar movies: proofs -/

namespace TopKMovies

section Users

variable {M U : Type} [DecidableEq M] [DecidableEq U]

theorem lookup_addUser (m : M) (u : U) : ∀ (users : List (M × Finset U)) (a : M),
    lookup (addUser users m u) a =
      if a = m then some (insert u ((lookup users m).getD ∅)) else lookup users a := by
  intro users
  induction users with
  | nil =>
    intro a
    by_cases h : a = m
    · subst h; simp [addUser, lookup]
    · simp [addUser, lookup, h, Ne.symm h]
  | cons p users ih =>
    intro a
    obtain ⟨m', s⟩ := p
    by_cases hm : m' = m
    · subst hm
      by_cases h : a = m'
      · subst h; simp [addUser, lookup]
      · simp [addUser, lookup, h, Ne.symm h]
    · by_cases h : a = m
      · subst h
        simp [addUser, lookup, hm, ih]
      · by_cases h' : m' = a
        · simp [addUser, lookup, hm, h, h']
        · simp [addUser, lookup, hm, h, h', ih]

theorem keys_addUser (m : M) (u : U) : ∀ (users : List (M × Finset U)),
    (addUser users m u).map Prod.fst =
      if m ∈ users.map Prod.fst then users.map Prod.fst else users.map Prod.fst ++ [m] := by
  intro users
  induction users with
  | nil => simp [addUser]
  | cons p users ih =>
    obtain ⟨m', s⟩ := p
    by_cases hm : m' = m
    · subst hm; simp [addUser]
    · by_cases h : m ∈ users.map Prod.fst
      · simp [addUser, hm, ih, h]
      · simp [addUser, hm, ih, h, Ne.symm hm]

omit [DecidableEq U] in
theorem lookup_eq_some_iff : ∀ (users : List (M × Finset U)), (users.map Prod.fst).Nodup →
    ∀ (a : M) (s : Finset U), lookup users a = some s ↔ (a, s) ∈ users := by
  intro users
  induction users with
  | nil => intro _ a s; simp [lookup]
  | cons p users ih =>
    intro hn a s
    obtain ⟨m', s'⟩ := p
    rw [List.map_cons, List.nodup_cons] at hn
    by_cases h : m' = a
    · subst h
      simp only [lookup, if_true, Option.some.injEq, List.mem_cons, Prod.mk.injEq, true_and]
      constructor
      · intro h1; exact Or.inl h1.symm
      · rintro (h1 | h1)
        · exact h1.symm
        · exact absurd (List.mem_map_of_mem Prod.fst h1) hn.1
    · simp only [lookup, h, if_false, List.mem_cons, Prod.mk.injEq]
      rw [ih hn.2 a s]
      constructor
      · exact Or.inr
      · rintro (⟨h1, _⟩ | h1)
        · exact absurd h1.symm h
        · exact h1

theorem usersOf_append (movies : List (M × U)) (m : M) (u : U) (a : M) :
    usersOf (movies ++ [(m, u)]) a =
      if a = m then insert u (usersOf movies a) else usersOf movies a := by
  unfold usersOf
  by_cases h : a = m
  · subst h
    simp only [List.filter_append, List.map_append, List.toFinset_append, if_true]
    ext x
    simp
    tauto
  · simp [List.filter_append, h, Ne.symm h]

theorem usersOf_of_not_mem (movies : List (M × U)) (a : M) (h : a ∉ movies.map Prod.fst) :
    usersOf movies a = ∅ := by
  unfold usersOf
  rw [List.toFinset_eq_empty_iff, List.map_eq_nil_iff, List.filter_eq_nil_iff]
  intro p hp hpa
  apply h
  simp only [decide_eq_true_eq] at hpa
  rw [← hpa]
  exact List.mem_map_of_mem Prod.fst hp

/-- The map `users` has one entry for each movie of the table, with the set
of the users of the movie. -/
theorem buildUsers_spec (movies : List (M × U)) :
    ((buildUsers movies).map Prod.fst).Nodup ∧
      (∀ a, a ∈ (buildUsers movies).map Prod.fst ↔ a ∈ movies.map Prod.fst) ∧
      ∀ a, lookup (buildUsers movies) a =
        if a ∈ movies.map Prod.fst then some (usersOf movies a) else none := by
  unfold buildUsers
  induction movies using List.reverseRecOn with
  | nil => simp [lookup]
  | append_singleton movies p ih =>
    obtain ⟨m, u⟩ := p
    obtain ⟨h1, h2, h3⟩ := ih
    rw [List.foldl_append, List.foldl_cons, List.foldl_nil]
    refine ⟨?_, ?_, ?_⟩
    · rw [keys_addUser]
      by_cases hm : m ∈ (List.foldl (fun users m => addUser users m.1 m.2) [] movies).map Prod.fst
      · rw [if_pos hm]; exact h1
      · rw [if_neg hm, List.nodup_append]
        refine ⟨h1, List.nodup_singleton m, ?_⟩
        intro x hx hx'
        rw [List.mem_singleton] at hx'
        subst hx'
        exact hm hx
    · intro a
      rw [keys_addUser]
      by_cases hm : m ∈ (List.foldl (fun users m => addUser users m.1 m.2) [] movies).map Prod.fst
      · rw [if_pos hm, h2 a]
        simp only [List.map_append, List.map_cons, List.map_nil, List.mem_append,
          List.mem_singleton]
        constructor
        · exact Or.inl
        · rintro (h | h)
          · exact h
          · rw [h]; exact (h2 m).1 hm
      · rw [if_neg hm]
        simp only [List.map_append, List.map_cons, List.map_nil, List.mem_append,
          List.mem_singleton, h2 a]
    · intro a
      rw [lookup_addUser, usersOf_append]
      by_cases ha : a = m
      · subst ha
        have hmem : a ∈ (movies ++ [(a, u)]).map Prod.fst := by simp
        rw [if_pos rfl, if_pos hmem, if_pos rfl, h3 a]
        by_cases hin : a ∈ movies.map Prod.fst
        · rw [if_pos hin]; rfl
        · rw [if_neg hin, usersOf_of_not_mem movies a hin]; rfl
      · rw [if_neg ha, if_neg ha, h3 a]
        have : a ∈ (movies ++ [(m, u)]).map Prod.fst ↔ a ∈ movies.map Prod.fst := by
          simp [ha]
        by_cases hin : a ∈ movies.map Prod.fst
        · rw [if_pos hin, if_pos (this.2 hin)]
        · rw [if_neg hin, if_neg (fun h => hin (this.1 h))]

end Users

section Loops

variable {M U D : Type} [DecidableEq M] [DecidableEq U] [LinearOrder D]
variable (pq : PriorityQueue M D) (div : Nat → Nat → D) (k : Nat)

theorem foldl_inner_skip (m1 : M × Finset U) (scored : List M) :
    ∀ (l : List (M × Finset U)) (acc : Option pq.Q),
      (∀ m2 ∈ l, m1.1 = m2.1 ∨ m2.1 ∈ scored) →
      l.foldl (inner pq div k m1 scored) acc = acc := by
  intro l
  induction l with
  | nil => intro acc _; rfl
  | cons m2 l ih =>
    intro acc h
    rw [List.foldl_cons]
    have hstep : inner pq div k m1 scored acc m2 = acc := by
      cases acc with
      | none => rfl
      | some q =>
        rcases h m2 (List.mem_cons_self _ _) with h1 | h1
        · simp [inner, h1]
        · by_cases h2 : m1.1 = m2.1
          · simp [inner, h2]
          · simp [inner, h2, h1]
    rw [hstep]
    exact ih acc (fun x hx => h x (List.mem_cons_of_mem _ hx))

theorem foldl_inner_take (m1 : M × Finset U) (scored : List M) :
    ∀ (l : List (M × Finset U)) (acc : Option pq.Q),
      (∀ m2 ∈ l, m1.1 ≠ m2.1 ∧ m2.1 ∉ scored) →
      l.foldl (inner pq div k m1 scored) acc =
        (l.map (fun y => (m1, y))).foldl (scoreStep pq div k) acc := by
  intro l
  induction l with
  | nil => intro acc _; rfl
  | cons m2 l ih =>
    intro acc h
    rw [List.foldl_cons, List.map_cons, List.foldl_cons]
    have hstep : inner pq div k m1 scored acc m2 = scoreStep pq div k acc (m1, m2) := by
      cases acc with
      | none => rfl
      | some q =>
        obtain ⟨h1, h2⟩ := h m2 (List.mem_cons_self _ _)
        simp [inner, scoreStep, h1, h2]
    rw [hstep]
    exact ih _ (fun x hx => h x (List.mem_cons_of_mem _ hx))

/-- The two nested loops score each entry of `users` with every later one. -/
theorem foldl_outer (users : List (M × Finset U)) (hn : (users.map Prod.fst).Nodup) :
    ∀ (suf pre : List (M × Finset U)) (acc : Option pq.Q), users = pre ++ suf →
      (suf.foldl (outer pq div k users) (acc, pre.map Prod.fst)).1 =
        (cands suf).foldl (scoreStep pq div k) acc := by
  intro suf
  induction suf with
  | nil => intro pre acc _; rfl
  | cons x suf ih =>
    intro pre acc hu
    rw [List.foldl_cons]
    have hn' := hn
    rw [hu, List.map_append, List.map_cons, List.nodup_append] at hn'
    obtain ⟨_, hn2, hdis⟩ := hn'
    rw [List.nodup_cons] at hn2
    have hinner : users.foldl (inner pq div k x (pre.map Prod.fst)) acc =
        (suf.map (fun y => (x, y))).foldl (scoreStep pq div k) acc := by
      rw [hu, List.foldl_append, List.foldl_cons]
      rw [foldl_inner_skip pq div k x (pre.map Prod.fst) pre acc
        (fun m2 h2 => Or.inr (List.mem_map_of_mem Prod.fst h2))]
      have hx : inner pq div k x (pre.map Prod.fst) acc x = acc := by
        cases acc with
        | none => rfl
        | some q => simp [inner]
      rw [hx]
      apply foldl_inner_take
      intro m2 h2
      have hm2 : m2.1 ∈ suf.map Prod.fst := List.mem_map_of_mem Prod.fst h2
      refine ⟨fun h => hn2.1 (h ▸ hm2), fun h => hdis h (List.mem_cons_of_mem _ hm2)⟩
    have hstep : outer pq div k users (acc, pre.map Prod.fst) x =
        ((suf.map (fun y => (x, y))).foldl (scoreStep pq div k) acc,
          (pre ++ [x]).map Prod.fst) := by
      unfold outer
      simp only [hinner, List.map_append, List.map_cons, List.map_nil]
    rw [hstep, ih (pre ++ [x]) _ (by rw [hu]; simp), cands, List.foldl_append]

end Loops

section Heap

variable {M U D : Type} [DecidableEq M] [DecidableEq U] [LinearOrder D]
variable (pq : PriorityQueue M D) (div : Nat → Nat → D) (k : Nat)

omit [DecidableEq M] in
theorem top_le_score (q : pq.Q) (t : M × M × D) (ht : pq.top q = some t) :
    ∀ e ∈ pq.toList q, t.2.2 ≤ e.2.2 := by
  intro e he
  have := pq.top_le q t ht e he
  simpa [GreaterThanScore] using this

omit [DecidableEq M] in
/-- Scoring one more pair keeps the invariant of the heap. -/
theorem consider_kept (hk : 1 ≤ k) (q : pq.Q) (P : List (M × M × D)) (hI : Kept pq k q P)
    (m1 m2 : M × Finset U) :
    ∃ q', consider pq div k q m1 m2 = some q' ∧
      Kept pq k q' ((m1.1, m2.1, similarity div m1.2 m2.2) :: P) := by
  obtain ⟨dropped, hperm, hlen, hle⟩ := hI
  have hP : (pq.toList q).length + dropped.length = P.length := by
    rw [← List.length_append]; exact hperm.length_eq
  unfold consider
  simp only [pq.size_eq]
  by_cases hsz : (pq.toList q).length < k
  · have hne : ¬ (pq.toList q).length = k := by omega
    simp only [hsz, if_true, hne, if_false]
    refine ⟨_, rfl, [], ?_, ?_, ?_⟩
    · have hd : dropped = [] := by
        apply List.eq_nil_of_length_eq_zero
        omega
      rw [hd, List.append_nil] at hperm
      rw [List.append_nil]
      exact (pq.toList_emplace q _).trans (hperm.cons _)
    · rw [(pq.toList_emplace q _).length_eq]
      simp only [List.length_cons]
      omega
    · intro d hd; simp at hd
  · simp only [hsz, if_false]
    have hk' : (pq.toList q).length = k := by omega
    cases ht : pq.top q with
    | none =>
      have := (pq.top_eq_none q).1 ht
      rw [this] at hk'
      simp at hk'
      omega
    | some t =>
      simp only []
      have htle := top_le_score pq q t ht
      have hpop := pq.pop_perm q t ht
      by_cases hlt : t.2.2 < similarity div m1.2 m2.2
      · simp only [hlt, if_true, hk']
        refine ⟨_, rfl, t :: dropped, ?_, ?_, ?_⟩
        · have h1 := pq.toList_emplace (pq.pop q) (m1.1, m2.1, similarity div m1.2 m2.2)
          refine (List.Perm.append_right _ h1).trans ?_
          rw [List.cons_append]
          refine List.Perm.cons _ ?_
          refine List.perm_middle.trans ?_
          rw [← List.cons_append]
          exact (List.Perm.append_right _ hpop).trans hperm
        · rw [(pq.toList_emplace (pq.pop q) _).length_eq]
          have := hpop.length_eq
          simp only [List.length_cons] at this ⊢
          omega
        · intro d hd e he
          have he' := (pq.toList_emplace (pq.pop q) _).subset he
          have hsub : ∀ x ∈ pq.toList (pq.pop q), x ∈ pq.toList q :=
            fun x hx => hpop.subset (List.mem_cons_of_mem _ hx)
          have htq : t ∈ pq.toList q := hpop.subset (List.mem_cons_self _ _)
          rcases List.mem_cons.1 hd with hd | hd
          · subst hd
            rcases List.mem_cons.1 he' with h | h
            · rw [h]; exact le_of_lt hlt
            · exact htle e (hsub e h)
          · rcases List.mem_cons.1 he' with h | h
            · rw [h]; exact le_trans (hle d hd t htq) (le_of_lt hlt)
            · exact hle d hd e (hsub e h)
      · simp only [hlt, if_false]
        refine ⟨q, rfl, (m1.1, m2.1, similarity div m1.2 m2.2) :: dropped, ?_, ?_, ?_⟩
        · exact List.perm_middle.trans (hperm.cons _)
        · simp only [List.length_cons]
          omega
        · intro d hd e he
          rcases List.mem_cons.1 hd with hd | hd
          · rw [hd]
            exact le_trans (not_lt.1 hlt) (htle e he)
          · exact hle d hd e he

/-- Scoring a list of pairs keeps the invariant of the heap. -/
theorem foldl_scoreStep_kept (hk : 1 ≤ k) :
    ∀ (L : List ((M × Finset U) × (M × Finset U))) (q : pq.Q) (P : List (M × M × D)),
      Kept pq k q P →
      ∃ q', L.foldl (scoreStep pq div k) (some q) = some q' ∧
        Kept pq k q' ((L.map (entry div)).reverse ++ P) := by
  intro L
  induction L with
  | nil => intro q P hI; exact ⟨q, rfl, by simpa using hI⟩
  | cons c L ih =>
    intro q P hI
    obtain ⟨q1, h1, hI1⟩ := consider_kept pq div k hk q P hI c.1 c.2
    obtain ⟨q2, h2, hI2⟩ := ih q1 _ hI1
    refine ⟨q2, ?_, ?_⟩
    · rw [List.foldl_cons]
      have : scoreStep pq div k (some q) c = some q1 := h1
      rw [this]
      exact h2
    · simpa [entry] using hI2

omit [DecidableEq M] in
/-- The final loop lists the heap in non-decreasing order of score. -/
theorem drain_spec : ∀ (n : Nat) (q : pq.Q) (scores : List (M × M × D)), pq.size q = n →
    ∃ l, drain pq n q scores = scores ++ l ∧ l.Perm (pq.toList q) ∧
      l.Sorted (fun a b => a.2.2 ≤ b.2.2) := by
  intro n
  induction n with
  | zero =>
    intro q scores hn
    refine ⟨[], by simp [drain], ?_, List.sorted_nil⟩
    rw [pq.size_eq] at hn
    rw [List.eq_nil_of_length_eq_zero hn]
  | succ n ih =>
    intro q scores hn
    rw [pq.size_eq] at hn
    cases ht : pq.top q with
    | none =>
      have := (pq.top_eq_none q).1 ht
      rw [this] at hn
      simp at hn
    | some v =>
      have hpop := pq.pop_perm q v ht
      have hsz : pq.size (pq.pop q) = n := by
        rw [pq.size_eq]
        have := hpop.length_eq
        simp only [List.length_cons] at this
        omega
      obtain ⟨l, h1, h2, h3⟩ := ih (pq.pop q) (scores ++ [v]) hsz
      refine ⟨v :: l, ?_, (h2.cons v).trans hpop, ?_⟩
      · simp only [drain, ht]
        rw [h1]
        simp
      · rw [List.sorted_cons]
        refine ⟨?_, h3⟩
        intro b hb
        exact top_le_score pq q v ht b (hpop.subset (List.mem_cons_of_mem _ (h2.subset hb)))

end Heap

section Pairs

variable {M U D : Type} [DecidableEq M] [DecidableEq U] [LinearOrder D]

omit [DecidableEq M] [DecidableEq U] in
theorem cands_length : ∀ (l : List (M × Finset U)), (cands l).length = l.length.choose 2 := by
  intro l
  induction l with
  | nil => rfl
  | cons x rest ih =>
    rw [cands, List.length_append, List.length_map, ih, List.length_cons,
      Nat.choose_succ_succ, Nat.choose_one_right]

omit [DecidableEq M] [DecidableEq U] in
theorem mem_cands : ∀ (l : List (M × Finset U)) (c : (M × Finset U) × (M × Finset U)),
    c ∈ cands l → c.1 ∈ l ∧ c.2 ∈ l ∧ ((l.map Prod.fst).Nodup → c.1.1 ≠ c.2.1) := by
  intro l
  induction l with
  | nil => intro c hc; simp [cands] at hc
  | cons x rest ih =>
    intro c hc
    rw [cands, List.mem_append, List.mem_map] at hc
    rcases hc with ⟨y, hy, rfl⟩ | hc
    · refine ⟨List.mem_cons_self _ _, List.mem_cons_of_mem _ hy, ?_⟩
      intro hn heq
      rw [List.map_cons, List.nodup_cons] at hn
      exact hn.1 (heq ▸ List.mem_map_of_mem Prod.fst hy)
    · obtain ⟨h1, h2, h3⟩ := ih c hc
      refine ⟨List.mem_cons_of_mem _ h1, List.mem_cons_of_mem _ h2, ?_⟩
      intro hn
      rw [List.map_cons, List.nodup_cons] at hn
      exact h3 hn.2

omit [DecidableEq M] [DecidableEq U] in
theorem cands_cover : ∀ (l : List (M × Finset U)) (x y : M × Finset U), x ∈ l → y ∈ l →
    x ≠ y → (x, y) ∈ cands l ∨ (y, x) ∈ cands l := by
  intro l
  induction l with
  | nil => intro x y hx; simp at hx
  | cons z rest ih =>
    intro x y hx hy hne
    rw [cands]
    rcases List.mem_cons.1 hx with hx | hx
    · rcases List.mem_cons.1 hy with hy | hy
      · exact absurd (hx.trans hy.symm) hne
      · left
        rw [hx]
        exact List.mem_append.2 (Or.inl (List.mem_map.2 ⟨y, hy, rfl⟩))
    · rcases List.mem_cons.1 hy with hy | hy
      · right
        rw [hy]
        exact List.mem_append.2 (Or.inl (List.mem_map.2 ⟨x, hx, rfl⟩))
      · rcases ih x y hx hy hne with h | h
        · exact Or.inl (List.mem_append.2 (Or.inr h))
        · exact Or.inr (List.mem_append.2 (Or.inr h))

omit [DecidableEq M] [LinearOrder D] in
theorem cands_pairwise (div : Nat → Nat → D) : ∀ (l : List (M × Finset U)),
    (l.map Prod.fst).Nodup →
    ((cands l).map (entry div)).Pairwise (fun e f => ¬ SamePair e f) := by
  intro l
  induction l with
  | nil => intro _; simp [cands]
  | cons x rest ih =>
    intro hn
    have hn' := hn
    rw [List.map_cons, List.nodup_cons] at hn'
    rw [cands, List.map_append, List.pairwise_append]
    refine ⟨?_, ih hn'.2, ?_⟩
    · rw [List.map_map, List.pairwise_map]
      have hrest : rest.Pairwise (fun a b => a.1 ≠ b.1) := by
        have := hn'.2
        rw [List.Nodup, List.pairwise_map] at this
        exact this
      refine hrest.imp_of_mem ?_
      intro a b ha _ hab
      rintro (⟨_, h⟩ | ⟨h, _⟩)
      · exact hab h
      · exact hn'.1 (by
          simp only [entry, Function.comp] at h
          rw [h]
          exact List.mem_map_of_mem Prod.fst (by assumption))
    · intro e he f hf
      rw [List.map_map, List.mem_map] at he
      obtain ⟨y, hy, rfl⟩ := he
      rw [List.mem_map] at hf
      obtain ⟨c, hc, rfl⟩ := hf
      obtain ⟨h1, h2, _⟩ := mem_cands rest c hc
      rintro (⟨h, _⟩ | ⟨h, _⟩)
      · simp only [entry, Function.comp] at h
        exact hn'.1 (h ▸ List.mem_map_of_mem Prod.fst h1)
      · simp only [entry, Function.comp] at h
        exact hn'.1 (h ▸ List.mem_map_of_mem Prod.fst h2)

end Pairs

section Claims

variable {M U D : Type} [DecidableEq M] [DecidableEq U] [LinearOrder D]

omit [DecidableEq M] [LinearOrder D] in
theorem samePair_symm (e f : M × M × D) (h : SamePair e f) : SamePair f e := by
  rcases h with ⟨h1, h2⟩ | ⟨h1, h2⟩
  · exact Or.inl ⟨h1.symm, h2.symm⟩
  · exact Or.inr ⟨h2.symm, h1.symm⟩

/-- C27. For every `k ≥ 1`, every movie table, every heap that keeps the
contract of `std::priority_queue` and every traversal order of the map,
`topk_similar_movies` returns `min(k, number of unordered pairs of distinct
movies)` scores in non-decreasing order of score; each entry is
`(a, b, |users(a) ∩ users(b)| / |users(a) ∪ users(b)|)` for a pair of
distinct movies of the table, no unordered pair appears twice, and every pair
not returned has a score `≤` every returned score. -/
theorem topk_similar_movies_spec (pq : PriorityQueue M D)
    (iter : List (M × Finset U) → List (M × Finset U)) (div : Nat → Nat → D)
    (movies : List (M × U)) (k : Nat) (hiter : ∀ l, (iter l).Perm l) (hk : 1 ≤ k) :
    ∃ scores, topk_similar_movies pq iter div movies k = some scores ∧
      scores.length = min k ((movies.map Prod.fst).toFinset.card.choose 2) ∧
      scores.Sorted (fun e f => e.2.2 ≤ f.2.2) ∧
      (∀ e ∈ scores, e.1 ∈ movies.map Prod.fst ∧ e.2.1 ∈ movies.map Prod.fst ∧ e.1 ≠ e.2.1 ∧
        e.2.2 = div (usersOf movies e.1 ∩ usersOf movies e.2.1).card
          (usersOf movies e.1 ∪ usersOf movies e.2.1).card) ∧
      scores.Pairwise (fun e f => ¬ SamePair e f) ∧
      (∀ a ∈ movies.map Prod.fst, ∀ b ∈ movies.map Prod.fst, a ≠ b →
        (∃ e ∈ scores, (e.1 = a ∧ e.2.1 = b) ∨ (e.1 = b ∧ e.2.1 = a)) ∨
        ∀ e ∈ scores, div (usersOf movies a ∩ usersOf movies b).card
          (usersOf movies a ∪ usersOf movies b).card ≤ e.2.2) := by
  obtain ⟨hnod, hkeys, hlook⟩ := buildUsers_spec movies
  have hperm := hiter (buildUsers movies)
  have hn : ((iter (buildUsers movies)).map Prod.fst).Nodup :=
    (hperm.map Prod.fst).nodup_iff.2 hnod
  -- the entries of the map
  have hmem : ∀ x ∈ iter (buildUsers movies),
      x.1 ∈ movies.map Prod.fst ∧ x.2 = usersOf movies x.1 := by
    intro x hx
    have h1 : (x.1, x.2) ∈ buildUsers movies := hperm.subset hx
    have h2 := (lookup_eq_some_iff _ hnod x.1 x.2).2 h1
    rw [hlook x.1] at h2
    by_cases hin : x.1 ∈ movies.map Prod.fst
    · rw [if_pos hin] at h2
      exact ⟨hin, (Option.some.inj h2).symm⟩
    · rw [if_neg hin] at h2
      simp at h2
  have hhas : ∀ a ∈ movies.map Prod.fst, (a, usersOf movies a) ∈ iter (buildUsers movies) := by
    intro a ha
    apply hperm.symm.subset
    rw [← lookup_eq_some_iff _ hnod, hlook a, if_pos ha]
  have hcount : (iter (buildUsers movies)).length = (movies.map Prod.fst).toFinset.card := by
    rw [hperm.length_eq, ← List.length_map (buildUsers movies) Prod.fst,
      ← List.toFinset_card_of_nodup hnod]
    congr 1
    ext a
    simp only [List.mem_toFinset]
    exact hkeys a
  -- the run
  have hfold := foldl_outer pq div k (iter (buildUsers movies)) hn
    (iter (buildUsers movies)) [] (some pq.nil) rfl
  have h0 : Kept pq k pq.nil [] := ⟨[], by simp [pq.toList_nil], by simp [pq.toList_nil],
    fun d hd => by simp at hd⟩
  obtain ⟨q, hq, dropped, hP, hlen, hle⟩ := foldl_scoreStep_kept pq div k hk
    (cands (iter (buildUsers movies))) pq.nil [] h0
  obtain ⟨l, hl, hlperm, hsorted⟩ := drain_spec pq (pq.size q) q [] rfl
  rw [List.nil_append] at hl
  rw [List.append_nil] at hP hlen
  have hrun : topk_similar_movies pq iter div movies k = some l := by
    unfold topk_similar_movies
    simp only [List.map_nil] at hfold
    simp only [hfold, hq, hl]
  have hsub : ∀ e ∈ l, ∃ c ∈ cands (iter (buildUsers movies)), entry div c = e := by
    intro e he
    have h1 : e ∈ pq.toList q ++ dropped := List.mem_append.2 (Or.inl (hlperm.subset he))
    have h2 := List.mem_reverse.1 (hP.subset h1)
    obtain ⟨c, hc, hce⟩ := List.mem_map.1 h2
    exact ⟨c, hc, hce⟩
  refine ⟨l, hrun, ?_, hsorted, ?_, ?_, ?_⟩
  · rw [hlperm.length_eq, hlen, List.length_reverse, List.length_map, cands_length, hcount]
  · intro e he
    obtain ⟨c, hc, rfl⟩ := hsub e he
    obtain ⟨h1, h2, h3⟩ := mem_cands _ c hc
    obtain ⟨g1, g2⟩ := hmem c.1 h1
    obtain ⟨g3, g4⟩ := hmem c.2 h2
    refine ⟨g1, g3, h3 hn, ?_⟩
    simp only [entry, similarity]
    rw [← g2, ← g4]
  · have h1 : ((cands (iter (buildUsers movies))).map (entry div)).reverse.Pairwise
        (fun e f => ¬ SamePair e f) := by
      rw [List.pairwise_reverse]
      exact (cands_pairwise div _ hn).imp (fun h h' => h (samePair_symm _ _ h'))
    have h2 : (pq.toList q ++ dropped).Pairwise (fun e f => ¬ SamePair e f) :=
      (hP.pairwise_iff (fun h h' => h (samePair_symm _ _ h'))).2 h1
    have h3 := (List.pairwise_append.1 h2).1
    exact (hlperm.pairwise_iff (fun h h' => h (samePair_symm _ _ h'))).2 h3
  · intro a ha b hb hab
    have hxa := hhas a ha
    have hxb := hhas b hb
    have hne : (a, usersOf movies a) ≠ (b, usersOf movies b) := by
      intro h; exact hab (Prod.mk.inj h).1
    have key : ∀ c ∈ cands (iter (buildUsers movies)),
        ((c.1.1 = a ∧ c.2.1 = b) ∨ (c.1.1 = b ∧ c.2.1 = a)) →
        (entry div c).2.2 = div (usersOf movies a ∩ usersOf movies b).card
          (usersOf movies a ∪ usersOf movies b).card →
        (∃ e ∈ l, (e.1 = a ∧ e.2.1 = b) ∨ (e.1 = b ∧ e.2.1 = a)) ∨
        ∀ e ∈ l, div (usersOf movies a ∩ usersOf movies b).card
          (usersOf movies a ∪ usersOf movies b).card ≤ e.2.2 := by
      intro c hc hnames hscore
      have h1 : entry div c ∈ pq.toList q ++ dropped :=
        hP.symm.subset (List.mem_reverse.2 (List.mem_map_of_mem _ hc))
      rcases List.mem_append.1 h1 with h | h
      · left
        exact ⟨entry div c, hlperm.symm.subset h, hnames⟩
      · right
        intro e he
        rw [← hscore]
        exact hle _ h e (hlperm.subset he)
    rcases cands_cover _ _ _ hxa hxb hne with h | h
    · exact key _ h (Or.inl ⟨rfl, rfl⟩) rfl
    · refine key _ h (Or.inr ⟨rfl, rfl⟩) ?_
      simp only [entry, similarity]
      rw [Finset.inter_comm, Finset.union_comm]

theorem topk_similar_movies_spec_witness :
    ∃ scores, topk_similar_movies (ListQueue Nat ℚ) id (fun a b => (a : ℚ) / (b : ℚ))
        [(1, 1), (1, 2), (2, 2), (2, 3), (3, 3)] 2 = some scores ∧
      scores.length = min 2 ((([(1, 1), (1, 2), (2, 2), (2, 3), (3, 3)] :
        List (Nat × Nat)).map Prod.fst).toFinset.card.choose 2) ∧
      scores.Sorted (fun e f => e.2.2 ≤ f.2.2) ∧
      (∀ e ∈ scores,
        e.1 ∈ ([(1, 1), (1, 2), (2, 2), (2, 3), (3, 3)] : List (Nat × Nat)).map Prod.fst ∧
        e.2.1 ∈ ([(1, 1), (1, 2), (2, 2), (2, 3), (3, 3)] : List (Nat × Nat)).map Prod.fst ∧
        e.1 ≠ e.2.1 ∧
        e.2.2 = (fun a b => (a : ℚ) / (b : ℚ))
          (usersOf [(1, 1), (1, 2), (2, 2), (2, 3), (3, 3)] e.1 ∩
            usersOf [(1, 1), (1, 2), (2, 2), (2, 3), (3, 3)] e.2.1).card
          (usersOf [(1, 1), (1, 2), (2, 2), (2, 3), (3, 3)] e.1 ∪
            usersOf [(1, 1), (1, 2), (2, 2), (2, 3), (3, 3)] e.2.1).card) ∧
      scores.Pairwise (fun e f => ¬ SamePair e f) ∧
      (∀ a ∈ ([(1, 1), (1, 2), (2, 2), (2, 3), (3, 3)] : List (Nat × Nat)).map Prod.fst,
        ∀ b ∈ ([(1, 1), (1, 2), (2, 2), (2, 3), (3, 3)] : List (Nat × Nat)).map Prod.fst,
        a ≠ b →
        (∃ e ∈ scores, (e.1 = a ∧ e.2.1 = b) ∨ (e.1 = b ∧ e.2.1 = a)) ∨
        ∀ e ∈ scores, (fun a b => (a : ℚ) / (b : ℚ))
          (usersOf [(1, 1), (1, 2), (2, 2), (2, 3), (3, 3)] a ∩
            usersOf [(1, 1), (1, 2), (2, 2), (2, 3), (3, 3)] b).card
          (usersOf [(1, 1), (1, 2), (2, 2), (2, 3), (3, 3)] a ∪
            usersOf [(1, 1), (1, 2), (2, 2), (2, 3), (3, 3)] b).card ≤ e.2.2) :=
  topk_similar_movies_spec (ListQueue Nat ℚ) id (fun a b => (a : ℚ) / (b : ℚ))
    [(1, 1), (1, 2), (2, 2), (2, 3), (3, 3)] 2 (fun l => List.Perm.refl l) (by decide)

end Claims

end TopKMovies
